import Mathlib

/-!
# gounstrip: rebuilding `.symtab` / `.strtab` from the Go `pclntab`

A shallow embedding of `gounstrip.c`.  Every C function of the source file is
a Lean function of the same name.  Byte buffers are lists of naturals (a byte
is read as `b % 256`), cursors (`uint8_t *iter`) are offsets into the buffer,
and a read that leaves the buffer is the explicit outcome `Failure.fault`
(the C program has undefined behaviour there).  A function that can stop the
process (`errx`, `abort`, `assert`) returns the failure together with the
container as it is at that point.  The ELF container library (libelf) and the
string-table library (libelftc) are not part of the source file; they are
modelled from the interface the specification describes.

The file has four parts: the model of the libraries and the program, the
pclntab layout of the specification with the closed forms of what the decoder
builds, the concrete inputs, and the theorems (lemmas first, then the claims
`C1` .. `C10` in order).
-/

set_option autoImplicit false

namespace Gounstrip

/-! ## Bytes and C strings -/

/-- A byte buffer.  An element `b` stands for the byte `b % 256`. -/
abbrev Bytes := List Nat

/-- The bytes of a C string literal of the source (ASCII), without the NUL. -/
def c_str (s : String) : Bytes := s.data.map Char.toNat

/-- Little-endian value of a run of bytes. -/
def le_value : Bytes → Nat
  | [] => 0
  | b :: bs => b % 256 + 256 * le_value bs

/-- The `n` bytes a `memcpy(_, buf + iter, n)` reads, `none` when they are not
all inside the buffer. -/
def peek (buf : Bytes) (iter n : Nat) : Option Bytes :=
  if iter + n ≤ buf.length then some ((buf.drop iter).take n) else none

/-- The NUL-terminated string at the head of a buffer (bytes before the first
NUL), `none` when the buffer ends before a NUL is met. -/
def c_string : Bytes → Option Bytes
  | [] => none
  | b :: bs => if b % 256 = 0 then some [] else (c_string bs).map (fun s => b % 256 :: s)

/-- The NUL-terminated string that starts at offset `off` of `buf`
(`&buf[off]` read as a `char *`). -/
def c_string_at (buf : Bytes) (off : Nat) : Option Bytes :=
  c_string (buf.drop off)

/-! ## Outcomes -/

/-- The ways a run stops before `return (0)`. -/
inductive Failure
  /-- `errx(2, "Usage: gounstrip <binary>")` -/
  | usage
  /-- `err(1, "open: %s", ...)` -/
  | open_failed
  /-- `errelf(1, "elf_begin")` -/
  | elf_begin
  /-- `errx(1, "%s: not an ELF file.")` -/
  | not_elf
  /-- `errelf(1, "getshstrndx")` -/
  | getshstrndx
  /-- `errelf(1, "gelf_getshdr")` -/
  | gelf_getshdr
  /-- `errelf(1, "elf_strptr")` -/
  | elf_strptr
  /-- `errx(1, "binary already has .symtab")` -/
  | has_symtab
  /-- `errx(1, "binary has .strtab but not .symtab???")` -/
  | has_strtab
  /-- `errx(1, "binary has no .shstrtab?")` -/
  | no_shstrtab
  /-- `assert(needed > 0)` fails -/
  | assert_needed
  /-- `errx(1, ".gopclntab not found")` -/
  | no_gopclntab
  /-- `errx(1, "cross-endian")` -/
  | cross_endian
  /-- `errx(1, "endian detection awry")` -/
  | endian_awry
  /-- `abort()` in `get_uptr`: unsupported pointer width -/
  | abort
  /-- a read outside the buffer (or through a NULL pointer): undefined in C -/
  | fault
  /-- `errelf(1, "elf_update")` -/
  | elf_update
  deriving DecidableEq, Repr

deriving instance DecidableEq for Except

/-! ## Cursor reads (`get_u32`, `get_u8`, `get_uptr`) -/

/-- Source `get_u32`: copy 4 bytes at the cursor, advance the cursor by 4. -/
def get_u32 (buf : Bytes) (iter : Nat) : Except Failure (Nat × Nat) :=
  match peek buf iter 4 with
  | none => .error .fault
  | some bs => .ok (le_value bs, iter + 4)

/-- Source `get_u8`: read the byte at the cursor, advance the cursor by 1. -/
def get_u8 (buf : Bytes) (iter : Nat) : Except Failure (Nat × Nat) :=
  match peek buf iter 1 with
  | none => .error .fault
  | some bs => .ok (le_value bs, iter + 1)

/-- Source `get_uptr`.  For a width other than 8 and 4 it aborts before any
read.  Otherwise `memcpy(dst, *iter, sizeof(u64))` copies 8 bytes from the
cursor whatever the width is, the cursor advances by `addr_size`, and the
value returned is the `u64` (width 8) or the `u32` (width 4: the first four
of the copied bytes; that the copy is longer than the `u32` it is made into
is not modelled). -/
def get_uptr (buf : Bytes) (iter addr_size : Nat) : Except Failure (Nat × Nat) :=
  if addr_size = 8 ∨ addr_size = 4 then
    match peek buf iter 8 with
    | none => .error .fault
    | some bs => .ok (le_value (bs.take addr_size), iter + addr_size)
  else .error .abort

/-! ## The string-table builder (libelftc) -/

/-- Modelled from the spec: the libelftc string table (`libelftc/libelftc.h`
is not among the sources).  "A single contiguous byte buffer, one entry per
distinct function name inserted in first-seen order, each entry
NUL-terminated; entry 0 conventionally empty.  Built via a deduplicating
insertion structure (insert-or-find by content) that returns a stable byte
offset for each distinct name."  `pool` is the byte buffer, `index` the
insert-or-find structure: the strings inserted so far with their offsets. -/
structure Elftc_String_Table where
  pool : Bytes
  index : List (Bytes × Nat)
  deriving DecidableEq, Repr

/-- Modelled from the spec: `elftc_string_table_create`; the new table holds
the empty entry 0 only. -/
def elftc_string_table_create : Elftc_String_Table :=
  { pool := [0], index := [] }

/-- Find by content in the insert-or-find structure. -/
def string_table_find (s : Bytes) : List (Bytes × Nat) → Option Nat
  | [] => none
  | (k, off) :: rest => if k = s then some off else string_table_find s rest

/-- Modelled from the spec: `elftc_string_table_insert`, insert-or-find by
content.  A string already inserted keeps its offset; a new one is appended to
the pool with its NUL and gets the offset it starts at. -/
def elftc_string_table_insert (st : Elftc_String_Table) (s : Bytes) :
    Elftc_String_Table × Nat :=
  match string_table_find s st.index with
  | some off => (st, off)
  | none =>
    ({ pool := st.pool ++ (s ++ [0]), index := st.index ++ [(s, st.pool.length)] },
      st.pool.length)

/-- Modelled from the spec: `elftc_string_table_image`, the packed byte image
and its size. -/
def elftc_string_table_image (st : Elftc_String_Table) : Bytes × Nat :=
  (st.pool, st.pool.length)

/-! ## The ELF container (libelf) -/

/-- The section header fields of `GElf_Shdr`. -/
structure GElf_Shdr where
  sh_name : Nat := 0
  sh_type : Nat := 0
  sh_flags : Nat := 0
  sh_addr : Nat := 0
  sh_offset : Nat := 0
  sh_size : Nat := 0
  sh_link : Nat := 0
  sh_info : Nat := 0
  sh_addralign : Nat := 0
  sh_entsize : Nat := 0
  deriving DecidableEq, Repr

/-- One `Elf64_Sym` record (24 bytes: 4 + 1 + 1 + 2 + 8 + 8). -/
structure Elf64_Sym where
  st_name : Nat
  st_info : Nat
  st_other : Nat
  st_shndx : Nat
  st_value : Nat
  st_size : Nat
  deriving DecidableEq, Repr

/-- The value of `sizeof(Elf64_Sym)`. -/
def sizeof_Elf64_Sym : Nat := 24

/-- What a `d_buf` points to: nothing, raw bytes, or an `Elf64_Sym` array. -/
inductive Buf
  | null
  | bytes (b : Bytes)
  | syms (s : List Elf64_Sym)
  deriving DecidableEq, Repr

/-- The fields of `Elf_Data` the program uses. -/
structure Elf_Data where
  d_buf : Buf := .null
  d_size : Nat := 0
  d_align : Nat := 1
  deriving DecidableEq, Repr

/-- Modelled from the spec: a section of the container as libelf presents it
("read/write a section's header fields", "read a section's raw data as
bytes", "attach a new data buffer").  `shdr = none` is a section whose header
cannot be decoded (`gelf_getshdr` returns NULL); `data` is the list of data
descriptors of the section, the raw file contents first. -/
structure Elf_Scn where
  shdr : Option GElf_Shdr := some {}
  data : List Elf_Data := []
  deriving DecidableEq, Repr

/-- Modelled from the spec: an open ELF handle.  `scns` are the sections that
`elf_nextscn` enumerates, in order: the section at position `p` of the list
has section index `p + 1` (index 0, the null section, is not enumerated).
`e_shstrndx` is what `elf_getshdrstrndx` yields (`none`: it fails). -/
structure Elf where
  scns : List Elf_Scn := []
  e_shstrndx : Option Nat := none
  deriving DecidableEq, Repr

/-- A `Elf_Scn *` is modelled by the section index; NULL is `none`. -/
abbrev Scn := Nat

/-- Modelled from the spec: `elf_getscn`, the section with a given index. -/
def elf_getscn (e : Elf) (ndx : Scn) : Option Elf_Scn :=
  if ndx = 0 then none else e.scns.get? (ndx - 1)

/-- Modelled from the spec: `elf_ndxscn`; for NULL it is `SHN_UNDEF` (0). -/
def elf_ndxscn (scn : Option Scn) : Nat := scn.getD 0

/-- Modelled from the spec: `gelf_getshdr`. -/
def gelf_getshdr (e : Elf) (scn : Scn) : Option GElf_Shdr :=
  (elf_getscn e scn).bind (fun s => s.shdr)

/-- Apply `f` to the element at position `n` of a list. -/
def modify_nth {α : Type} (f : α → α) : Nat → List α → List α
  | _, [] => []
  | 0, x :: xs => f x :: xs
  | n + 1, x :: xs => x :: modify_nth f n xs

/-- Apply `f` to the section with index `scn`. -/
def update_scn (e : Elf) (scn : Scn) (f : Elf_Scn → Elf_Scn) : Elf :=
  if scn = 0 then e else { e with scns := modify_nth f (scn - 1) e.scns }

/-- Modelled from the spec: `gelf_update_shdr`, write the header back. -/
def gelf_update_shdr (e : Elf) (scn : Scn) (shdr : GElf_Shdr) : Elf :=
  update_scn e scn (fun s => { s with shdr := some shdr })

/-- Modelled from the spec: `elf_newdata`, append an empty data descriptor to
the section; the result names it by its position in the section's list. -/
def elf_newdata (e : Elf) (scn : Scn) : Elf × Nat :=
  (update_scn e scn (fun s => { s with data := s.data ++ [{}] }),
    ((elf_getscn e scn).map (fun s => s.data.length)).getD 0)

/-- Store through a `Elf_Data *`: apply `f` to descriptor `d` of section `scn`. -/
def update_data (e : Elf) (scn : Scn) (d : Nat) (f : Elf_Data → Elf_Data) : Elf :=
  update_scn e scn (fun s => { s with data := modify_nth f d s.data })

/-- Modelled from the spec: `elf_newscn`, "appends a new entry to the
container's section list"; the header of the new section is zeroed and it has
no data. -/
def elf_newscn (e : Elf) : Elf × Scn :=
  ({ e with scns := e.scns ++ [{}] }, e.scns.length + 1)

/-- The bytes a data descriptor contributes to its section's contents. -/
def Elf_Data.content (d : Elf_Data) : Bytes :=
  match d.d_buf with
  | .bytes b => b
  | _ => []

/-- The contents of a section: its data buffers one after the other. -/
def Elf_Scn.contents (s : Elf_Scn) : Bytes :=
  s.data.flatMap Elf_Data.content

/-- Modelled from the spec: `elf_strptr`, "resolve name-offsets to strings":
the NUL-terminated string at offset `off` of the contents of section `scndx`,
`none` (NULL) when there is no such section or no such string.  The offset is
resolved in all the buffers attached to the section; it is not compared with
the size in the section's header and the section type is not looked at
(`elf_strptr_sized` adds these two checks). -/
def elf_strptr (e : Elf) (scndx off : Nat) : Option Bytes :=
  (elf_getscn e scndx).bind (fun s => c_string_at s.contents off)

/-- Modelled from the spec: `elf_rawdata(scn, NULL)`, the descriptor of the
raw contents of a section (NULL when there is none). -/
def elf_rawdata (e : Elf) (scn : Scn) : Option Elf_Data :=
  (elf_getscn e scn).bind (fun s => s.data.head?)

/-- Modelled from the spec: the layout pass of `elf_update`, "recompute overall
file layout from attached section data": the size of every section becomes the
total size of its data buffers. -/
def elf_update_layout (e : Elf) : Elf :=
  { e with scns := e.scns.map (fun s =>
      { s with shdr := s.shdr.map (fun h =>
          { h with sh_size := (s.data.map (fun d => d.d_size)).sum }) }) }

/-! ## Constants of the ELF headers -/

/-- `SHT_SYMTAB` of `<elf.h>`. -/
def SHT_SYMTAB : Nat := 2

/-- `SHT_STRTAB` of `<elf.h>`. -/
def SHT_STRTAB : Nat := 3

/-- `STB_GLOBAL` of `<elf.h>`. -/
def STB_GLOBAL : Nat := 1

/-- `STT_FUNC` of `<elf.h>`. -/
def STT_FUNC : Nat := 2

/-- `STV_DEFAULT` of `<elf.h>`. -/
def STV_DEFAULT : Nat := 0

/-- `ELF64_ST_INFO(b, t)` of `<elf.h>`: `((b) << 4) + ((t) & 0xf)`. -/
def ELF64_ST_INFO (b t : Nat) : Nat := b * 16 + t % 16

/-! ## The program -/

/-- The scan of `elf_section_by_name`: `rest` are the sections still to be
visited, `ndx` the index of the first of them. -/
def scan_by_name (h : Elf) (shstrndx : Nat) (nam : Bytes) :
    List Elf_Scn → Nat → Except Failure (Option Scn)
  | [], _ => .ok none
  | s :: rest, ndx =>
    match s.shdr with
    | none => .error .gelf_getshdr
    | some shdr =>
      match elf_strptr h shstrndx shdr.sh_name with
      | none => .error .elf_strptr
      | some snam =>
        if snam = nam then .ok (some ndx) else scan_by_name h shstrndx nam rest (ndx + 1)

/-- Source `elf_section_by_name`.  The global `shstrndx` is an argument. -/
def elf_section_by_name (h : Elf) (shstrndx : Nat) (nam : Bytes) :
    Except Failure (Option Scn) :=
  scan_by_name h shstrndx nam h.scns 1

/-- The `while (true)` loop of `allocate_shstrtab_entries_` over the names
before the closing NULL: `needed` and `data` are the loop variables, the list
returned holds the values stored through the `ndx_out` pointers, in order. -/
def allocate_loop (sh_size : Nat) : List Bytes → Nat → Bytes → List Nat × Nat × Bytes
  | [], needed, data => ([], needed, data)
  | name :: rest, needed, data =>
    let ndx_out := (sh_size + needed) % 2 ^ 64
    let entrysz := name.length + 1
    let r := allocate_loop sh_size rest (needed + entrysz) (data ++ (name ++ [0]))
    (ndx_out :: r.1, r.2)

/-- The state of a run that stopped, or the value and state of one that went on. -/
inductive Step (α : Type)
  | ok (a : α) (e : Elf)
  | fail (f : Failure) (e : Elf)
  deriving DecidableEq, Repr

/-- The failure a step stopped with, if it did. -/
def Step.failure {α : Type} : Step α → Option Failure
  | .ok _ _ => none
  | .fail f _ => some f

/-- The container a step ends with. -/
def Step.elf {α : Type} : Step α → Elf
  | .ok _ e => e
  | .fail _ e => e

/-- Source `allocate_shstrtab_entries_`; `names` are the variadic name
arguments, the result holds the offsets written to the `ndx_out` arguments. -/
def allocate_shstrtab_entries_ (h : Elf) (shstrndx : Nat) (names : List Bytes) :
    Step (List Nat) :=
  match elf_section_by_name h shstrndx (c_str ".shstrtab") with
  | .error f => .fail f h
  | .ok none => .fail .no_shstrtab h
  | .ok (some scn) =>
    let shdr := (gelf_getshdr h scn).getD {}
    let r := allocate_loop shdr.sh_size names 0 []
    if r.2.1 > 0 then
      let nd := elf_newdata h scn
      .ok r.1 (update_data nd.1 scn nd.2
        (fun d => { d with d_buf := .bytes r.2.2, d_size := r.2.1 }))
    else .fail .assert_needed h

/-- Source `create_elf_section`.  The three arguments are `GElf_Word`s: the
values passed are reduced modulo 2^32.  The header of the new section is read
without a check and written back with the three fields set. -/
def create_elf_section (h : Elf) (sh_name sh_type sh_link : Nat) : Elf × Scn :=
  let ns := elf_newscn h
  let shdr := (gelf_getshdr ns.1 ns.2).getD {}
  let shdr := { shdr with sh_name := sh_name % 2 ^ 32, sh_type := sh_type % 2 ^ 32,
                          sh_link := sh_link % 2 ^ 32 }
  (gelf_update_shdr ns.1 ns.2 shdr, ns.2)

/-- The record `process_pclntab` stores in `new_symtab[i]`.  `st_name` is an
`Elf64_Word` and `st_shndx` an `Elf64_Half`: the `size_t` values assigned to
them are reduced to 32 and 16 bits. -/
def new_sym (ndx textndx foff : Nat) : Elf64_Sym :=
  { st_name := ndx % 2 ^ 32
    st_info := ELF64_ST_INFO STB_GLOBAL STT_FUNC
    st_other := STV_DEFAULT
    st_shndx := textndx % 2 ^ 16
    st_value := foff
    st_size := 0 }

/-- The `for` loop of `process_pclntab`: the first argument counts the
iterations left (`N - i`), `iter` is the cursor, `st` the string table and
`syms` the records `new_symtab[0..i)` stored so far (the array is complete when
the loop ends; `calloc` is taken to succeed).  `pcview + namoff + addr_size`
and `&pcview[namaddr]` are offsets into the buffer. -/
def pclntab_loop (pcview : Bytes) (addr_size textndx : Nat) :
    Nat → Nat → Elftc_String_Table → List Elf64_Sym →
      Except Failure (Elftc_String_Table × List Elf64_Sym)
  | 0, _, st, syms => .ok (st, syms)
  | n + 1, iter, st, syms =>
    match get_uptr pcview iter addr_size with
    | .error f => .error f
    | .ok (foff, iter1) =>
      match get_uptr pcview iter1 addr_size with
      | .error f => .error f
      | .ok (namoff, iter2) =>
        match peek pcview (namoff + addr_size) 4 with
        | none => .error .fault
        | some bs =>
          let namaddr := le_value bs
          match c_string_at pcview namaddr with
          | none => .error .fault
          | some name =>
            let r := elftc_string_table_insert st name
            pclntab_loop pcview addr_size textndx n iter2 r.1
              (syms ++ [new_sym r.2 textndx foff])

/-- Source `process_pclntab`; `pcview` is `pcdat->d_buf`, the global
`shstrndx` is an argument.  A run that stops carries the container as it is at
that point.  The results of `gelf_getshdr` are not checked by the source: a
header that cannot be read is taken as the zero header. -/
def process_pclntab (elf : Elf) (shstrndx : Nat) (pcview : Bytes) (strscn symscn : Scn) :
    Step Unit :=
  match get_u32 pcview 0 with
  | .error f => .fail f elf
  | .ok (magic, iter) =>
    if magic = 0xfffffffb then
      let iter := iter + 2
      match get_u8 pcview iter with
      | .error f => .fail f elf
      | .ok (_quantum, iter) =>
        match get_u8 pcview iter with
        | .error f => .fail f elf
        | .ok (addr_size, iter) =>
          -- Initialize strtab, symtab headers.
          let strshdr := (gelf_getshdr elf strscn).getD {}
          let elf := gelf_update_shdr elf strscn { strshdr with sh_addralign := 1 }
          let symshdr := (gelf_getshdr elf symscn).getD {}
          let elf := gelf_update_shdr elf symscn
            { symshdr with sh_addralign := addr_size, sh_entsize := sizeof_Elf64_Sym }
          let symdat := elf_newdata elf symscn
          let strdat := elf_newdata symdat.1 strscn
          let elf := strdat.1
          match get_uptr pcview iter addr_size with
          | .error f => .fail f elf
          | .ok (N, iter) =>
            let new_strtab := elftc_string_table_create
            match elf_section_by_name elf shstrndx (c_str ".text") with
            | .error f => .fail f elf
            | .ok text =>
              let textndx := elf_ndxscn text
              match pclntab_loop pcview addr_size textndx N iter new_strtab [] with
              | .error f => .fail f elf
              | .ok (new_strtab, new_symtab) =>
                let img := elftc_string_table_image new_strtab
                let elf := update_data elf strscn strdat.2
                  (fun d => { d with d_buf := .bytes img.1, d_size := img.2 })
                let elf := update_data elf symscn symdat.2
                  (fun d => { d with d_align := addr_size, d_buf := .syms new_symtab,
                                     d_size := N * sizeof_Elf64_Sym })
                .ok () elf
    else if magic = 0xfbffffff then .fail .cross_endian elf
    else .fail .endian_awry elf

/-- What `open` and `elf_begin` find at the path given to `main`. -/
inductive File
  /-- `open` fails -/
  | unreadable
  /-- `elf_begin` returns NULL -/
  | unparsable
  /-- `elf_kind` is not `ELF_K_ELF` -/
  | other_kind
  /-- an ELF container -/
  | elf (e : Elf)
  deriving DecidableEq, Repr

/-- How a run of `main` ends: `status = none` is `return (0)`; `mem` is the
open handle when the run ends (if one was opened), `disk` the file then. -/
structure Exit where
  status : Option Failure
  mem : Option Elf
  disk : File
  deriving DecidableEq, Repr

/-- Source `main`.  `argc` is the argument count, `file` what is at `argv[1]`,
`write_ok` tells whether the write of `elf_update(elf, ELF_C_WRITE)` succeeds
(`rc >= 0`).  The file changes only in a successful `elf_update`; what a failed
write leaves behind is not modelled. -/
def main (argc : Nat) (file : File) (write_ok : Bool) : Exit :=
  if argc ≠ 2 then { status := some .usage, mem := none, disk := file } else
  match file with
  | .unreadable => { status := some .open_failed, mem := none, disk := file }
  | .unparsable => { status := some .elf_begin, mem := none, disk := file }
  | .other_kind => { status := some .not_elf, mem := none, disk := file }
  | .elf elf =>
    let stop (f : Failure) (e : Elf) : Exit := { status := some f, mem := some e, disk := file }
    match elf.e_shstrndx with
    | none => stop .getshstrndx elf
    | some shstrndx =>
    match elf_section_by_name elf shstrndx (c_str ".symtab") with
    | .error f => stop f elf
    | .ok (some _) => stop .has_symtab elf
    | .ok none =>
    match elf_section_by_name elf shstrndx (c_str ".strtab") with
    | .error f => stop f elf
    | .ok (some _) => stop .has_strtab elf
    | .ok none =>
    match allocate_shstrtab_entries_ elf shstrndx [c_str ".symtab", c_str ".strtab"] with
    | .fail f e => stop f e
    | .ok ndxs elf =>
    let symtabshndx := ndxs.getD 0 0
    let strtabshndx := ndxs.getD 1 0
    let strtab := create_elf_section elf strtabshndx SHT_STRTAB 0
    let symtab := create_elf_section strtab.1 symtabshndx SHT_SYMTAB (elf_ndxscn (some strtab.2))
    let elf := symtab.1
    match elf_section_by_name elf shstrndx (c_str ".gopclntab") with
    | .error f => stop f elf
    | .ok none => stop .no_gopclntab elf
    | .ok (some scn) =>
    match elf_rawdata elf scn with
    | none => stop .fault elf
    | some pclndat =>
    match process_pclntab elf shstrndx pclndat.content strtab.2 symtab.2 with
    | .fail f e => stop f e
    | .ok _ elf =>
    if write_ok then
      { status := none, mem := some (elf_update_layout elf), disk := .elf (elf_update_layout elf) }
    else stop .elf_update (elf_update_layout elf)

/-! ## The pclntab blob as the specification lays it out -/

/-- The little-endian field of `w` bytes at offset `off` of a blob. -/
def field (blob : Bytes) (w off : Nat) : Nat := le_value ((blob.drop off).take w)

/-- The `addr_size` byte of the header (offset 7). -/
def hdr_addr_size (blob : Bytes) : Nat := field blob 1 7

/-- The function count `N` of the header. -/
def func_count (blob : Bytes) : Nat := field blob (hdr_addr_size blob) 8

/-- Offset of the `i`-th function table entry: the table follows the 8 header
bytes and the count, an entry is two address-sized fields. -/
def entry_off (blob : Bytes) (i : Nat) : Nat :=
  8 + hdr_addr_size blob + 2 * hdr_addr_size blob * i

/-- The `func_offset` field of the `i`-th function table entry. -/
def func_offset (blob : Bytes) (i : Nat) : Nat :=
  field blob (hdr_addr_size blob) (entry_off blob i)

/-- The `name_table_offset` field of the `i`-th function table entry. -/
def name_table_offset (blob : Bytes) (i : Nat) : Nat :=
  field blob (hdr_addr_size blob) (entry_off blob i + hdr_addr_size blob)

/-- The 4-byte `name_addr` field at `name_table_offset + addr_size`. -/
def name_addr (blob : Bytes) (i : Nat) : Nat :=
  field blob 4 (name_table_offset blob i + hdr_addr_size blob)

/-- The name of the `i`-th function: the NUL-terminated string at `name_addr`. -/
def func_name (blob : Bytes) (i : Nat) : Option Bytes :=
  c_string_at blob (name_addr blob i)

/-- The `i`-th (func_offset, name) pair of a blob. -/
def entry (blob : Bytes) (i : Nat) : Nat × Bytes :=
  (func_offset blob i, (func_name blob i).getD [])

/-- The decoded (func_offset, name) pairs of a blob, in table order. -/
def entries (blob : Bytes) : List (Nat × Bytes) :=
  (List.range (func_count blob)).map (entry blob)

/-- The names of the functions of a blob, in table order. -/
def func_names (blob : Bytes) : List Bytes := (entries blob).map Prod.snd

/-- A well-formed pclntab blob: the 8 header bytes are there, the magic is
0xfffffffb, `addr_size` is 4 or 8, and everything the decoder reads for the
count and for each of the `N` entries lies inside the blob: the 8 bytes that
`get_uptr` copies at each address-sized field, the 4 bytes of `name_addr`, and
the name up to and including its NUL. -/
def WellFormed (blob : Bytes) : Prop :=
  8 ≤ blob.length ∧ field blob 4 0 = 0xfffffffb ∧
  (hdr_addr_size blob = 4 ∨ hdr_addr_size blob = 8) ∧
  8 + 8 ≤ blob.length ∧
  ∀ i, i < func_count blob →
    entry_off blob i + hdr_addr_size blob + 8 ≤ blob.length ∧
    name_table_offset blob i + hdr_addr_size blob + 4 ≤ blob.length ∧
    (func_name blob i).isSome = true

/-- Well-formedness can be checked by evaluation. -/
instance (blob : Bytes) : Decidable (WellFormed blob) := by
  unfold WellFormed; infer_instance

/-- A byte string that a C string read can return: no NUL, every byte below 256. -/
def c_clean (s : Bytes) : Prop := ∀ b ∈ s, 0 < b ∧ b < 256

/-- Cleanness of a byte string can be checked by evaluation. -/
instance (s : Bytes) : Decidable (c_clean s) := by
  unfold c_clean; infer_instance

/-- The little-endian encoding of `v` in `w` bytes. -/
def le_bytes : Nat → Nat → Bytes
  | 0, _ => []
  | w + 1, v => v % 256 :: le_bytes w (v / 256)

/-- The `n` bytes of a blob from offset `off` on. -/
def slice (blob : Bytes) (off n : Nat) : Bytes := (blob.drop off).take n

/-- The blob `blob` encodes the list `xs` of (func_offset, name) pairs with
pointer width `a`, as the specification lays a pclntab out: the magic, the
`addr_size` byte `a` at offset 7, the count in `a` bytes at offset 8, then one
table entry of two `a`-byte fields per pair, the first holding the
func_offset, the second a `name_table_offset` such that the 4 bytes at
`name_table_offset + a` hold a `name_addr` at which the name and its NUL
stand.  Where the indirection records and the names stand is free.  The blob
reaches at least `8 - a` bytes beyond the table, the room the 8-byte copy of
`get_uptr` takes at the last address-sized field. -/
def Encodes (a : Nat) (blob : Bytes) (xs : List (Nat × Bytes)) : Prop :=
  slice blob 0 4 = [0xfb, 0xff, 0xff, 0xff] ∧ slice blob 7 1 = [a] ∧ (a = 4 ∨ a = 8) ∧
  xs.length < 256 ^ a ∧ slice blob 8 a = le_bytes a xs.length ∧
  8 + a + 2 * a * xs.length + (8 - a) ≤ blob.length ∧
  ∀ (i foff : Nat) (name : Bytes), xs.get? i = some (foff, name) →
    foff < 256 ^ a ∧ slice blob (8 + a + 2 * a * i) a = le_bytes a foff ∧ c_clean name ∧
    ∃ namoff namaddr, namoff < 256 ^ a ∧ namaddr < 256 ^ 4 ∧
      slice blob (8 + a + 2 * a * i + a) a = le_bytes a namoff ∧
      slice blob (namoff + a) 4 = le_bytes 4 namaddr ∧
      slice blob namaddr (name.length + 1) = name ++ [0]

/-! ## What the decoder builds, as a function of the decoded entries -/

/-- The records and string table the loop builds from decoded entries. -/
def emit (textndx : Nat) : List (Nat × Bytes) → Elftc_String_Table → List Elf64_Sym →
    Elftc_String_Table × List Elf64_Sym
  | [], st, syms => (st, syms)
  | (foff, name) :: rest, st, syms =>
    let r := elftc_string_table_insert st name
    emit textndx rest r.1 (syms ++ [new_sym r.2 textndx foff])

/-- Insert-if-new at the end of a list of distinct strings. -/
def add_new (acc : List Bytes) (s : Bytes) : List Bytes :=
  if s ∈ acc then acc else acc ++ [s]

/-- The distinct strings of a list, in the order in which they are first seen. -/
def first_seen (names : List Bytes) : List Bytes := names.foldl add_new []

/-- The strings of a list, each followed by its NUL, one after the other. -/
def packed (names : List Bytes) : Bytes := names.flatMap (fun s => s ++ [0])

/-- Total size of the NUL-terminated strings of a list. -/
def strings_size : List Bytes → Nat
  | [] => 0
  | s :: ss => s.length + 1 + strings_size ss

/-- Offset, inside `packed names`, of the first string equal to `s`. -/
def str_offset : List Bytes → Bytes → Nat
  | [], _ => 0
  | n :: ns, s => if n = s then 0 else n.length + 1 + str_offset ns s

/-- The index of a table whose strings `names` start at offset `off`. -/
def layout : Nat → List Bytes → List (Bytes × Nat)
  | _, [] => []
  | off, s :: ss => (s, off) :: layout (off + (s.length + 1)) ss

/-- The table that holds exactly the strings `names`, in this order. -/
def table_of (names : List Bytes) : Elftc_String_Table :=
  { pool := 0 :: packed names, index := layout 1 names }

/-- All the inserts of a run: the final table and the offsets returned. -/
def insert_all : Elftc_String_Table → List Bytes → Elftc_String_Table × List Nat
  | st, [] => (st, [])
  | st, s :: ss =>
    let r := elftc_string_table_insert st s
    ((insert_all r.1 ss).1, r.2 :: (insert_all r.1 ss).2)

/-- The records the decoder stores for a blob, given the index found for `.text`. -/
def symbols (blob : Bytes) (textndx : Nat) : List Elf64_Sym :=
  (entries blob).map (fun e =>
    new_sym (1 + str_offset (first_seen (func_names blob)) e.2) textndx e.1)

/-- The string-table image the decoder builds for a blob. -/
def image (blob : Bytes) : Bytes := 0 :: packed (first_seen (func_names blob))

/-! ## The container in the course of a run -/

/-- The container once `process_pclntab` has initialised the two headers and
created the two data descriptors (before the function count is read). -/
def prepared (elf : Elf) (strscn symscn : Scn) (addr_size : Nat) : Elf :=
  let e1 := gelf_update_shdr elf strscn
    { (gelf_getshdr elf strscn).getD {} with sh_addralign := 1 }
  let e2 := gelf_update_shdr e1 symscn
    { (gelf_getshdr e1 symscn).getD {} with
        sh_addralign := addr_size, sh_entsize := sizeof_Elf64_Sym }
  (elf_newdata (elf_newdata e2 symscn).1 strscn).1

/-- The container `process_pclntab` returns on success: the two buffers are
stored in the descriptors created before. -/
def finished (elf : Elf) (strscn symscn : Scn) (blob : Bytes) (textndx : Nat) : Elf :=
  let a := hdr_addr_size blob
  let e1 := gelf_update_shdr elf strscn
    { (gelf_getshdr elf strscn).getD {} with sh_addralign := 1 }
  let e2 := gelf_update_shdr e1 symscn
    { (gelf_getshdr e1 symscn).getD {} with sh_addralign := a, sh_entsize := sizeof_Elf64_Sym }
  let symdat := elf_newdata e2 symscn
  let strdat := elf_newdata symdat.1 strscn
  let r := emit textndx (entries blob) elftc_string_table_create []
  let e3 := update_data strdat.1 strscn strdat.2
    (fun d => { d with d_buf := .bytes r.1.pool, d_size := r.1.pool.length })
  update_data e3 symscn symdat.2
    (fun d => { d with d_align := a, d_buf := .syms r.2,
                       d_size := func_count blob * sizeof_Elf64_Sym })

/-- The descriptor most recently added to a section. -/
def last_data (e : Elf) (scn : Scn) : Option Elf_Data :=
  (elf_getscn e scn).bind (fun s => s.data.getLast?)

/-- What the name lookup sees of a section: the name offset of its header (if
the header decodes) and its contents. -/
def name_key (s : Elf_Scn) : Option Nat × Bytes := (s.shdr.map (fun h => h.sh_name), s.contents)

/-- The scan of `elf_section_by_name` over what it sees of the sections. -/
def scan_keys (resolve : Nat → Option Bytes) (nam : Bytes) :
    List (Option Nat × Bytes) → Nat → Except Failure (Option Scn)
  | [], _ => .ok none
  | (none, _) :: _, _ => .error .gelf_getshdr
  | (some sh_name, _) :: rest, ndx =>
    match resolve sh_name with
    | none => .error .elf_strptr
    | some snam =>
      if snam = nam then .ok (some ndx) else scan_keys resolve nam rest (ndx + 1)

/-- A section seen again later in a run: its name offset is the same and its
data descriptors are the old ones, possibly followed by new ones. -/
def scn_extends (s s' : Elf_Scn) : Prop :=
  s'.shdr.map (fun h => h.sh_name) = s.shdr.map (fun h => h.sh_name) ∧
  ∃ more, s'.data = s.data ++ more

/-- A container seen again later in a run, when sections and data have only
been added: every section of before is there, at the same index. -/
def elf_extends (e e' : Elf) : Prop :=
  ∀ (k : Nat) (s : Elf_Scn), elf_getscn e k = some s →
    ∃ s', elf_getscn e' k = some s' ∧ scn_extends s s'

/-- The name of a section as `elf_section_by_name` decodes it: the header is
read, then its name offset is resolved in the section-header string table;
`none` when the header or the name cannot be decoded. -/
def scn_name (h : Elf) (shstrndx : Nat) (s : Elf_Scn) : Option Bytes :=
  s.shdr.bind (fun hd => elf_strptr h shstrndx hd.sh_name)

/-- The decoded name of the section with index `k`, `none` when there is no
such section or it cannot be decoded. -/
def section_name (h : Elf) (shstrndx : Nat) (k : Nat) : Option Bytes :=
  (elf_getscn h k).bind (scn_name h shstrndx)

/-- The bounds the specification asks of a blob for decoding to stay inside
it: valid magic, `addr_size` 4 or 8, room for the header, the count and the `N`
table entries (`8 + a + 2aN` bytes), and for every entry room for the name
table entry and a name whose terminating NUL is inside the blob. -/
def SpecBounds (blob : Bytes) : Prop :=
  8 ≤ blob.length ∧ field blob 4 0 = 0xfffffffb ∧
  (hdr_addr_size blob = 4 ∨ hdr_addr_size blob = 8) ∧
  8 + hdr_addr_size blob + 2 * hdr_addr_size blob * func_count blob ≤ blob.length ∧
  ∀ i, i < func_count blob →
    name_table_offset blob i + hdr_addr_size blob + 4 ≤ blob.length ∧
    (func_name blob i).isSome = true

/-- The specification's bounds can be checked by evaluation. -/
instance (blob : Bytes) : Decidable (SpecBounds blob) := by
  unfold SpecBounds; infer_instance

/-- The two names `main` passes to `allocate_shstrtab_entries`. -/
def new_names : List Bytes := [c_str ".symtab", c_str ".strtab"]

/-- The container once `main` has allocated the two names in section `ss` and
created the two sections: `S` is the size in the header of section `ss`, the
names get the offsets `S` and `S + 8` as 64-bit values. -/
def sections_added (elf : Elf) (ss S : Nat) : Elf :=
  (create_elf_section
    (create_elf_section
      (update_data (elf_newdata elf ss).1 ss (elf_newdata elf ss).2
        (fun d => { d with d_buf := .bytes (packed new_names),
                           d_size := strings_size new_names }))
      ((S + 8) % 2 ^ 64) SHT_STRTAB 0).1
    (S % 2 ^ 64) SHT_SYMTAB (elf.scns.length + 1)).1

/-- The resolver `elf_strptr` with the two checks an ELF library makes before
it resolves an offset: the section is a string table (`SHT_STRTAB`) and the
offset lies below the size in its header, which is the size before the run
until the layout pass of `elf_update`. -/
def elf_strptr_sized (e : Elf) (scndx off : Nat) : Option Bytes :=
  match gelf_getshdr e scndx with
  | some hd =>
    if hd.sh_type = SHT_STRTAB ∧ off < hd.sh_size then elf_strptr e scndx off else none
  | none => none

/-- Every name offset in the section headers of `e` is resolved the same with
and without the two checks of `elf_strptr_sized`. -/
def names_in_size (e : Elf) (shstrndx : Nat) : Prop :=
  ∀ s ∈ e.scns,
    s.shdr.bind (fun hd => elf_strptr_sized e shstrndx hd.sh_name) = scn_name e shstrndx s

/-- Whether the name offsets pass the checks can be found by evaluation. -/
instance (e : Elf) (shstrndx : Nat) : Decidable (names_in_size e shstrndx) := by
  unfold names_in_size; infer_instance


/-! ## Concrete inputs -/

/-- The blob of the end-to-end scenario of the specification: `addr_size` 8,
two entries (0x1000, "main.foo") and (0x1010, "main.bar"). -/
def scenario_blob : Bytes :=
  [0xfb, 0xff, 0xff, 0xff, 0, 0, 1, 8] ++
  [2, 0, 0, 0, 0, 0, 0, 0] ++
  [0x00, 0x10, 0, 0, 0, 0, 0, 0] ++ [48, 0, 0, 0, 0, 0, 0, 0] ++
  [0x10, 0x10, 0, 0, 0, 0, 0, 0] ++ [60, 0, 0, 0, 0, 0, 0, 0] ++
  [0, 0, 0, 0, 0, 0, 0, 0] ++ [72, 0, 0, 0] ++
  [0, 0, 0, 0, 0, 0, 0, 0] ++ [81, 0, 0, 0] ++
  c_str "main.foo" ++ [0] ++ c_str "main.bar" ++ [0]

/-- A blob with `addr_size` 4 and three entries, not in address order and with
a repeated name: (0x2000, "main.foo"), (0x1000, "main.bar"), (0x1800, "main.foo"). -/
def unsorted_blob : Bytes :=
  [0xfb, 0xff, 0xff, 0xff, 0, 0, 1, 4] ++
  [3, 0, 0, 0] ++
  [0x00, 0x20, 0, 0] ++ [36, 0, 0, 0] ++
  [0x00, 0x10, 0, 0] ++ [44, 0, 0, 0] ++
  [0x00, 0x18, 0, 0] ++ [52, 0, 0, 0] ++
  [0, 0, 0, 0] ++ [60, 0, 0, 0] ++
  [0, 0, 0, 0] ++ [69, 0, 0, 0] ++
  [0, 0, 0, 0] ++ [60, 0, 0, 0] ++
  c_str "main.foo" ++ [0] ++ c_str "main.bar" ++ [0]

/-- The section-header string table of the scenario container. -/
def scenario_shstrtab : Bytes :=
  [0] ++ c_str ".text" ++ [0] ++ c_str ".shstrtab" ++ [0] ++ c_str ".gopclntab" ++ [0]

/-- The input container of the scenario: `.text` (index 1), `.shstrtab`
(index 2) and `.gopclntab` (index 3) holding `blob`. -/
def scenario_file (blob : Bytes) : Elf :=
  { scns := [
      { shdr := some { sh_name := 1, sh_size := 4 },
        data := [{ d_buf := .bytes [0x90, 0x90, 0x90, 0xc3], d_size := 4 }] },
      { shdr := some { sh_name := 7, sh_type := SHT_STRTAB, sh_size := 28 },
        data := [{ d_buf := .bytes scenario_shstrtab, d_size := 28 }] },
      { shdr := some { sh_name := 17, sh_size := blob.length },
        data := [{ d_buf := .bytes blob, d_size := blob.length }] }],
    e_shstrndx := some 2 }

/-- The container `main` hands to `process_pclntab` in the scenario: the names
".symtab" and ".strtab" are allocated at offsets 28 and 36, `.strtab` is
section 4 and `.symtab` section 5. -/
def scenario_mem (blob : Bytes) : Elf :=
  { scns := [
      { shdr := some { sh_name := 1, sh_size := 4 },
        data := [{ d_buf := .bytes [0x90, 0x90, 0x90, 0xc3], d_size := 4 }] },
      { shdr := some { sh_name := 7, sh_type := SHT_STRTAB, sh_size := 28 },
        data := [{ d_buf := .bytes scenario_shstrtab, d_size := 28 },
                 { d_buf := .bytes (c_str ".symtab" ++ [0] ++ c_str ".strtab" ++ [0]),
                   d_size := 16 }] },
      { shdr := some { sh_name := 17, sh_size := blob.length },
        data := [{ d_buf := .bytes blob, d_size := blob.length }] },
      { shdr := some { sh_name := 36, sh_type := SHT_STRTAB } },
      { shdr := some { sh_name := 28, sh_type := SHT_SYMTAB, sh_link := 4 } }],
    e_shstrndx := some 2 }

/-- A section named ".pad" that holds the string table "\0.text\0.pad\0". -/
def pad_scn : Elf_Scn :=
  { shdr := some { sh_name := 7, sh_type := SHT_STRTAB, sh_size := 12 },
    data := [{ d_buf := .bytes ([0] ++ c_str ".text" ++ [0] ++ c_str ".pad" ++ [0]),
               d_size := 12 }] }

/-- The three sections that follow the padding of the wide container: `.text`
and the two fresh sections handed to `process_pclntab`. -/
def wide_tail : List Elf_Scn :=
  [{ shdr := some { sh_name := 1 }, data := [{ d_buf := .bytes [0xc3], d_size := 1 }] },
   { shdr := some { sh_name := 7, sh_type := SHT_STRTAB } },
   { shdr := some { sh_name := 7, sh_type := SHT_SYMTAB, sh_link := 65538 } }]

/-- A container with 65536 sections named ".pad" (the first of them is the
section-header string table) before `.text`, which so has section index 65537;
the fresh sections have indices 65538 and 65539. -/
def wide_elf : Elf :=
  { scns := pad_scn :: (List.replicate 65535 pad_scn ++ wide_tail), e_shstrndx := some 1 }

/-- A 12-byte blob with valid magic and the unsupported `addr_size` 5. -/
def bad_width_blob : Bytes := [0xfb, 0xff, 0xff, 0xff, 0, 0, 1, 5, 2, 0, 0, 0]

/-- A blob that starts with the byte-swapped magic. -/
def swapped_magic_blob : Bytes := [0xff, 0xff, 0xff, 0xfb, 0, 0, 1, 8]

/-- A blob that starts with an unrelated 4-byte value. -/
def unrelated_magic_blob : Bytes := [0x7f, 0x45, 0x4c, 0x46, 0, 0, 1, 8]

/-- The scenario of the specification encoded with `addr_size` 4: the same two
entries (0x1000, "main.foo") and (0x1010, "main.bar") as `scenario_blob`. -/
def scenario_blob4 : Bytes :=
  [0xfb, 0xff, 0xff, 0xff, 0, 0, 1, 4] ++
  [2, 0, 0, 0] ++
  [0x00, 0x10, 0, 0] ++ [28, 0, 0, 0] ++
  [0x10, 0x10, 0, 0] ++ [36, 0, 0, 0] ++
  [0, 0, 0, 0] ++ [44, 0, 0, 0] ++
  [0, 0, 0, 0] ++ [53, 0, 0, 0] ++
  c_str "main.foo" ++ [0] ++ c_str "main.bar" ++ [0]

/-- The logical content of the scenario. -/
def scenario_entries : List (Nat × Bytes) :=
  [(0x1000, c_str "main.foo"), (0x1010, c_str "main.bar")]

/-- Offset at which the names start in `overflow_blob n L`: after the header,
the count and `n + 1` table entries of width 8. -/
def overflow_names_at (n : Nat) : Nat := 16 + 16 * (n + 1)

/-- The table entries `i, i + 1, ..` (`k` of them) of `overflow_blob`: the
func_offset of entry `i` is `overflow_names_at n + i`, its name_table_offset is
`8 + 16 * i`, so that the `name_addr` read at `name_table_offset + 8` is the
low half of the func_offset field of the same entry. -/
def overflow_table (n : Nat) : Nat → Nat → Bytes
  | _, 0 => []
  | i, k + 1 =>
    (le_bytes 8 (overflow_names_at n + i) ++ le_bytes 8 (8 + 16 * i))
      ++ overflow_table n (i + 1) k

/-- A blob of width 8 with `n + 1` entries.  The first `n` names are the
suffixes of one run of `L` bytes 1 (entry `i` names the suffix that starts at
byte `i` of the run), the last name is the one-byte string `[2]` that follows
the run. -/
def overflow_blob (n L : Nat) : Bytes :=
  [0xfb, 0xff, 0xff, 0xff, 0, 0, 1, 8] ++ (le_bytes 8 (n + 1) ++ (overflow_table n 0 n ++
    ((le_bytes 8 (overflow_names_at n + L + 1) ++ le_bytes 8 (8 + 16 * n)) ++
      (List.replicate L 1 ++ [0, 2, 0]))))

/-- The first pairs `i, i + 1, ..` (`k` of them) that `overflow_blob` encodes. -/
def overflow_pairs (n L : Nat) : Nat → Nat → List (Nat × Bytes)
  | _, 0 => []
  | i, k + 1 => (overflow_names_at n + i, List.replicate (L - i) 1) :: overflow_pairs n L (i + 1) k

/-- The blob with 65537 entries whose names fill more than 2^32 bytes of
string table: 65536 suffixes of a run of 131072 bytes, then `[2]`. -/
def huge_blob : Bytes := overflow_blob 65536 131072

/-- The scenario container followed by one more section whose header cannot be
read: the undecodable section comes after `.text`, `.shstrtab` and `.gopclntab`. -/
def late_broken_file : Elf :=
  { scns := (scenario_file scenario_blob).scns ++ [{ shdr := none }], e_shstrndx := some 2 }

/-- The scenario container with a first section whose name offset lies outside
the section-header string table. -/
def early_broken_file : Elf :=
  { scns := { shdr := some { sh_name := 1000 } } :: (scenario_file scenario_blob).scns,
    e_shstrndx := some 3 }

/-- A 44-byte blob with pointer width 8 and one entry whose `name_addr` is
0x1000: the table entry and the name table entry are inside the blob, the name
is not. -/
def name_oob_blob : Bytes :=
  [0xfb, 0xff, 0xff, 0xff, 0, 0, 1, 8] ++ le_bytes 8 1 ++
    le_bytes 8 0x1000 ++ le_bytes 8 32 ++ le_bytes 8 0 ++ le_bytes 4 0x1000

/-- A 32-byte blob with pointer width 8 and one entry whose
`name_table_offset` is 0x2000, beyond the blob. -/
def table_oob_blob : Bytes :=
  [0xfb, 0xff, 0xff, 0xff, 0, 0, 1, 8] ++ le_bytes 8 1 ++
    le_bytes 8 0x1000 ++ le_bytes 8 0x2000

/-- A 20-byte blob with pointer width 4 and one entry, exactly
`8 + a + 2aN` bytes long: the entry is (func_offset 4, name_table_offset 8),
the 4 bytes at offset 12 give `name_addr` 4, and the name at offset 4 is the
empty string. -/
def tight_blob4 : Bytes :=
  [0xfb, 0xff, 0xff, 0xff, 0, 0, 1, 4] ++ le_bytes 4 1 ++ le_bytes 4 4 ++ le_bytes 4 8

/-- A 12-byte blob with pointer width 4 and no entry, exactly `8 + a` bytes long. -/
def empty_blob4 : Bytes := [0xfb, 0xff, 0xff, 0xff, 0, 0, 1, 4] ++ le_bytes 4 0

/-- The string table "\0.names\0.gopclntab\0.shstrtab\0" (29 bytes). -/
def stray_names_table : Bytes :=
  [0] ++ c_str ".names" ++ [0] ++ c_str ".gopclntab" ++ [0] ++ c_str ".shstrtab" ++ [0]

/-- A container with no `.text` section: the section-header string table is
section 1 (`e_shstrndx`), named `.names`; `.gopclntab` (index 2) holds `blob`;
section 3 is another string table, of one byte, named `.shstrtab`.  Every
header size is the size of the contents. -/
def no_text_file (blob : Bytes) : Elf :=
  { scns := [
      { shdr := some { sh_name := 1, sh_type := SHT_STRTAB, sh_size := 29 },
        data := [{ d_buf := .bytes stray_names_table, d_size := 29 }] },
      { shdr := some { sh_name := 8, sh_size := blob.length },
        data := [{ d_buf := .bytes blob, d_size := blob.length }] },
      { shdr := some { sh_name := 19, sh_type := SHT_STRTAB, sh_size := 1 },
        data := [{ d_buf := .bytes [0], d_size := 1 }] }],
    e_shstrndx := some 1 }

/-- A string table that names four sections: "\0.text\0.names\0.gopclntab\0.shstrtab\0". -/
def odd_names_table : Bytes :=
  [0] ++ c_str ".text" ++ [0] ++ c_str ".names" ++ [0] ++ c_str ".gopclntab" ++ [0] ++
    c_str ".shstrtab" ++ [0]

/-- A container whose section-header string table (index 2, `e_shstrndx`) is
named `.names`, and which has another string table, the one-byte section 4,
that is named `.shstrtab`.  Every header size is the size of the contents. -/
def odd_names_file : Elf :=
  { scns := [
      { shdr := some { sh_name := 1, sh_size := 4 },
        data := [{ d_buf := .bytes [0x90, 0x90, 0x90, 0xc3], d_size := 4 }] },
      { shdr := some { sh_name := 7, sh_type := SHT_STRTAB, sh_size := 35 },
        data := [{ d_buf := .bytes odd_names_table, d_size := 35 }] },
      { shdr := some { sh_name := 14, sh_size := scenario_blob.length },
        data := [{ d_buf := .bytes scenario_blob, d_size := scenario_blob.length }] },
      { shdr := some { sh_name := 25, sh_type := SHT_STRTAB, sh_size := 1 },
        data := [{ d_buf := .bytes [0], d_size := 1 }] }],
    e_shstrndx := some 2 }

/-! ## Lemmas -/

theorem get_uptr_eq (blob : Bytes) (iter a : Nat) (ha : a = 4 ∨ a = 8)
    (h : iter + 8 ≤ blob.length) :
    get_uptr blob iter a = .ok (field blob a iter, iter + a) := by
  have h1 : a = 8 ∨ a = 4 := ha.symm
  have h2 : min a 8 = a := by omega
  simp [get_uptr, h1, peek, h, field, List.take_take, h2]

theorem pclntab_loop_eq (blob : Bytes) (textndx : Nat)
    (ha : hdr_addr_size blob = 4 ∨ hdr_addr_size blob = 8) :
    ∀ (n i : Nat) (st : Elftc_String_Table) (syms : List Elf64_Sym),
      (∀ j, i ≤ j → j < i + n →
        entry_off blob j + hdr_addr_size blob + 8 ≤ blob.length ∧
        name_table_offset blob j + hdr_addr_size blob + 4 ≤ blob.length ∧
        (func_name blob j).isSome = true) →
      pclntab_loop blob (hdr_addr_size blob) textndx n (entry_off blob i) st syms
        = .ok (emit textndx ((List.range' i n).map (entry blob)) st syms) := by
  intro n
  induction n with
  | zero => intro i st syms _; simp [pclntab_loop, emit]
  | succ n ih =>
    intro i st syms hb
    obtain ⟨h1, h2, h3⟩ := hb i (Nat.le_refl i) (by omega)
    have e1 := get_uptr_eq blob (entry_off blob i) (hdr_addr_size blob) ha (by omega)
    have e2 := get_uptr_eq blob (entry_off blob i + hdr_addr_size blob) (hdr_addr_size blob) ha
      (by omega)
    have e3 : peek blob (name_table_offset blob i + hdr_addr_size blob) 4
        = some ((blob.drop (name_table_offset blob i + hdr_addr_size blob)).take 4) := by
      simp [peek, h2]
    obtain ⟨nm, hnm⟩ := Option.isSome_iff_exists.mp h3
    have e4 : c_string_at blob (name_addr blob i) = some nm := hnm
    have hnext : entry_off blob i + hdr_addr_size blob + hdr_addr_size blob
        = entry_off blob (i + 1) := by
      simp only [entry_off]; ring
    have ih' := ih (i + 1) (elftc_string_table_insert st nm).1
      (syms ++ [new_sym (elftc_string_table_insert st nm).2 textndx (func_offset blob i)])
      (fun j hj1 hj2 => hb j (by omega) (by omega))
    rw [pclntab_loop]
    simp only [e1, e2]
    simp only [name_table_offset] at e3 e4 ⊢
    rw [e3]
    simp only []
    have e5 : le_value (List.take 4 (List.drop (field blob (hdr_addr_size blob) (entry_off blob i + hdr_addr_size blob) + hdr_addr_size blob) blob)) = name_addr blob i := rfl
    rw [e5, e4]
    simp only [hnext, List.range'_succ, List.map_cons, emit, entry, func_name, e4, Option.getD_some, func_offset]
    exact ih'

theorem packed_length (names : List Bytes) : (packed names).length = strings_size names := by
  induction names with
  | nil => rfl
  | cons s ss ih =>
    simp only [packed, strings_size, List.flatMap_cons, List.length_append,
      List.length_singleton] at ih ⊢
    omega

theorem packed_append (a b : List Bytes) : packed (a ++ b) = packed a ++ packed b := by
  simp [packed, List.flatMap_append]

theorem strings_size_append (a b : List Bytes) :
    strings_size (a ++ b) = strings_size a + strings_size b := by
  induction a with
  | nil => simp [strings_size]
  | cons n ns ih =>
    show n.length + 1 + strings_size (ns ++ b) = n.length + 1 + strings_size ns + strings_size b
    omega

theorem layout_append (names : List Bytes) (s : Bytes) : ∀ off,
    layout off (names ++ [s]) = layout off names ++ [(s, off + strings_size names)] := by
  induction names with
  | nil => intro off; simp [layout, strings_size]
  | cons n ns ih =>
    intro off
    show (n, off) :: layout (off + (n.length + 1)) (ns ++ [s])
      = (n, off) :: layout (off + (n.length + 1)) ns
          ++ [(s, off + (n.length + 1 + strings_size ns))]
    rw [ih, Nat.add_assoc]
    rfl

theorem find_layout (s : Bytes) (names : List Bytes) : ∀ off,
    string_table_find s (layout off names)
      = if s ∈ names then some (off + str_offset names s) else none := by
  induction names with
  | nil => intro off; simp [layout, string_table_find]
  | cons n ns ih =>
    intro off
    by_cases h : n = s
    · simp [layout, string_table_find, str_offset, h]
    · have h' : ¬ s = n := fun e => h e.symm
      simp only [layout, string_table_find, h, if_false, ih, str_offset, List.mem_cons, h',
        false_or]
      split <;> simp [Nat.add_assoc]

theorem str_offset_append_of_mem (a b : List Bytes) (s : Bytes) (h : s ∈ a) :
    str_offset (a ++ b) s = str_offset a s := by
  induction a with
  | nil => simp at h
  | cons n ns ih =>
    by_cases e : n = s
    · simp [str_offset, e]
    · have : s ∈ ns := by
        rcases List.mem_cons.mp h with h | h
        · exact absurd h.symm e
        · exact h
      simp [str_offset, e, ih this]

theorem str_offset_append_of_not_mem (a b : List Bytes) (s : Bytes) (h : s ∉ a) :
    str_offset (a ++ b) s = strings_size a + str_offset b s := by
  induction a with
  | nil => simp [str_offset, strings_size]
  | cons n ns ih =>
    have e : ¬ n = s := fun e => h (by simp [e])
    have h2 : s ∉ ns := fun m => h (List.mem_cons_of_mem _ m)
    show (if n = s then 0 else n.length + 1 + str_offset (ns ++ b) s)
      = n.length + 1 + strings_size ns + str_offset b s
    rw [if_neg e, ih h2]
    omega

theorem mem_add_new (acc : List Bytes) (s : Bytes) : s ∈ add_new acc s := by
  unfold add_new; split <;> simp_all

theorem insert_table_of (names : List Bytes) (s : Bytes) :
    elftc_string_table_insert (table_of names) s
      = (table_of (add_new names s), 1 + str_offset (add_new names s) s) := by
  by_cases h : s ∈ names
  · simp [elftc_string_table_insert, table_of, find_layout, h, add_new]
  · have h1 : str_offset (names ++ [s]) s = strings_size names := by
      rw [str_offset_append_of_not_mem _ _ _ h]; simp [str_offset]
    simp only [elftc_string_table_insert, table_of, find_layout, h, if_false, add_new,
      layout_append, List.length_cons, packed_length, h1, packed_append]
    simp [packed, Nat.add_comm]

theorem foldl_add_new_prefix (names : List Bytes) : ∀ acc,
    ∃ more, names.foldl add_new acc = acc ++ more := by
  induction names with
  | nil => intro acc; exact ⟨[], by simp⟩
  | cons n ns ih =>
    intro acc
    obtain ⟨m, hm⟩ := ih (add_new acc n)
    simp only [List.foldl_cons, hm]
    unfold add_new
    split
    · exact ⟨m, rfl⟩
    · exact ⟨n :: m, by simp⟩

theorem insert_all_table_of (names : List Bytes) : ∀ acc,
    insert_all (table_of acc) names
      = (table_of (names.foldl add_new acc),
          names.map (fun s => 1 + str_offset (names.foldl add_new acc) s)) := by
  induction names with
  | nil => intro acc; simp [insert_all]
  | cons n ns ih =>
    intro acc
    simp only [insert_all, insert_table_of, ih, List.foldl_cons, List.map_cons]
    obtain ⟨m, hm⟩ := foldl_add_new_prefix ns (add_new acc n)
    rw [hm, str_offset_append_of_mem _ _ _ (mem_add_new acc n)]

theorem modify_nth_length {α : Type} (f : α → α) : ∀ (n : Nat) (l : List α),
    (modify_nth f n l).length = l.length
  | 0, [] => rfl
  | _ + 1, [] => rfl
  | 0, _ :: _ => rfl
  | n + 1, _ :: xs => by simp [modify_nth, modify_nth_length f n xs]

theorem modify_nth_get? {α : Type} (f : α → α) : ∀ (n : Nat) (l : List α) (m : Nat),
    (modify_nth f n l)[m]? = if m = n then (l[n]?).map f else l[m]?
  | 0, [], m => by simp [modify_nth]
  | _ + 1, [], m => by simp [modify_nth]
  | 0, x :: xs, 0 => by simp [modify_nth]
  | 0, x :: xs, m + 1 => by simp [modify_nth]
  | n + 1, x :: xs, 0 => by simp [modify_nth]
  | n + 1, x :: xs, m + 1 => by simp [modify_nth, modify_nth_get? f n xs m]

theorem elf_getscn_update_scn (e : Elf) (scn : Nat) (f : Elf_Scn → Elf_Scn) (k : Nat) :
    elf_getscn (update_scn e scn f) k
      = if k = scn then (elf_getscn e scn).map f else elf_getscn e k := by
  unfold update_scn elf_getscn
  by_cases hs : scn = 0
  · subst hs; by_cases hk : k = 0 <;> simp [hk]
  · by_cases hk : k = 0
    · subst hk
      have : ¬ (0 = scn) := fun h => hs h.symm
      simp [hs, this]
    · simp only [hs, hk, if_false, List.get?_eq_getElem?, modify_nth_get?]
      have : (k - 1 = scn - 1) ↔ k = scn := by omega
      simp [this]

theorem update_scn_shstrndx (e : Elf) (scn : Scn) (f : Elf_Scn → Elf_Scn) :
    (update_scn e scn f).e_shstrndx = e.e_shstrndx := by
  unfold update_scn; split <;> rfl

theorem update_scn_length (e : Elf) (scn : Scn) (f : Elf_Scn → Elf_Scn) :
    (update_scn e scn f).scns.length = e.scns.length := by
  unfold update_scn; split
  · rfl
  · simp [modify_nth_length]

theorem get_u32_zero (blob : Bytes) (h : 4 ≤ blob.length) :
    get_u32 blob 0 = .ok (field blob 4 0, 4) := by
  simp [get_u32, peek, h, field]

theorem get_u8_eq (blob : Bytes) (iter : Nat) (h : iter + 1 ≤ blob.length) :
    get_u8 blob iter = .ok (field blob 1 iter, iter + 1) := by
  simp [get_u8, peek, h, field]

theorem process_pclntab_run (elf : Elf) (shstrndx : Nat) (blob : Bytes) (strscn symscn : Scn)
    (hw : WellFormed blob) :
    process_pclntab elf shstrndx blob strscn symscn
      = match elf_section_by_name (prepared elf strscn symscn (hdr_addr_size blob)) shstrndx
            (c_str ".text") with
        | .error f => .fail f (prepared elf strscn symscn (hdr_addr_size blob))
        | .ok text => .ok () (finished elf strscn symscn blob (elf_ndxscn text)) := by
  obtain ⟨h8, hmagic, ha, h16, hent⟩ := hw
  have e0 := get_u32_zero blob (by omega)
  have e6 := get_u8_eq blob 6 (by omega)
  have e7 : get_u8 blob 7 = .ok (hdr_addr_size blob, 8) := get_u8_eq blob 7 (by omega)
  have eN : get_uptr blob 8 (hdr_addr_size blob) = .ok (func_count blob, 8 + hdr_addr_size blob) :=
    get_uptr_eq blob 8 _ ha (by omega)
  have hoff : 8 + hdr_addr_size blob = entry_off blob 0 := by simp [entry_off]
  have eL := fun t => pclntab_loop_eq blob t ha (func_count blob) 0 elftc_string_table_create []
    (fun j _ hj => hent j (by omega))
  unfold process_pclntab
  simp only [e0, hmagic, if_true, e6, e7, eN, hoff, eL]
  unfold prepared finished entries
  cases elf_section_by_name _ shstrndx (c_str ".text") with
  | error f => simp [List.range_eq_range']
  | ok text => simp [elftc_string_table_image, List.range_eq_range']

theorem scan_by_name_eq_keys (h : Elf) (shstrndx : Nat) (nam : Bytes) :
    ∀ (l : List Elf_Scn) (ndx : Nat),
      scan_by_name h shstrndx nam l ndx
        = scan_keys (elf_strptr h shstrndx) nam (l.map name_key) ndx := by
  intro l
  induction l with
  | nil => intro ndx; rfl
  | cons s rest ih =>
    intro ndx
    cases hs : s.shdr with
    | none => simp [scan_by_name, scan_keys, name_key, hs]
    | some shdr =>
      simp only [scan_by_name, hs, List.map_cons, name_key, Option.map_some', scan_keys]
      cases elf_strptr h shstrndx shdr.sh_name with
      | none => rfl
      | some snam =>
        simp only []
        split
        · rfl
        · exact ih (ndx + 1)

theorem elf_strptr_eq_keys (h : Elf) (scndx off : Nat) :
    elf_strptr h scndx off
      = if scndx = 0 then none
        else ((h.scns.map name_key)[scndx - 1]?).bind (fun p => c_string_at p.2 off) := by
  unfold elf_strptr elf_getscn
  split
  · rfl
  · simp only [List.get?_eq_getElem?, List.getElem?_map]
    cases h.scns[scndx - 1]? <;> simp [name_key]

theorem elf_section_by_name_congr (e e' : Elf) (shstrndx : Nat) (nam : Bytes)
    (hk : e'.scns.map name_key = e.scns.map name_key) :
    elf_section_by_name e' shstrndx nam = elf_section_by_name e shstrndx nam := by
  unfold elf_section_by_name
  rw [scan_by_name_eq_keys, scan_by_name_eq_keys, hk]
  have : elf_strptr e' shstrndx = elf_strptr e shstrndx := by
    funext off
    rw [elf_strptr_eq_keys, elf_strptr_eq_keys, hk]
  rw [this]

theorem modify_nth_map {α β : Type} (g : α → β) (f : α → α) : ∀ (n : Nat) (l : List α),
    (∀ s, l[n]? = some s → g (f s) = g s) → (modify_nth f n l).map g = l.map g
  | 0, [], _ => rfl
  | _ + 1, [], _ => rfl
  | 0, x :: xs, h => by simp [modify_nth, h x]
  | n + 1, x :: xs, h => by
    simp only [modify_nth, List.map_cons]
    rw [modify_nth_map g f n xs (fun s hs => h s (by simpa using hs))]

theorem update_scn_keys (e : Elf) (scn : Nat) (f : Elf_Scn → Elf_Scn)
    (h : ∀ s, elf_getscn e scn = some s → name_key (f s) = name_key s) :
    (update_scn e scn f).scns.map name_key = e.scns.map name_key := by
  unfold update_scn
  split
  · rfl
  · rename_i hs
    apply modify_nth_map
    intro s hs'
    apply h
    simp [elf_getscn, hs, hs']

theorem gelf_update_shdr_keys (e : Elf) (scn : Nat) (shdr : GElf_Shdr)
    (h : ∀ old, gelf_getshdr e scn = some old → shdr.sh_name = old.sh_name)
    (hsome : elf_getscn e scn ≠ none → gelf_getshdr e scn ≠ none) :
    (gelf_update_shdr e scn shdr).scns.map name_key = e.scns.map name_key := by
  apply update_scn_keys
  intro s hs
  cases hh : s.shdr with
  | none => exact absurd (by simp [gelf_getshdr, hs, hh]) (hsome (by simp [hs]))
  | some old =>
    have := h old (by simp [gelf_getshdr, hs, hh])
    simp [name_key, hh, this, Elf_Scn.contents]

theorem elf_newdata_keys (e : Elf) (scn : Nat) :
    (elf_newdata e scn).1.scns.map name_key = e.scns.map name_key := by
  apply update_scn_keys
  intro s _
  simp [name_key, Elf_Scn.contents, Elf_Data.content]

theorem prepared_keys (elf : Elf) (strscn symscn : Scn) (a : Nat)
    (hstr : gelf_getshdr elf strscn ≠ none) (hsym : gelf_getshdr elf symscn ≠ none) :
    (prepared elf strscn symscn a).scns.map name_key = elf.scns.map name_key := by
  unfold prepared
  simp only []
  rw [elf_newdata_keys, elf_newdata_keys]
  have k1 : (gelf_update_shdr elf strscn
      { (gelf_getshdr elf strscn).getD {} with sh_addralign := 1 }).scns.map name_key
        = elf.scns.map name_key := by
    apply gelf_update_shdr_keys
    · intro old ho; simp [ho]
    · intro _; exact hstr
  rw [gelf_update_shdr_keys, k1]
  · intro old ho; simp [ho]
  · intro _
    unfold gelf_getshdr gelf_update_shdr
    rw [elf_getscn_update_scn]
    split
    · rename_i hc
      subst hc
      cases hg : elf_getscn elf symscn with
      | none => simp [gelf_getshdr, hg] at hsym
      | some s => simp
    · exact hsym

theorem elf_section_by_name_prepared (elf : Elf) (shstrndx : Nat) (nam : Bytes)
    (strscn symscn : Scn) (a : Nat)
    (hstr : gelf_getshdr elf strscn ≠ none) (hsym : gelf_getshdr elf symscn ≠ none) :
    elf_section_by_name (prepared elf strscn symscn a) shstrndx nam
      = elf_section_by_name elf shstrndx nam :=
  elf_section_by_name_congr _ _ _ _ (prepared_keys elf strscn symscn a hstr hsym)

theorem modify_nth_append_last {α : Type} (f : α → α) (x : α) : ∀ (l : List α),
    modify_nth f l.length (l ++ [x]) = l ++ [f x]
  | [] => rfl
  | y :: ys => by simp [modify_nth, modify_nth_append_last f x ys]

theorem last_data_finished_sym (elf : Elf) (strscn symscn : Scn) (blob : Bytes) (textndx : Nat)
    (hne : strscn ≠ symscn) (hsym : elf_getscn elf symscn ≠ none) :
    last_data (finished elf strscn symscn blob textndx) symscn
      = some { d_buf := .syms (emit textndx (entries blob) elftc_string_table_create []).2
               d_size := func_count blob * sizeof_Elf64_Sym
               d_align := hdr_addr_size blob } := by
  obtain ⟨s, hs⟩ := Option.ne_none_iff_exists'.mp hsym
  have hne' : ¬ symscn = strscn := fun h => hne h.symm
  simp [last_data, finished, update_data, elf_newdata, gelf_update_shdr, gelf_getshdr,
    elf_getscn_update_scn, hs, hne, hne', modify_nth_append_last]

theorem last_data_finished_str (elf : Elf) (strscn symscn : Scn) (blob : Bytes) (textndx : Nat)
    (hne : strscn ≠ symscn) (hstr : elf_getscn elf strscn ≠ none) :
    last_data (finished elf strscn symscn blob textndx) strscn
      = some { d_buf := .bytes (emit textndx (entries blob) elftc_string_table_create []).1.pool
               d_size := (emit textndx (entries blob) elftc_string_table_create []).1.pool.length
               d_align := 1 } := by
  obtain ⟨s, hs⟩ := Option.ne_none_iff_exists'.mp hstr
  have hne' : ¬ symscn = strscn := fun h => hne h.symm
  simp [last_data, finished, update_data, elf_newdata, gelf_update_shdr, gelf_getshdr,
    elf_getscn_update_scn, hs, hne, hne', modify_nth_append_last]

theorem emit_eq (t : Nat) : ∀ (es : List (Nat × Bytes)) (st : Elftc_String_Table)
    (syms : List Elf64_Sym),
    emit t es st syms
      = ((insert_all st (es.map Prod.snd)).1,
          syms ++ List.zipWith (fun e ndx => new_sym ndx t e.1) es
            (insert_all st (es.map Prod.snd)).2) := by
  intro es
  induction es with
  | nil => intro st syms; simp [emit, insert_all]
  | cons e rest ih =>
    intro st syms
    obtain ⟨foff, name⟩ := e
    simp [emit, insert_all, ih]

theorem create_eq_table_of : elftc_string_table_create = table_of [] := rfl

theorem emit_create (t : Nat) (es : List (Nat × Bytes)) :
    emit t es elftc_string_table_create []
      = (table_of (first_seen (es.map Prod.snd)),
          es.map (fun e => new_sym (1 + str_offset (first_seen (es.map Prod.snd)) e.2) t e.1)) := by
  rw [emit_eq, create_eq_table_of, insert_all_table_of]
  simp only [first_seen, List.nil_append, List.zipWith_map_right]
  congr 1
  generalize List.foldl add_new [] (List.map Prod.snd es) = D
  induction es with
  | nil => rfl
  | cons e rest ih => simp [ih]

theorem c_string_clean : ∀ (l s : Bytes), c_string l = some s → c_clean s := by
  intro l
  induction l with
  | nil => intro s h; simp [c_string] at h
  | cons b bs ih =>
    intro s h
    unfold c_string at h
    split at h
    · cases h; intro x hx; simp at hx
    · rename_i hb
      cases hr : c_string bs with
      | none => simp [hr] at h
      | some r =>
        simp only [hr, Option.map_some', Option.some.injEq] at h
        subst h
        intro x hx
        rcases List.mem_cons.mp hx with hx | hx
        · subst hx
          exact ⟨by omega, Nat.mod_lt _ (by decide)⟩
        · exact ih r hr x hx

theorem c_string_append (s rest : Bytes) (hs : c_clean s) :
    c_string (s ++ 0 :: rest) = some s := by
  induction s with
  | nil => simp [c_string]
  | cons b bs ih =>
    have hb := hs b (by simp)
    have hbs : c_clean bs := fun x hx => hs x (List.mem_cons_of_mem _ hx)
    have h1 : b % 256 = b := Nat.mod_eq_of_lt hb.2
    have h2 : ¬ b = 0 := by omega
    simp [c_string, h1, h2, ih hbs]

theorem drop_packed (D : List Bytes) (s : Bytes) (h : s ∈ D) :
    ∃ rest, (packed D).drop (str_offset D s) = s ++ 0 :: rest := by
  induction D with
  | nil => simp at h
  | cons n ns ih =>
    by_cases e : n = s
    · subst e
      exact ⟨packed ns, by simp [str_offset, packed]⟩
    · have hm : s ∈ ns := by
        rcases List.mem_cons.mp h with h | h
        · exact absurd h.symm e
        · exact h
      obtain ⟨rest, hr⟩ := ih hm
      refine ⟨rest, ?_⟩
      have : packed (n :: ns) = (n ++ [0]) ++ packed ns := by simp [packed]
      rw [this]
      simp only [str_offset, e, if_false]
      rw [List.drop_append_eq_append_drop]
      have hl : (n ++ [0]).length = n.length + 1 := by simp
      rw [List.drop_eq_nil_of_le (by omega), hl]
      simp only [List.nil_append]
      have : n.length + 1 + str_offset ns s - (n.length + 1) = str_offset ns s := by omega
      rw [this, hr]

theorem c_string_at_image (D : List Bytes) (s : Bytes) (h : s ∈ D) (hs : c_clean s) :
    c_string_at (table_of D).pool (1 + str_offset D s) = some s := by
  obtain ⟨rest, hr⟩ := drop_packed D s h
  have : List.drop (1 + str_offset D s) (0 :: packed D) = List.drop (str_offset D s) (packed D) := by
    rw [Nat.add_comm]; rfl
  simp only [c_string_at, table_of, this, hr]
  exact c_string_append s rest hs

theorem mem_foldl_add_new (names : List Bytes) : ∀ (acc : List Bytes) (s : Bytes),
    s ∈ names.foldl add_new acc ↔ s ∈ acc ∨ s ∈ names := by
  induction names with
  | nil => intro acc s; simp
  | cons n ns ih =>
    intro acc s
    rw [List.foldl_cons, ih]
    unfold add_new
    split
    · rename_i hn
      constructor
      · rintro (h | h)
        · exact Or.inl h
        · exact Or.inr (List.mem_cons_of_mem _ h)
      · rintro (h | h)
        · exact Or.inl h
        · rcases List.mem_cons.mp h with h | h
          · subst h; exact Or.inl hn
          · exact Or.inr h
    · simp only [List.mem_append, List.mem_singleton, List.mem_cons]
      tauto

theorem mem_first_seen (names : List Bytes) (s : Bytes) : s ∈ first_seen names ↔ s ∈ names := by
  simp [first_seen, mem_foldl_add_new]

theorem eraseDups_loop_eq (names : List Bytes) : ∀ (bs : List Bytes),
    List.eraseDups.loop names bs = names.foldl add_new bs.reverse := by
  induction names with
  | nil => intro bs; simp [List.eraseDups.loop]
  | cons n ns ih =>
    intro bs
    rw [List.eraseDups.loop, List.foldl_cons]
    by_cases h : n ∈ bs
    · have : List.elem n bs = true := by simpa using h
      simp [this, ih, add_new, h]
    · have : List.elem n bs = false := by simpa using h
      simp [this, ih, add_new, h]

theorem first_seen_eq_eraseDups (names : List Bytes) : first_seen names = names.eraseDups := by
  simp [first_seen, List.eraseDups, eraseDups_loop_eq]

theorem emit_entries (blob : Bytes) (t : Nat) :
    emit t (entries blob) elftc_string_table_create []
      = (table_of (first_seen (func_names blob)), symbols blob t) := by
  rw [emit_create]; rfl

theorem process_pclntab_ok (elf : Elf) (shstrndx : Nat) (blob : Bytes) (strscn symscn : Scn)
    (text : Option Scn) (hw : WellFormed blob)
    (hstr : gelf_getshdr elf strscn ≠ none) (hsym : gelf_getshdr elf symscn ≠ none)
    (hne : strscn ≠ symscn)
    (htext : elf_section_by_name elf shstrndx (c_str ".text") = .ok text) :
    ∃ e', process_pclntab elf shstrndx blob strscn symscn = .ok () e' ∧
      last_data e' symscn = some { d_buf := .syms (symbols blob (elf_ndxscn text))
                                   d_size := func_count blob * sizeof_Elf64_Sym
                                   d_align := hdr_addr_size blob } ∧
      last_data e' strscn = some { d_buf := .bytes (image blob)
                                   d_size := (image blob).length
                                   d_align := 1 } := by
  have hs1 : elf_getscn elf strscn ≠ none := fun h => hstr (by simp [gelf_getshdr, h])
  have hs2 : elf_getscn elf symscn ≠ none := fun h => hsym (by simp [gelf_getshdr, h])
  refine ⟨finished elf strscn symscn blob (elf_ndxscn text), ?_, ?_, ?_⟩
  · rw [process_pclntab_run elf shstrndx blob strscn symscn hw,
      elf_section_by_name_prepared elf shstrndx _ strscn symscn _ hstr hsym, htext]
  · rw [last_data_finished_sym elf strscn symscn blob _ hne hs2, emit_entries]
  · rw [last_data_finished_str elf strscn symscn blob _ hne hs1, emit_entries]
    rfl

theorem entries_length (blob : Bytes) : (entries blob).length = func_count blob := by
  simp [entries]

theorem symbols_length (blob : Bytes) (t : Nat) : (symbols blob t).length = func_count blob := by
  simp [symbols, entries_length]

theorem symbols_get? (blob : Bytes) (t i : Nat) (h : i < func_count blob) :
    (symbols blob t)[i]? = some (new_sym
      (1 + str_offset (first_seen (func_names blob)) ((func_name blob i).getD [])) t
      (func_offset blob i)) := by
  simp [symbols, entries, List.getElem?_map, List.getElem?_range h, entry]

theorem func_names_get? (blob : Bytes) (i : Nat) (h : i < func_count blob) :
    (func_names blob)[i]? = some ((func_name blob i).getD []) := by
  simp [func_names, entries, List.getElem?_range h, entry]

theorem mem_func_names (blob : Bytes) (i : Nat) (h : i < func_count blob) :
    (func_name blob i).getD [] ∈ func_names blob :=
  List.getElem?_mem (func_names_get? blob i h)

theorem func_name_clean (blob : Bytes) (hw : WellFormed blob) (i : Nat)
    (h : i < func_count blob) :
    ∃ name, func_name blob i = some name ∧ c_clean name := by
  obtain ⟨name, hn⟩ := Option.isSome_iff_exists.mp (hw.2.2.2.2 i h).2.2
  exact ⟨name, hn, c_string_clean _ _ hn⟩

theorem func_names_clean (blob : Bytes) (hw : WellFormed blob) :
    ∀ s ∈ func_names blob, c_clean s := by
  intro s hs
  simp only [func_names, entries, List.map_map, List.mem_map, List.mem_range] at hs
  obtain ⟨i, hi, rfl⟩ := hs
  obtain ⟨name, hn, hc⟩ := func_name_clean blob hw i hi
  simp [entry, hn, hc]

theorem str_offset_lt (D : List Bytes) (s : Bytes) (h : s ∈ D) :
    str_offset D s + s.length + 1 ≤ strings_size D := by
  induction D with
  | nil => simp at h
  | cons n ns ih =>
    by_cases e : n = s
    · subst e; simp [str_offset, strings_size]
    · have hm : s ∈ ns := by
        rcases List.mem_cons.mp h with h | h
        · exact absurd h.symm e
        · exact h
      have := ih hm
      simp only [str_offset, e, if_false, strings_size]
      omega

theorem image_length (blob : Bytes) :
    (image blob).length = 1 + strings_size (first_seen (func_names blob)) := by
  simp [image, packed_length, Nat.add_comm]

theorem scan_by_name_replicate (h : Elf) (shstrndx : Nat) (nam : Bytes) (s : Elf_Scn)
    (hd : GElf_Shdr) (snam : Bytes) (hs : s.shdr = some hd)
    (hr : elf_strptr h shstrndx hd.sh_name = some snam) (hne : snam ≠ nam)
    (rest : List Elf_Scn) : ∀ (n ndx : Nat),
    scan_by_name h shstrndx nam (List.replicate n s ++ rest) ndx
      = scan_by_name h shstrndx nam rest (ndx + n) := by
  intro n
  induction n with
  | zero => intro ndx; rfl
  | succ n ih =>
    intro ndx
    rw [List.replicate_succ, List.cons_append, scan_by_name]
    simp only [hs, hr, hne, if_false]
    rw [ih]
    congr 1
    omega

theorem wide_elf_strptr (off : Nat) :
    elf_strptr wide_elf 1 off = c_string_at pad_scn.contents off := by
  rfl

theorem wide_elf_text :
    elf_section_by_name wide_elf 1 (c_str ".text") = .ok (some 65537) := by
  unfold elf_section_by_name
  have hp : elf_strptr wide_elf 1 7 = some (c_str ".pad") := by
    rw [wide_elf_strptr]; decide
  have hn : c_str ".pad" ≠ c_str ".text" := by decide
  show scan_by_name wide_elf 1 (c_str ".text")
    (pad_scn :: (List.replicate 65535 pad_scn ++ wide_tail)) 1 = _
  rw [scan_by_name]
  simp only [pad_scn, hp, hn, if_false]
  rw [scan_by_name_replicate wide_elf 1 (c_str ".text") _ _ (c_str ".pad") rfl hp hn]
  unfold wide_tail
  rw [scan_by_name]
  simp only []
  rw [wide_elf_strptr]
  rfl

theorem wide_elf_getscn (k : Nat) :
    elf_getscn wide_elf (65537 + k) = wide_tail.get? k := by
  have h1 : ¬ (65537 + k = 0) := by omega
  have h2 : 65537 + k - 1 = 65536 + k := by omega
  simp only [elf_getscn, h1, if_false, h2, wide_elf, List.get?_eq_getElem?]
  rw [show 65536 + k = (65535 + k) + 1 from by omega, List.getElem?_cons_succ,
    List.getElem?_append_right (by simp only [List.length_replicate]; omega)]
  simp only [List.length_replicate, Nat.add_sub_cancel_left]

theorem wide_elf_strscn : gelf_getshdr wide_elf 65538 ≠ none := by
  have h2 := wide_elf_getscn 1
  simp only [gelf_getshdr, show 65538 = 65537 + 1 from rfl, h2]
  decide

theorem wide_elf_symscn : gelf_getshdr wide_elf 65539 ≠ none := by
  have h2 := wide_elf_getscn 2
  simp only [gelf_getshdr, show 65539 = 65537 + 2 from rfl, h2]
  decide

theorem func_name_eq_get? (blob : Bytes) (hw : WellFormed blob) (i : Nat)
    (h : i < func_count blob) : func_name blob i = (func_names blob).get? i := by
  obtain ⟨name, hn, _⟩ := func_name_clean blob hw i h
  simp [func_names_get? blob i h, hn]

theorem symbols_name_resolves (blob : Bytes) (hw : WellFormed blob) (t i : Nat)
    (hi : i < func_count blob) (hfit : (image blob).length ≤ 2 ^ 32) :
    ∃ sym name, (symbols blob t).get? i = some sym ∧ func_name blob i = some name ∧
      c_string_at (image blob) sym.st_name = some name := by
  obtain ⟨name, hn, hc⟩ := func_name_clean blob hw i hi
  have hmem : name ∈ first_seen (func_names blob) := by
    rw [mem_first_seen]
    have := mem_func_names blob i hi
    rwa [hn] at this
  have hlt := str_offset_lt _ name hmem
  rw [image_length] at hfit
  refine ⟨_, name, by rw [List.get?_eq_getElem?]; exact symbols_get? blob t i hi, hn, ?_⟩
  have hmod : (1 + str_offset (first_seen (func_names blob)) name) % 2 ^ 32
      = 1 + str_offset (first_seen (func_names blob)) name := Nat.mod_eq_of_lt (by omega)
  simp only [new_sym, hn, Option.getD_some, hmod]
  exact c_string_at_image _ name hmem hc

theorem get_uptr_error (buf : Bytes) (iter a : Nat) (f : Failure)
    (h : get_uptr buf iter a = .error f) :
    (f = .fault ∧ (a = 8 ∨ a = 4)) ∨ (f = .abort ∧ ¬ (a = 8 ∨ a = 4)) := by
  unfold get_uptr at h
  split at h
  · rename_i ha
    split at h
    · cases h; exact Or.inl ⟨rfl, ha⟩
    · cases h
  · rename_i ha
    cases h; exact Or.inr ⟨rfl, ha⟩

theorem pclntab_loop_error (pcview : Bytes) (a t : Nat) : ∀ (n iter : Nat)
    (st : Elftc_String_Table) (syms : List Elf64_Sym) (f : Failure),
    pclntab_loop pcview a t n iter st syms = .error f →
      f = .fault ∨ (f = .abort ∧ ¬ (a = 8 ∨ a = 4)) := by
  intro n
  induction n with
  | zero => intro iter st syms f h; simp [pclntab_loop] at h
  | succ n ih =>
    intro iter st syms f h
    rw [pclntab_loop] at h
    split at h
    · rename_i f1 h1
      cases h
      rcases get_uptr_error _ _ _ _ h1 with ⟨hf, _⟩ | ⟨hf, ha⟩
      · exact Or.inl hf
      · exact Or.inr ⟨hf, ha⟩
    · split at h
      · rename_i f2 h2
        cases h
        rcases get_uptr_error _ _ _ _ h2 with ⟨hf, _⟩ | ⟨hf, ha⟩
        · exact Or.inl hf
        · exact Or.inr ⟨hf, ha⟩
      · split at h
        · cases h; exact Or.inl rfl
        · simp only [] at h
          split at h
          · cases h; exact Or.inl rfl
          · exact ih _ _ _ _ h

theorem scan_by_name_error (h : Elf) (shstrndx : Nat) (nam : Bytes) :
    ∀ (l : List Elf_Scn) (ndx : Nat) (f : Failure),
      scan_by_name h shstrndx nam l ndx = .error f → f = .gelf_getshdr ∨ f = .elf_strptr := by
  intro l
  induction l with
  | nil => intro ndx f hf; simp [scan_by_name] at hf
  | cons s rest ih =>
    intro ndx f hf
    rw [scan_by_name] at hf
    split at hf
    · cases hf; exact Or.inl rfl
    · split at hf
      · cases hf; exact Or.inr rfl
      · split at hf
        · cases hf
        · exact ih _ _ hf

/-- What `process_pclntab` does once the magic has been accepted and the
header bytes read. -/
theorem process_pclntab_after_header (elf : Elf) (shstrndx : Nat) (blob : Bytes)
    (strscn symscn : Scn) (h8 : 8 ≤ blob.length) (hmagic : field blob 4 0 = 0xfffffffb) :
    process_pclntab elf shstrndx blob strscn symscn
      = match get_uptr blob 8 (hdr_addr_size blob) with
        | .error f => .fail f (prepared elf strscn symscn (hdr_addr_size blob))
        | .ok (N, iter) =>
          match elf_section_by_name (prepared elf strscn symscn (hdr_addr_size blob)) shstrndx
              (c_str ".text") with
          | .error f => .fail f (prepared elf strscn symscn (hdr_addr_size blob))
          | .ok text =>
            match pclntab_loop blob (hdr_addr_size blob) (elf_ndxscn text) N iter
                elftc_string_table_create [] with
            | .error f => .fail f (prepared elf strscn symscn (hdr_addr_size blob))
            | .ok (new_strtab, new_symtab) =>
              .ok () (update_data
                (update_data (prepared elf strscn symscn (hdr_addr_size blob)) strscn
                  (elf_newdata (elf_newdata (gelf_update_shdr (gelf_update_shdr elf strscn
                      { (gelf_getshdr elf strscn).getD {} with sh_addralign := 1 }) symscn
                      { (gelf_getshdr (gelf_update_shdr elf strscn
                          { (gelf_getshdr elf strscn).getD {} with sh_addralign := 1 })
                          symscn).getD {} with
                        sh_addralign := hdr_addr_size blob,
                        sh_entsize := sizeof_Elf64_Sym }) symscn).1 strscn).2
                  (fun d => { d with d_buf := .bytes new_strtab.pool,
                                     d_size := new_strtab.pool.length }))
                symscn
                (elf_newdata (gelf_update_shdr (gelf_update_shdr elf strscn
                    { (gelf_getshdr elf strscn).getD {} with sh_addralign := 1 }) symscn
                    { (gelf_getshdr (gelf_update_shdr elf strscn
                        { (gelf_getshdr elf strscn).getD {} with sh_addralign := 1 })
                        symscn).getD {} with
                      sh_addralign := hdr_addr_size blob,
                      sh_entsize := sizeof_Elf64_Sym }) symscn).2
                (fun d => { d with d_align := hdr_addr_size blob, d_buf := .syms new_symtab,
                                   d_size := N * sizeof_Elf64_Sym })) := by
  have e0 := get_u32_zero blob (by omega)
  have e6 := get_u8_eq blob 6 (by omega)
  have e7 : get_u8 blob 7 = .ok (hdr_addr_size blob, 8) := get_u8_eq blob 7 (by omega)
  unfold process_pclntab
  simp only [e0, hmagic, if_true, e6, e7]
  rfl

theorem get_u8_oob (buf : Bytes) (iter : Nat) (h : ¬ iter + 1 ≤ buf.length) :
    get_u8 buf iter = .error .fault := by
  simp [get_u8, peek, h]

/-- A blob with a good magic but fewer than 8 bytes: the read of the quantum or
of `addr_size` leaves the blob, nothing has been touched. -/
theorem process_pclntab_short (elf : Elf) (shstrndx : Nat) (blob : Bytes)
    (strscn symscn : Scn) (h4 : 4 ≤ blob.length) (h8 : ¬ 8 ≤ blob.length)
    (hmagic : field blob 4 0 = 0xfffffffb) :
    process_pclntab elf shstrndx blob strscn symscn = .fail .fault elf := by
  have e0 := get_u32_zero blob h4
  unfold process_pclntab
  simp only [e0, hmagic, if_true]
  by_cases h7 : 7 ≤ blob.length
  · have e6 := get_u8_eq blob 6 (by omega)
    have e7 := get_u8_oob blob 7 (by omega)
    simp only [e6, e7]
  · have e6 := get_u8_oob blob 6 (by omega)
    simp only [e6]

/-- Once the magic is accepted, a failure of `process_pclntab` is a fault, the
abort of `get_uptr`, or a failure of the section lookup. -/
theorem process_pclntab_pass (elf : Elf) (shstrndx : Nat) (blob : Bytes)
    (strscn symscn : Scn) (h4 : 4 ≤ blob.length) (hmagic : field blob 4 0 = 0xfffffffb)
    (f : Failure) (hf : (process_pclntab elf shstrndx blob strscn symscn).failure = some f) :
    f = .fault ∨ f = .abort ∨ f = .gelf_getshdr ∨ f = .elf_strptr := by
  by_cases h8 : 8 ≤ blob.length
  · rw [process_pclntab_after_header elf shstrndx blob strscn symscn h8 hmagic] at hf
    split at hf
    · rename_i f1 h1
      simp only [Step.failure, Option.some.injEq] at hf
      subst hf
      rcases get_uptr_error _ _ _ _ h1 with ⟨h, _⟩ | ⟨h, _⟩
      · exact Or.inl h
      · exact Or.inr (Or.inl h)
    · split at hf
      · rename_i f2 h2
        simp only [Step.failure, Option.some.injEq] at hf
        subst hf
        rcases scan_by_name_error _ _ _ _ _ _ h2 with h | h
        · exact Or.inr (Or.inr (Or.inl h))
        · exact Or.inr (Or.inr (Or.inr h))
      · split at hf
        · rename_i f3 h3
          simp only [Step.failure, Option.some.injEq] at hf
          subst hf
          rcases pclntab_loop_error _ _ _ _ _ _ _ _ h3 with h | ⟨h, _⟩
          · exact Or.inl h
          · exact Or.inr (Or.inl h)
        · simp [Step.failure] at hf
  · rw [process_pclntab_short elf shstrndx blob strscn symscn h4 h8 hmagic] at hf
    simp only [Step.failure, Option.some.injEq] at hf
    exact Or.inl hf.symm

theorem hdr_addr_size_eq (blob : Bytes) (b : Nat) (h : blob.get? 7 = some b) :
    hdr_addr_size blob = b % 256 := by
  rw [List.get?_eq_getElem?] at h
  obtain ⟨hlt, hb⟩ := List.getElem?_eq_some_iff.mp h
  simp [hdr_addr_size, field, List.drop_eq_getElem_cons hlt, hb, le_value]

theorem get?_of_length (blob : Bytes) (h8 : 8 ≤ blob.length) : ∃ b, blob.get? 7 = some b := by
  rw [List.get?_eq_getElem?]
  exact ⟨blob[7], List.getElem?_eq_getElem (by omega)⟩

theorem length_of_get? (blob : Bytes) (b : Nat) (h : blob.get? 7 = some b) :
    8 ≤ blob.length := by
  rw [List.get?_eq_getElem?] at h
  obtain ⟨hlt, _⟩ := List.getElem?_eq_some_iff.mp h
  omega

/-- A blob with valid magic and an `addr_size` other than 4 and 8 stops at the
abort of the first `get_uptr`, with the container prepared for the result. -/
theorem process_pclntab_bad_width (elf : Elf) (shstrndx : Nat) (blob : Bytes)
    (strscn symscn : Scn) (hmagic : field blob 4 0 = 0xfffffffb) (b : Nat)
    (hb : blob.get? 7 = some b) (hn4 : b % 256 ≠ 4) (hn8 : b % 256 ≠ 8) :
    process_pclntab elf shstrndx blob strscn symscn
      = .fail .abort (prepared elf strscn symscn (b % 256)) := by
  have h8 := length_of_get? blob b hb
  have ha := hdr_addr_size_eq blob b hb
  rw [process_pclntab_after_header elf shstrndx blob strscn symscn h8 hmagic]
  have : get_uptr blob 8 (hdr_addr_size blob) = .error .abort := by
    have hna : ¬ (hdr_addr_size blob = 8 ∨ hdr_addr_size blob = 4) := by omega
    simp [get_uptr, hna]
  rw [this, ha]

theorem process_pclntab_bad_magic (elf : Elf) (shstrndx : Nat) (blob : Bytes)
    (strscn symscn : Scn) (h4 : 4 ≤ blob.length) (hmagic : field blob 4 0 ≠ 0xfffffffb) :
    process_pclntab elf shstrndx blob strscn symscn
      = .fail (if field blob 4 0 = 0xfbffffff then .cross_endian else .endian_awry) elf := by
  have e0 := get_u32_zero blob h4
  unfold process_pclntab
  simp only [e0, hmagic, if_false]
  split <;> rfl

theorem elf_getscn_prepared_str (elf : Elf) (strscn symscn : Scn) (a : Nat)
    (hs : GElf_Shdr) (ds : List Elf_Data) (hne : strscn ≠ symscn)
    (h : elf_getscn elf strscn = some { shdr := some hs, data := ds }) :
    elf_getscn (prepared elf strscn symscn a) strscn
      = some { shdr := some { hs with sh_addralign := 1 }, data := ds ++ [{}] } := by
  have hne' : ¬ symscn = strscn := fun h => hne h.symm
  simp [prepared, elf_newdata, gelf_update_shdr, gelf_getshdr, elf_getscn_update_scn, h, hne,
    hne']

theorem elf_getscn_prepared_sym (elf : Elf) (strscn symscn : Scn) (a : Nat)
    (hy : GElf_Shdr) (dy : List Elf_Data) (hne : strscn ≠ symscn)
    (h : elf_getscn elf symscn = some { shdr := some hy, data := dy }) :
    elf_getscn (prepared elf strscn symscn a) symscn
      = some { shdr := some { hy with sh_addralign := a, sh_entsize := 24 },
               data := dy ++ [{}] } := by
  have hne' : ¬ symscn = strscn := fun h => hne h.symm
  simp [prepared, elf_newdata, gelf_update_shdr, gelf_getshdr, elf_getscn_update_scn, h, hne,
    hne', sizeof_Elf64_Sym]

theorem elf_getscn_prepared_other (elf : Elf) (strscn symscn : Scn) (a : Nat) (k : Nat)
    (h1 : k ≠ strscn) (h2 : k ≠ symscn) :
    elf_getscn (prepared elf strscn symscn a) k = elf_getscn elf k := by
  simp [prepared, elf_newdata, gelf_update_shdr, elf_getscn_update_scn, h1, h2]

theorem scn_extends_refl (s : Elf_Scn) : scn_extends s s := ⟨rfl, [], by simp⟩

theorem elf_extends_refl (e : Elf) : elf_extends e e :=
  fun _ s h => ⟨s, h, scn_extends_refl s⟩

theorem elf_extends_trans (e1 e2 e3 : Elf) (h12 : elf_extends e1 e2) (h23 : elf_extends e2 e3) :
    elf_extends e1 e3 := by
  intro k s hs
  obtain ⟨s2, h2, hn2, m2, hd2⟩ := h12 k s hs
  obtain ⟨s3, h3, hn3, m3, hd3⟩ := h23 k s2 h2
  exact ⟨s3, h3, hn3.trans hn2, m2 ++ m3, by rw [hd3, hd2, List.append_assoc]⟩

theorem c_string_append_right : ∀ (l r s : Bytes), c_string l = some s →
    c_string (l ++ r) = some s := by
  intro l
  induction l with
  | nil => intro r s h; simp [c_string] at h
  | cons b bs ih =>
    intro r s h
    rw [List.cons_append]
    unfold c_string at h ⊢
    split
    · rename_i hb; simpa [hb] using h
    · rename_i hb
      simp only [hb, if_false] at h
      cases hr : c_string bs with
      | none => simp [hr] at h
      | some t =>
        simp only [hr, Option.map_some'] at h
        simp [ih r t hr, h]

theorem c_string_at_append_right (c extra : Bytes) (off : Nat) (s : Bytes)
    (h : c_string_at c off = some s) : c_string_at (c ++ extra) off = some s := by
  unfold c_string_at at h ⊢
  by_cases hle : off ≤ c.length
  · rw [List.drop_append_of_le_length hle]
    exact c_string_append_right _ _ _ h
  · rw [List.drop_eq_nil_of_le (by omega)] at h
    simp [c_string] at h

theorem contents_extends (s s' : Elf_Scn) (h : scn_extends s s') :
    ∃ extra, s'.contents = s.contents ++ extra := by
  obtain ⟨_, more, hm⟩ := h
  exact ⟨more.flatMap Elf_Data.content, by simp [Elf_Scn.contents, hm, List.flatMap_append]⟩

theorem elf_strptr_extends (e e' : Elf) (h : elf_extends e e') (scndx off : Nat) (s : Bytes)
    (hs : elf_strptr e scndx off = some s) : elf_strptr e' scndx off = some s := by
  unfold elf_strptr at hs ⊢
  cases hg : elf_getscn e scndx with
  | none => simp [hg] at hs
  | some sec =>
    obtain ⟨sec', hg', hx⟩ := h scndx sec hg
    obtain ⟨extra, hc⟩ := contents_extends sec sec' hx
    simp only [hg, Option.bind_some] at hs
    rw [hg']
    show c_string_at sec'.contents off = some s
    rw [hc]
    exact c_string_at_append_right _ _ _ _ hs

theorem elf_rawdata_extends (e e' : Elf) (h : elf_extends e e') (k : Nat) (d : Elf_Data)
    (hd : elf_rawdata e k = some d) : elf_rawdata e' k = some d := by
  unfold elf_rawdata at hd ⊢
  cases hg : elf_getscn e k with
  | none => simp [hg] at hd
  | some sec =>
    obtain ⟨sec', hg', _, more, hm⟩ := h k sec hg
    rw [hg] at hd
    have hd' : sec.data.head? = some d := hd
    rw [hg']
    show sec'.data.head? = some d
    rw [hm]
    cases hsd : sec.data with
    | nil => simp [hsd] at hd'
    | cons x xs =>
      rw [hsd] at hd'
      simpa using hd'

theorem scan_found_extends (e e' : Elf) (h : elf_extends e e') (shstrndx : Nat) (nam : Bytes)
    (g : Scn) : ∀ (l : List Elf_Scn) (ndx : Nat), 0 < ndx →
    (∀ j s, l.get? j = some s → ∃ s', elf_getscn e' (ndx + j) = some s' ∧ scn_extends s s') →
    scan_by_name e shstrndx nam l ndx = .ok (some g) →
    scan_by_name e' shstrndx nam (e'.scns.drop (ndx - 1)) ndx = .ok (some g) := by
  intro l
  induction l with
  | nil => intro ndx _ _ hs; simp [scan_by_name] at hs
  | cons s rest ih =>
    intro ndx hpos hl hs
    obtain ⟨s', hs', hn, _⟩ := hl 0 s rfl
    have hget : e'.scns[ndx - 1]? = some s' := by
      have : ¬ ndx = 0 := by omega
      simpa [elf_getscn, this] using hs'
    obtain ⟨hlt, hel⟩ := List.getElem?_eq_some_iff.mp hget
    have hdrop : e'.scns.drop (ndx - 1) = s' :: e'.scns.drop ndx := by
      rw [List.drop_eq_getElem_cons hlt, hel]
      congr 2
      omega
    rw [hdrop]
    rw [scan_by_name] at hs ⊢
    cases hh : s.shdr with
    | none => simp [hh] at hs
    | some hd =>
      simp only [hh] at hs
      rw [hh] at hn
      cases hh' : s'.shdr with
      | none => simp [hh'] at hn
      | some hd' =>
        simp only [hh', Option.map_some', Option.some.injEq] at hn
        simp only [hn]
        cases hr : elf_strptr e shstrndx hd.sh_name with
        | none => simp [hr] at hs
        | some snam =>
          simp only [hr] at hs
          simp only [elf_strptr_extends e e' h _ _ _ hr]
          by_cases hsn : snam = nam
          · simpa [hsn] using hs
          · simp only [hsn, if_false] at hs ⊢
            have := ih (ndx + 1) (by omega)
              (fun j t ht => by
                have := hl (j + 1) t (by simpa using ht)
                rwa [show ndx + (j + 1) = ndx + 1 + j from by omega] at this) hs
            simpa using this

theorem elf_section_by_name_extends (e e' : Elf) (h : elf_extends e e') (shstrndx : Nat)
    (nam : Bytes) (g : Scn) (hs : elf_section_by_name e shstrndx nam = .ok (some g)) :
    elf_section_by_name e' shstrndx nam = .ok (some g) := by
  unfold elf_section_by_name at hs ⊢
  have := scan_found_extends e e' h shstrndx nam g e.scns 1 (by omega)
    (fun j s hj => h (1 + j) s (by simpa [elf_getscn, Nat.add_comm] using hj)) hs
  simpa using this

theorem elf_getscn_length (e : Elf) (k : Nat) (s : Elf_Scn) (h : elf_getscn e k = some s) :
    0 < k ∧ k ≤ e.scns.length := by
  unfold elf_getscn at h
  by_cases hk : k = 0
  · simp [hk] at h
  · simp only [hk, if_false, List.get?_eq_getElem?] at h
    obtain ⟨hlt, _⟩ := List.getElem?_eq_some_iff.mp h
    omega

/-- The section list after a descriptor has been created and filled. -/
theorem elf_getscn_attach (h : Elf) (scn : Nat) (g : Elf_Data → Elf_Data) (k : Nat) :
    elf_getscn (update_data (elf_newdata h scn).1 scn (elf_newdata h scn).2 g) k
      = if k = scn then (elf_getscn h scn).map (fun s => { s with data := s.data ++ [g {}] })
        else elf_getscn h k := by
  unfold update_data elf_newdata
  simp only [elf_getscn_update_scn]
  by_cases hk : k = scn
  · simp only [hk, if_true]
    cases elf_getscn h scn with
    | none => rfl
    | some s => simp [modify_nth_append_last]
  · simp [hk]

theorem elf_extends_attach (h : Elf) (scn : Nat) (g : Elf_Data → Elf_Data) :
    elf_extends h (update_data (elf_newdata h scn).1 scn (elf_newdata h scn).2 g) := by
  intro k s hs
  rw [elf_getscn_attach]
  by_cases hk : k = scn
  · subst hk
    simp only [if_true, hs, Option.map_some']
    exact ⟨_, rfl, rfl, [g {}], rfl⟩
  · simp only [hk, if_false]
    exact ⟨s, hs, scn_extends_refl s⟩

theorem allocate_fail (h : Elf) (shstrndx : Nat) (names : List Bytes) (f : Failure) (e : Elf)
    (he : allocate_shstrtab_entries_ h shstrndx names = .fail f e) : e = h := by
  unfold allocate_shstrtab_entries_ at he
  split at he
  · cases he; rfl
  · cases he; rfl
  · simp only [] at he
    split at he
    · cases he
    · cases he; rfl

theorem allocate_ok (h : Elf) (shstrndx : Nat) (names : List Bytes) (ndxs : List Nat) (e : Elf)
    (he : allocate_shstrtab_entries_ h shstrndx names = .ok ndxs e) :
    elf_extends h e ∧ e.scns.length = h.scns.length := by
  unfold allocate_shstrtab_entries_ at he
  split at he
  · cases he
  · cases he
  · rename_i scn _
    simp only [] at he
    split at he
    · simp only [Step.ok.injEq] at he
      obtain ⟨_, rfl⟩ := he
      exact ⟨elf_extends_attach h scn _, by simp [update_data, elf_newdata, update_scn_length]⟩
    · cases he

theorem create_elf_section_length (h : Elf) (n t l : Nat) :
    (create_elf_section h n t l).1.scns.length = h.scns.length + 1 := by
  simp [create_elf_section, gelf_update_shdr, update_scn_length, elf_newscn]

theorem create_elf_section_extends (h : Elf) (n t l : Nat) :
    elf_extends h (create_elf_section h n t l).1 := by
  intro k s hs
  obtain ⟨hpos, hle⟩ := elf_getscn_length h k s hs
  refine ⟨s, ?_, scn_extends_refl s⟩
  have hne : ¬ k = h.scns.length + 1 := by omega
  have hk0 : ¬ k = 0 := by omega
  simp only [create_elf_section, gelf_update_shdr, elf_newscn, elf_getscn_update_scn, hne,
    if_false]
  simp only [elf_getscn, hk0, if_false, List.get?_eq_getElem?] at hs ⊢
  rw [List.getElem?_append_left (by omega)]
  exact hs

theorem allocate_loop_needed (sh_size : Nat) : ∀ (names : List Bytes) (needed : Nat)
    (data : Bytes),
    (allocate_loop sh_size names needed data).2.1 = needed + strings_size names ∧
    (allocate_loop sh_size names needed data).2.2 = data ++ packed names := by
  intro names
  induction names with
  | nil => intro needed data; simp [allocate_loop, strings_size, packed]
  | cons n ns ih =>
    intro needed data
    obtain ⟨h1, h2⟩ := ih (needed + (n.length + 1)) (data ++ (n ++ [0]))
    simp only [allocate_loop, h1, h2, strings_size]
    constructor
    · omega
    · simp [packed]

/-- The run of `main` from the allocation of the two names on, when the
`.gopclntab` of the input container starts with a rejected magic: it stops at
the magic check of the decoder, two sections after the allocation. -/
theorem main_tail_bad_magic (elf elf1 : Elf) (sh : Nat) (g : Scn) (d : Elf_Data)
    (ndxs : List Nat)
    (hg : elf_section_by_name elf sh (c_str ".gopclntab") = .ok (some g))
    (hd : elf_rawdata elf g = some d)
    (hal : allocate_shstrtab_entries_ elf sh [c_str ".symtab", c_str ".strtab"]
      = .ok ndxs elf1) :
    ∃ e3 : Elf, e3.scns.length = elf.scns.length + 2 ∧
      elf_section_by_name e3 sh (c_str ".gopclntab") = .ok (some g) ∧
      elf_rawdata e3 g = some d ∧
      e3 = (create_elf_section (create_elf_section elf1 (ndxs.getD 1 0) SHT_STRTAB 0).1
        (ndxs.getD 0 0) SHT_SYMTAB
        (elf_ndxscn (some (create_elf_section elf1 (ndxs.getD 1 0) SHT_STRTAB 0).2))).1 := by
  obtain ⟨hx1, hl1⟩ := allocate_ok elf sh _ ndxs elf1 hal
  refine ⟨_, ?_, ?_, ?_, rfl⟩
  · rw [create_elf_section_length, create_elf_section_length, hl1]
  · exact elf_section_by_name_extends elf _
      (elf_extends_trans _ _ _ hx1
        (elf_extends_trans _ _ _ (create_elf_section_extends elf1 _ _ _)
          (create_elf_section_extends _ _ _ _))) sh _ g hg
  · exact elf_rawdata_extends elf _
      (elf_extends_trans _ _ _ hx1
        (elf_extends_trans _ _ _ (create_elf_section_extends elf1 _ _ _)
          (create_elf_section_extends _ _ _ _))) g d hd

theorem le_bytes_length : ∀ (w v : Nat), (le_bytes w v).length = w
  | 0, _ => rfl
  | w + 1, v => by simp [le_bytes, le_bytes_length w]

theorem le_value_le_bytes : ∀ (w v : Nat), v < 256 ^ w → le_value (le_bytes w v) = v
  | 0, v, h => by
    have : v = 0 := by simpa using h
    simp [le_bytes, le_value, this]
  | w + 1, v, h => by
    have h' : v / 256 < 256 ^ w := by
      rw [Nat.div_lt_iff_lt_mul (by decide)]
      rw [Nat.pow_succ] at h
      exact h
    simp only [le_bytes, le_value, Nat.mod_mod, le_value_le_bytes w (v / 256) h']
    omega

theorem field_eq_slice (blob : Bytes) (w off : Nat) :
    field blob w off = le_value (slice blob off w) := rfl

theorem field_of_slice (blob : Bytes) (w off v : Nat) (hv : v < 256 ^ w)
    (h : slice blob off w = le_bytes w v) : field blob w off = v := by
  rw [field_eq_slice, h, le_value_le_bytes w v hv]

theorem slice_bound (blob : Bytes) (off n : Nat) (l : Bytes) (hn : 0 < l.length)
    (h : slice blob off n = l) (hl : l.length = n) : off + n ≤ blob.length := by
  have := congrArg List.length h
  simp only [slice, List.length_take, List.length_drop] at this
  omega

theorem c_string_at_of_slice (blob : Bytes) (off : Nat) (name : Bytes) (hc : c_clean name)
    (h : slice blob off (name.length + 1) = name ++ [0]) :
    c_string_at blob off = some name := by
  unfold c_string_at
  have := List.take_append_drop (name.length + 1) (blob.drop off)
  unfold slice at h
  rw [h] at this
  rw [← this]
  simpa using c_string_append name _ hc

/-- A blob that encodes a list is well formed and its fields, read at the
offsets of the layout, are the pairs of the list. -/
theorem encodes_fields (a : Nat) (blob : Bytes) (xs : List (Nat × Bytes))
    (h : Encodes a blob xs) :
    WellFormed blob ∧ hdr_addr_size blob = a ∧ func_count blob = xs.length ∧
    ∀ (i foff : Nat) (name : Bytes), xs.get? i = some (foff, name) →
      func_offset blob i = foff ∧ func_name blob i = some name := by
  obtain ⟨hmag, hwid, ha, hN, hcnt, hlen, hent⟩ := h
  have hA : hdr_addr_size blob = a := by
    unfold hdr_addr_size
    rw [field_eq_slice, hwid]
    rcases ha with rfl | rfl <;> rfl
  have hC : func_count blob = xs.length := by
    unfold func_count
    rw [hA]
    exact field_of_slice blob a 8 _ hN hcnt
  have hfields : ∀ (i foff : Nat) (name : Bytes), xs.get? i = some (foff, name) →
      func_offset blob i = foff ∧ func_name blob i = some name ∧
      name_table_offset blob i + a + 4 ≤ blob.length := by
    intro i foff name hi
    obtain ⟨hf, hs, hc, namoff, namaddr, hno, hna, hs1, hs2, hs3⟩ := hent i foff name hi
    have e1 : func_offset blob i = foff := by
      unfold func_offset entry_off
      rw [hA]
      exact field_of_slice blob a _ _ hf hs
    have e2 : name_table_offset blob i = namoff := by
      unfold name_table_offset entry_off
      rw [hA]
      exact field_of_slice blob a _ _ hno hs1
    have e3 : name_addr blob i = namaddr := by
      unfold name_addr
      rw [e2, hA]
      exact field_of_slice blob 4 _ _ hna hs2
    refine ⟨e1, ?_, ?_⟩
    · unfold func_name
      rw [e3]
      exact c_string_at_of_slice blob namaddr name hc hs3
    · rw [e2]
      have := slice_bound blob (namoff + a) 4 _ (by simp [le_bytes_length]) hs2
        (le_bytes_length 4 namaddr)
      omega
  refine ⟨⟨?_, ?_, ?_, ?_, ?_⟩, hA, hC, fun i foff name hi => ⟨(hfields i foff name hi).1,
    (hfields i foff name hi).2.1⟩⟩
  · rcases ha with rfl | rfl <;> omega
  · rw [field_eq_slice, hmag]; rfl
  · rw [hA]; exact ha
  · rcases ha with rfl | rfl <;> omega
  · intro i hi
    rw [hC] at hi
    obtain ⟨⟨foff, name⟩, hx⟩ : ∃ p, xs.get? i = some p := by
      rw [List.get?_eq_getElem?]
      exact ⟨xs[i], List.getElem?_eq_getElem hi⟩
    obtain ⟨_, hn, hb⟩ := hfields i foff name hx
    refine ⟨?_, ?_, by simp [hn]⟩
    · unfold entry_off
      rw [hA]
      rcases ha with rfl | rfl <;> omega
    · rw [hA]; exact hb

theorem encodes_entries (a : Nat) (blob : Bytes) (xs : List (Nat × Bytes))
    (h : Encodes a blob xs) : entries blob = xs := by
  obtain ⟨_, _, hC, hf⟩ := encodes_fields a blob xs h
  apply List.ext_get?
  intro i
  by_cases hi : i < xs.length
  · have hx : xs.get? i = some xs[i] := by
      rw [List.get?_eq_getElem?]; exact List.getElem?_eq_getElem hi
    obtain ⟨e1, e2⟩ := hf i xs[i].1 xs[i].2 hx
    rw [hx]
    have hi' : i < func_count blob := by rw [hC]; exact hi
    simp [entries, List.getElem?_range hi', entry, e1, e2]
  · have h1 : xs.get? i = none := by
      rw [List.get?_eq_getElem?]; exact List.getElem?_eq_none (by omega)
    have h2 : (entries blob).get? i = none := by
      rw [List.get?_eq_getElem?]
      exact List.getElem?_eq_none (by rw [entries_length, hC]; omega)
    rw [h1, h2]

set_option maxRecDepth 100000 in
theorem scenario_blob_encodes : Encodes 8 scenario_blob scenario_entries := by
  refine ⟨by decide, by decide, by decide, by decide, by decide, by decide, ?_⟩
  intro i foff name hi
  match i, hi with
  | 0, hi =>
    cases hi
    exact ⟨by decide, by decide, by decide, 48, 72, by decide, by decide, by decide, by decide,
      by decide⟩
  | 1, hi =>
    cases hi
    exact ⟨by decide, by decide, by decide, 60, 81, by decide, by decide, by decide, by decide,
      by decide⟩
  | n + 2, hi => simp [scenario_entries] at hi

set_option maxRecDepth 100000 in
theorem scenario_blob4_encodes : Encodes 4 scenario_blob4 scenario_entries := by
  refine ⟨by decide, by decide, by decide, by decide, by decide, by decide, ?_⟩
  intro i foff name hi
  match i, hi with
  | 0, hi =>
    cases hi
    exact ⟨by decide, by decide, by decide, 28, 44, by decide, by decide, by decide, by decide,
      by decide⟩
  | 1, hi =>
    cases hi
    exact ⟨by decide, by decide, by decide, 36, 53, by decide, by decide, by decide, by decide,
      by decide⟩
  | n + 2, hi => simp [scenario_entries] at hi

theorem take_le_bytes : ∀ (w k v : Nat), (le_bytes (w + k) v).take w = le_bytes w v
  | 0, _, _ => by simp [le_bytes]
  | w + 1, k, v => by
    rw [show w + 1 + k = (w + k) + 1 from by omega]
    simp [le_bytes, take_le_bytes w k (v / 256)]

theorem overflow_table_length (n : Nat) : ∀ (k i : Nat),
    (overflow_table n i k).length = 16 * k
  | 0, _ => rfl
  | k + 1, i => by
    simp only [overflow_table, List.length_append, le_bytes_length,
      overflow_table_length n k (i + 1)]
    omega

theorem drop_overflow_table (n : Nat) (rest : Bytes) : ∀ (j k i : Nat), j ≤ k →
    (overflow_table n i k ++ rest).drop (16 * j) = overflow_table n (i + j) (k - j) ++ rest
  | 0, k, i, _ => by simp
  | j + 1, 0, i, h => by omega
  | j + 1, k + 1, i, h => by
    have ih := drop_overflow_table n rest j k (i + 1) (by omega)
    have e : 16 * (j + 1) = 16 + 16 * j := by omega
    rw [e, ← List.drop_drop]
    have hd : (overflow_table n i (k + 1) ++ rest).drop 16
        = overflow_table n (i + 1) k ++ rest := by
      simp only [overflow_table, List.append_assoc]
      rw [← List.append_assoc (le_bytes 8 _) (le_bytes 8 _)]
      rw [List.drop_left' (by simp [le_bytes_length])]
    rw [hd, ih]
    congr 2
    · omega
    · omega

theorem overflow_pairs_get? (n L : Nat) : ∀ (k i j : Nat), j < k →
    (overflow_pairs n L i k).get? j
      = some (overflow_names_at n + (i + j), List.replicate (L - (i + j)) 1)
  | 0, _, _, h => by omega
  | k + 1, i, 0, _ => by simp [overflow_pairs]
  | k + 1, i, j + 1, h => by
    have := overflow_pairs_get? n L k (i + 1) j (by omega)
    simp only [overflow_pairs, List.get?_cons_succ, this]
    congr 3 <;> omega

theorem overflow_pairs_length (n L : Nat) : ∀ (k i : Nat),
    (overflow_pairs n L i k).length = k
  | 0, _ => rfl
  | k + 1, i => by simp [overflow_pairs, overflow_pairs_length n L k (i + 1)]

theorem overflow_blob_drop_entry (n L j : Nat) (hj : j ≤ n) :
    (overflow_blob n L).drop (16 + 16 * j)
      = overflow_table n j (n - j) ++
        ((le_bytes 8 (overflow_names_at n + L + 1) ++ le_bytes 8 (8 + 16 * n)) ++
          (List.replicate L 1 ++ [0, 2, 0])) := by
  have h16 : (overflow_blob n L).drop 16 = overflow_table n 0 n ++
        ((le_bytes 8 (overflow_names_at n + L + 1) ++ le_bytes 8 (8 + 16 * n)) ++
          (List.replicate L 1 ++ [0, 2, 0])) := by
    unfold overflow_blob
    rw [← List.append_assoc]
    rw [List.drop_left' (by simp [le_bytes_length])]
  rw [← List.drop_drop, h16, drop_overflow_table n _ j n 0 hj]
  simp

theorem overflow_blob_length (n L : Nat) :
    (overflow_blob n L).length = 16 + 16 * (n + 1) + L + 3 := by
  simp only [overflow_blob, List.length_append, List.length_cons, List.length_nil,
    le_bytes_length, overflow_table_length, List.length_replicate]
  omega

theorem overflow_blob_drop_names (n L j : Nat) (hj : j ≤ L) :
    (overflow_blob n L).drop (overflow_names_at n + j)
      = List.replicate (L - j) 1 ++ [0, 2, 0] := by
  have h : (overflow_blob n L).drop (overflow_names_at n)
      = List.replicate L 1 ++ [0, 2, 0] := by
    unfold overflow_blob overflow_names_at
    rw [← List.append_assoc, ← List.append_assoc, ← List.append_assoc]
    rw [List.drop_left' (by
      simp only [List.length_append, List.length_cons, List.length_nil, le_bytes_length,
        overflow_table_length]
      omega)]
  rw [← List.drop_drop, h, List.drop_append_of_le_length (by simp; omega), List.drop_replicate]

/-- The entry `j < n` of the family: its fields as bytes. -/
theorem overflow_blob_entry (n L j : Nat) (hj : j < n) :
    ∃ rest, (overflow_blob n L).drop (16 + 16 * j)
      = le_bytes 8 (overflow_names_at n + j) ++ (le_bytes 8 (8 + 16 * j) ++ rest) := by
  rw [overflow_blob_drop_entry n L j (by omega)]
  obtain ⟨k, hk⟩ : ∃ k, n - j = k + 1 := ⟨n - j - 1, by omega⟩
  rw [hk]
  simp only [overflow_table, List.append_assoc]
  exact ⟨_, rfl⟩

theorem overflow_blob_last_entry (n L : Nat) :
    ∃ rest, (overflow_blob n L).drop (16 + 16 * n)
      = le_bytes 8 (overflow_names_at n + L + 1) ++ (le_bytes 8 (8 + 16 * n) ++ rest) := by
  rw [overflow_blob_drop_entry n L n (Nat.le_refl n)]
  simp only [Nat.sub_self, overflow_table, List.nil_append, List.append_assoc]
  exact ⟨_, rfl⟩

/-- The three slices of an entry that the encoding relation asks for. -/
theorem entry_slices (blob : Bytes) (off foff namoff : Nat) (rest : Bytes)
    (h : blob.drop off = le_bytes 8 foff ++ (le_bytes 8 namoff ++ rest)) :
    slice blob off 8 = le_bytes 8 foff ∧ slice blob (off + 8) 8 = le_bytes 8 namoff ∧
    slice blob off 4 = le_bytes 4 foff := by
  refine ⟨?_, ?_, ?_⟩
  · unfold slice
    rw [h, List.take_left' (le_bytes_length 8 foff)]
  · unfold slice
    rw [← List.drop_drop, h, List.drop_left' (le_bytes_length 8 foff),
      List.take_left' (le_bytes_length 8 namoff)]
  · unfold slice
    rw [h, List.take_append_of_le_length (by simp [le_bytes_length])]
    exact take_le_bytes 4 4 foff

theorem c_clean_replicate (k : Nat) : c_clean (List.replicate k 1) := by
  intro b hb
  rw [List.mem_replicate] at hb
  omega

theorem overflow_blob_encodes (n L : Nat) (hn : n ≤ L)
    (hfit : overflow_names_at n + L + 1 < 256 ^ 4) :
    Encodes 8 (overflow_blob n L)
      (overflow_pairs n L 0 n ++ [(overflow_names_at n + L + 1, [2])]) := by
  have h48 : (256 : Nat) ^ 4 < 256 ^ 8 := by decide
  have hS : overflow_names_at n = 16 + 16 * (n + 1) := rfl
  refine ⟨rfl, rfl, Or.inr rfl, ?_, ?_, ?_, ?_⟩
  · simp only [List.length_append, overflow_pairs_length, List.length_singleton]
    omega
  · simp only [List.length_append, overflow_pairs_length, List.length_singleton]
    unfold slice overflow_blob
    rw [List.drop_left' (by rfl), List.take_left' (le_bytes_length 8 _)]
  · simp only [List.length_append, overflow_pairs_length, List.length_singleton,
      overflow_blob_length]
    omega
  · intro i foff name hi
    by_cases hlt : i < n
    · rw [List.get?_eq_getElem?, List.getElem?_append_left (by rw [overflow_pairs_length]; exact hlt),
        ← List.get?_eq_getElem?, overflow_pairs_get? n L n 0 i hlt] at hi
      simp only [Nat.zero_add, Option.some.injEq, Prod.mk.injEq] at hi
      obtain ⟨rfl, rfl⟩ := hi
      obtain ⟨rest, hr⟩ := overflow_blob_entry n L i hlt
      have he : 8 + 8 + 2 * 8 * i = 16 + 16 * i := by omega
      obtain ⟨s1, s2, s3⟩ := entry_slices _ _ _ _ rest hr
      refine ⟨by omega, by rw [he]; exact s1, c_clean_replicate _, 8 + 16 * i,
        overflow_names_at n + i, by omega, by omega, by rw [he]; exact s2, ?_, ?_⟩
      · rw [show 8 + 16 * i + 8 = 16 + 16 * i from by omega]; exact s3
      · unfold slice
        rw [overflow_blob_drop_names n L i (by omega), List.length_replicate]
        rw [show ([0, 2, 0] : Bytes) = [0] ++ [2, 0] from rfl, ← List.append_assoc]
        rw [List.take_left' (by simp)]
    · have hin : i = n := by
        rw [List.get?_eq_getElem?] at hi
        have := (List.getElem?_eq_some_iff.mp hi).1
        simp only [List.length_append, overflow_pairs_length, List.length_singleton] at this
        omega
      subst hin
      rw [List.get?_eq_getElem?, List.getElem?_append_right (by rw [overflow_pairs_length]),
        overflow_pairs_length] at hi
      simp only [Nat.sub_self, List.getElem?_cons_zero, Option.some.injEq, Prod.mk.injEq] at hi
      obtain ⟨rfl, rfl⟩ := hi
      obtain ⟨rest, hr⟩ := overflow_blob_last_entry i L
      have he : 8 + 8 + 2 * 8 * i = 16 + 16 * i := by omega
      obtain ⟨s1, s2, s3⟩ := entry_slices _ _ _ _ rest hr
      refine ⟨by omega, by rw [he]; exact s1, by decide, 8 + 16 * i,
        overflow_names_at i + L + 1, by omega, hfit, by rw [he]; exact s2, ?_, ?_⟩
      · rw [show 8 + 16 * i + 8 = 16 + 16 * i from by omega]; exact s3
      · unfold slice
        have hd : (overflow_blob i L).drop (overflow_names_at i + L + 1) = [2, 0] := by
          have h0 := overflow_blob_drop_names i L 0 (by omega)
          simp only [Nat.add_zero, Nat.sub_zero] at h0
          rw [Nat.add_assoc, ← List.drop_drop, h0]
          rw [show L + 1 = (List.replicate L 1 ++ [0]).length from by simp,
            show ([0, 2, 0] : Bytes) = [0] ++ [2, 0] from rfl, ← List.append_assoc,
            List.drop_left]
        rw [hd]
        rfl

theorem foldl_add_new_of_nodup : ∀ (l acc : List Bytes), (acc ++ l).Nodup →
    l.foldl add_new acc = acc ++ l := by
  intro l
  induction l with
  | nil => intro acc _; simp
  | cons x xs ih =>
    intro acc h
    have hx : x ∉ acc := by
      intro hm
      have := List.nodup_append.mp h
      exact this.2.2 hm (List.mem_cons_self x xs)
    have h' : ((acc ++ [x]) ++ xs).Nodup := by simpa using h
    rw [List.foldl_cons]
    simp only [add_new, hx, if_false]
    rw [ih (acc ++ [x]) h']
    simp

theorem first_seen_of_nodup (l : List Bytes) (h : l.Nodup) : first_seen l = l := by
  have := foldl_add_new_of_nodup l [] (by simpa using h)
  simpa [first_seen] using this

theorem mem_overflow_names (n L : Nat) : ∀ (k i : Nat) (s : Bytes),
    s ∈ (overflow_pairs n L i k).map Prod.snd →
      ∃ j, i ≤ j ∧ j < i + k ∧ s = List.replicate (L - j) 1
  | 0, _, s, h => by simp [overflow_pairs] at h
  | k + 1, i, s, h => by
    simp only [overflow_pairs, List.map_cons, List.mem_cons] at h
    rcases h with h | h
    · exact ⟨i, Nat.le_refl i, by omega, h⟩
    · obtain ⟨j, h1, h2, h3⟩ := mem_overflow_names n L k (i + 1) s h
      exact ⟨j, by omega, by omega, h3⟩

theorem nodup_overflow_names (n L : Nat) : ∀ (k i : Nat), i + k ≤ L →
    ((overflow_pairs n L i k).map Prod.snd).Nodup
  | 0, _, _ => by simp [overflow_pairs]
  | k + 1, i, h => by
    simp only [overflow_pairs, List.map_cons, List.nodup_cons]
    refine ⟨?_, nodup_overflow_names n L k (i + 1) (by omega)⟩
    intro hm
    obtain ⟨j, h1, h2, h3⟩ := mem_overflow_names n L k (i + 1) _ hm
    have := congrArg List.length h3
    simp only [List.length_replicate] at this
    omega

theorem strings_size_ge (m : Nat) : ∀ (l : List Bytes), (∀ s ∈ l, m ≤ s.length) →
    l.length * (m + 1) ≤ strings_size l
  | [], _ => by simp [strings_size]
  | x :: xs, h => by
    have h1 := h x (List.mem_cons_self x xs)
    have h2 := strings_size_ge m xs (fun s hs => h s (List.mem_cons_of_mem _ hs))
    simp only [strings_size, List.length_cons, Nat.add_mul, Nat.one_mul]
    omega

theorem packed_bytes_le (l : List Bytes) (h : ∀ s ∈ l, ∀ b ∈ s, b ≤ 1) :
    ∀ b ∈ packed l, b ≤ 1 := by
  intro b hb
  simp only [packed, List.mem_flatMap, List.mem_append, List.mem_singleton] at hb
  obtain ⟨s, hs, hb | hb⟩ := hb
  · exact h s hs b hb
  · omega

/-- Where every byte is 0 or 1, no C string read gives the string `[2]`. -/
theorem c_string_at_ne_two (l tail : Bytes) (p : Nat) (hp : p < l.length)
    (hl : ∀ b ∈ l, b ≤ 1) : c_string_at (l ++ tail) p ≠ some [2] := by
  unfold c_string_at
  rw [List.drop_append_of_le_length (by omega), List.drop_eq_getElem_cons hp]
  have hb : l[p] ≤ 1 := hl _ (List.getElem_mem hp)
  rw [List.cons_append, c_string]
  split
  · simp
  · rename_i hne
    cases c_string (List.drop (p + 1) l ++ tail) with
    | none => simp
    | some r =>
      simp only [Option.map_some', ne_eq, Option.some.injEq, List.cons.injEq, not_and]
      intro h2
      omega

/-- In the family `overflow_blob n L`, once the first `n` names fill 2^32 bytes
of string table, the offset of the last name `[2]` does not fit `st_name`, and
the string found at the stored offset is not that name. -/
theorem overflow_last_name (n L t : Nat) (hn : n ≤ L)
    (hfit : overflow_names_at n + L + 1 < 256 ^ 4) (hbig : 2 ^ 32 ≤ n * (L - n + 1)) :
    WellFormed (overflow_blob n L) ∧ n < func_count (overflow_blob n L) ∧
    func_name (overflow_blob n L) n = some [2] ∧
    ∃ sym, (symbols (overflow_blob n L) t).get? n = some sym ∧
      c_string_at (image (overflow_blob n L)) sym.st_name ≠ some [2] := by
  have henc := overflow_blob_encodes n L hn hfit
  obtain ⟨hw, _, hc, hf⟩ := encodes_fields 8 _ _ henc
  have hent := encodes_entries 8 _ _ henc
  have hcount : func_count (overflow_blob n L) = n + 1 := by
    rw [hc]; simp [overflow_pairs_length]
  have hlast : (overflow_pairs n L 0 n ++ [(overflow_names_at n + L + 1, [2])]).get? n
      = some (overflow_names_at n + L + 1, [2]) := by
    rw [List.get?_eq_getElem?, List.getElem?_append_right (by rw [overflow_pairs_length]),
      overflow_pairs_length]
    simp
  obtain ⟨_, hname⟩ := hf n _ _ hlast
  have hnames : func_names (overflow_blob n L)
      = (overflow_pairs n L 0 n).map Prod.snd ++ [[2]] := by
    simp [func_names, hent]
  have hprev : ∀ s ∈ (overflow_pairs n L 0 n).map Prod.snd,
      ∃ j, j < n ∧ s = List.replicate (L - j) 1 := by
    intro s hs
    obtain ⟨j, _, h2, h3⟩ := mem_overflow_names n L n 0 s hs
    exact ⟨j, by omega, h3⟩
  have hnot : ([2] : Bytes) ∉ (overflow_pairs n L 0 n).map Prod.snd := by
    intro hm
    obtain ⟨j, _, hj⟩ := hprev _ hm
    have : (2 : Nat) ∈ List.replicate (L - j) 1 := by rw [← hj]; simp
    rw [List.mem_replicate] at this
    omega
  have hnodup : (func_names (overflow_blob n L)).Nodup := by
    rw [hnames, List.nodup_append]
    refine ⟨nodup_overflow_names n L n 0 (by omega), List.nodup_singleton _, ?_⟩
    intro x hx hx'
    rw [List.mem_singleton] at hx'
    subst hx'
    exact hnot hx
  have hseen := first_seen_of_nodup _ hnodup
  have hoff : str_offset (func_names (overflow_blob n L)) [2]
      = strings_size ((overflow_pairs n L 0 n).map Prod.snd) := by
    rw [hnames, str_offset_append_of_not_mem _ _ _ hnot]
    simp [str_offset]
  have hsize : 2 ^ 32 ≤ strings_size ((overflow_pairs n L 0 n).map Prod.snd) := by
    have := strings_size_ge (L - n) ((overflow_pairs n L 0 n).map Prod.snd) (by
      intro s hs
      obtain ⟨j, hj, rfl⟩ := hprev s hs
      rw [List.length_replicate]
      omega)
    rw [List.length_map, overflow_pairs_length] at this
    omega
  have hbytes : ∀ b ∈ (0 :: packed ((overflow_pairs n L 0 n).map Prod.snd)), b ≤ 1 := by
    intro b hb
    rcases List.mem_cons.mp hb with hb | hb
    · omega
    · refine packed_bytes_le _ ?_ b hb
      intro s hs c hc'
      obtain ⟨j, _, rfl⟩ := hprev s hs
      rw [List.mem_replicate] at hc'
      omega
  have himage : image (overflow_blob n L)
      = (0 :: packed ((overflow_pairs n L 0 n).map Prod.snd)) ++ [2, 0] := by
    unfold image
    rw [hseen, hnames, packed_append]
    simp [packed]
  refine ⟨hw, by omega, hname, _, by
    rw [List.get?_eq_getElem?]; exact symbols_get? _ t n (by omega), ?_⟩
  simp only [new_sym, hname, Option.getD_some, hseen, hoff, himage]
  apply c_string_at_ne_two _ _ _ _ hbytes
  simp only [List.length_cons, packed_length]
  have := Nat.mod_lt (1 + strings_size ((overflow_pairs n L 0 n).map Prod.snd))
    (show 0 < 2 ^ 32 by decide)
  omega

theorem scan_by_name_cons (h : Elf) (shstrndx : Nat) (nam : Bytes) (s : Elf_Scn)
    (rest : List Elf_Scn) (ndx : Nat) :
    scan_by_name h shstrndx nam (s :: rest) ndx
      = match scn_name h shstrndx s with
        | none => .error (if s.shdr = none then .gelf_getshdr else .elf_strptr)
        | some snam =>
          if snam = nam then .ok (some ndx) else scan_by_name h shstrndx nam rest (ndx + 1) := by
  rw [scan_by_name]
  cases hs : s.shdr with
  | none => simp [scn_name, hs]
  | some hd =>
    simp only [scn_name, hs, Option.bind_some]
    cases hp : elf_strptr h shstrndx hd.sh_name <;> simp [hp]

/-- A found section is the first one with the target name, and every section
before it decodes to another name. -/
theorem scan_by_name_found (h : Elf) (shstrndx : Nat) (nam : Bytes) :
    ∀ (l : List Elf_Scn) (ndx k : Nat), scan_by_name h shstrndx nam l ndx = .ok (some k) →
      ∃ i, k = ndx + i ∧ (l.get? i).bind (scn_name h shstrndx) = some nam ∧
        ∀ j, j < i → ∃ n, (l.get? j).bind (scn_name h shstrndx) = some n ∧ n ≠ nam := by
  intro l
  induction l with
  | nil => intro ndx k hk; simp [scan_by_name] at hk
  | cons s rest ih =>
    intro ndx k hk
    rw [scan_by_name_cons] at hk
    cases hn : scn_name h shstrndx s with
    | none => simp [hn] at hk
    | some snam =>
      simp only [hn] at hk
      by_cases he : snam = nam
      · rw [if_pos he] at hk
        have hk' : ndx = k := by simpa using hk
        exact ⟨0, by omega, by simp [hn, he], fun j hj => by omega⟩
      · simp only [he, if_false] at hk
        obtain ⟨i, hi, hm, hb⟩ := ih (ndx + 1) k hk
        refine ⟨i + 1, by omega, by simpa using hm, ?_⟩
        intro j hj
        cases j with
        | zero => exact ⟨snam, by simp [hn], he⟩
        | succ j => simpa using hb j (by omega)

/-- When nothing is found, every section decodes to another name. -/
theorem scan_by_name_none (h : Elf) (shstrndx : Nat) (nam : Bytes) :
    ∀ (l : List Elf_Scn) (ndx : Nat), scan_by_name h shstrndx nam l ndx = .ok none →
      ∀ j, j < l.length → ∃ n, (l.get? j).bind (scn_name h shstrndx) = some n ∧ n ≠ nam := by
  intro l
  induction l with
  | nil => intro ndx _ j hj; simp at hj
  | cons s rest ih =>
    intro ndx hk j hj
    rw [scan_by_name_cons] at hk
    cases hn : scn_name h shstrndx s with
    | none => simp [hn] at hk
    | some snam =>
      simp only [hn] at hk
      by_cases he : snam = nam
      · simp [he] at hk
      · simp only [he, if_false] at hk
        cases j with
        | zero => exact ⟨snam, by simp [hn], he⟩
        | succ j => simpa using ih (ndx + 1) hk j (by simpa using hj)

/-- A failed scan met a section that does not decode, with no section of the
target name before it; the failure tells whether it was the header or the name. -/
theorem scan_by_name_failed (h : Elf) (shstrndx : Nat) (nam : Bytes) :
    ∀ (l : List Elf_Scn) (ndx : Nat) (f : Failure),
      scan_by_name h shstrndx nam l ndx = .error f →
      ∃ i s, l.get? i = some s ∧ scn_name h shstrndx s = none ∧
        f = (if s.shdr = none then .gelf_getshdr else .elf_strptr) ∧
        ∀ j, j < i → ∃ n, (l.get? j).bind (scn_name h shstrndx) = some n ∧ n ≠ nam := by
  intro l
  induction l with
  | nil => intro ndx f hk; simp [scan_by_name] at hk
  | cons s rest ih =>
    intro ndx f hk
    rw [scan_by_name_cons] at hk
    cases hn : scn_name h shstrndx s with
    | none =>
      simp only [hn, Except.error.injEq] at hk
      exact ⟨0, s, rfl, hn, hk.symm, fun j hj => by omega⟩
    | some snam =>
      simp only [hn] at hk
      by_cases he : snam = nam
      · simp [he] at hk
      · simp only [he, if_false] at hk
        obtain ⟨i, t, hi, ht, hf, hb⟩ := ih (ndx + 1) f hk
        refine ⟨i + 1, t, by simpa using hi, ht, hf, ?_⟩
        intro j hj
        cases j with
        | zero => exact ⟨snam, by simp [hn], he⟩
        | succ j => simpa using hb j (by omega)

theorem section_name_eq (h : Elf) (shstrndx : Nat) (k : Nat) :
    section_name h shstrndx (k + 1) = (h.scns.get? k).bind (scn_name h shstrndx) := by
  simp [section_name, elf_getscn]

theorem section_name_zero (h : Elf) (shstrndx : Nat) : section_name h shstrndx 0 = none := by
  simp [section_name, elf_getscn]

/-- The specification's bounds give the decoder's bounds when the pointer
width is 8, or when 4 more bytes follow the function table: `get_uptr` copies
8 bytes at every address-sized field. -/
theorem spec_bounds_well_formed (blob : Bytes) (hb : SpecBounds blob)
    (hslack : hdr_addr_size blob = 8 ∨
      8 + hdr_addr_size blob + 2 * hdr_addr_size blob * func_count blob + 4 ≤ blob.length) :
    WellFormed blob := by
  obtain ⟨h8, hmagic, ha, hL, hent⟩ := hb
  refine ⟨h8, hmagic, ha, ?_, ?_⟩
  · rcases ha with ha | ha <;> rw [ha] at hL hslack <;> omega
  · intro i hi
    refine ⟨?_, (hent i hi).1, (hent i hi).2⟩
    unfold entry_off
    have hmul : 2 * hdr_addr_size blob * (i + 1) ≤ 2 * hdr_addr_size blob * func_count blob :=
      Nat.mul_le_mul_left _ hi
    rw [Nat.mul_add, Nat.mul_one] at hmul
    rcases ha with ha | ha <;> rw [ha] at hL hslack hmul ⊢ <;> omega

theorem strings_size_take_le : ∀ (names : List Bytes) (i : Nat),
    strings_size (names.take i) ≤ strings_size names := by
  intro names
  induction names with
  | nil => intro i; simp [strings_size]
  | cons n ns ih =>
    intro i
    cases i with
    | zero => simp [strings_size]
    | succ i =>
      have := ih i
      simp only [List.take_succ_cons, strings_size]
      omega

theorem strings_size_pos (names : List Bytes) (hne : names ≠ []) : 0 < strings_size names := by
  cases names with
  | nil => exact absurd rfl hne
  | cons n ns => simp only [strings_size]; omega

/-- The values stored through the `ndx_out` pointers: name `i` gets the size of
the table plus the sizes of the entries before it, as a 64-bit value. -/
theorem allocate_loop_offsets (sh_size : Nat) : ∀ (names : List Bytes) (needed : Nat)
    (data : Bytes) (i : Nat), i < names.length →
    (allocate_loop sh_size names needed data).1.get? i
      = some ((sh_size + (needed + strings_size (names.take i))) % 2 ^ 64) := by
  intro names
  induction names with
  | nil => intro needed data i hi; simp at hi
  | cons n ns ih =>
    intro needed data i hi
    cases i with
    | zero => simp [allocate_loop, strings_size]
    | succ i =>
      have := ih (needed + (n.length + 1)) (data ++ (n ++ [0])) i (by simpa using hi)
      simp only [allocate_loop, List.get?_cons_succ, List.take_succ_cons, strings_size]
      rw [this]
      congr 2
      omega

theorem allocate_loop_length (sh_size : Nat) : ∀ (names : List Bytes) (needed : Nat)
    (data : Bytes), (allocate_loop sh_size names needed data).1.length = names.length := by
  intro names
  induction names with
  | nil => intro needed data; rfl
  | cons n ns ih =>
    intro needed data
    simp only [allocate_loop, List.length_cons]
    rw [ih]

/-- In the packed block, name `i` starts after the entries before it. -/
theorem drop_packed_take : ∀ (names : List Bytes) (i : Nat),
    (packed names).drop (strings_size (names.take i)) = packed (names.drop i) := by
  intro names
  induction names with
  | nil => intro i; simp [packed, strings_size]
  | cons n ns ih =>
    intro i
    cases i with
    | zero => simp [strings_size]
    | succ i =>
      have h1 : packed (n :: ns) = (n ++ [0]) ++ packed ns := by simp [packed]
      have h2 : strings_size ((n :: ns).take (i + 1))
          = (n ++ [0]).length + strings_size (ns.take i) := by
        simp [strings_size]
      rw [h1, h2, List.drop_append, List.drop_succ_cons, ih]

/-- What `allocate_shstrtab_entries_` does once `.shstrtab` is found and at
least one name is passed. -/
theorem allocate_run (h : Elf) (shstrndx : Nat) (names : List Bytes) (scn : Nat)
    (s : Elf_Scn) (hd : GElf_Shdr) (hne : names ≠ [])
    (hfind : elf_section_by_name h shstrndx (c_str ".shstrtab") = .ok (some scn))
    (hscn : elf_getscn h scn = some s) (hshdr : s.shdr = some hd) :
    allocate_shstrtab_entries_ h shstrndx names
      = .ok (allocate_loop hd.sh_size names 0 []).1
          (update_data (elf_newdata h scn).1 scn (elf_newdata h scn).2
            (fun d => { d with d_buf := .bytes (packed names), d_size := strings_size names })) := by
  have hg : gelf_getshdr h scn = some hd := by simp [gelf_getshdr, hscn, hshdr]
  have hn := allocate_loop_needed hd.sh_size names 0 []
  have hpos := strings_size_pos names hne
  unfold allocate_shstrtab_entries_
  rw [hfind]
  simp only [hg, Option.getD_some, hn.1, hn.2, Nat.zero_add, List.nil_append, gt_iff_lt, hpos,
    if_true]

/-! ### The container through a successful run -/

theorem create_elf_section_shstrndx (h : Elf) (n t l : Nat) :
    (create_elf_section h n t l).1.e_shstrndx = h.e_shstrndx := by
  simp only [create_elf_section, gelf_update_shdr, update_scn_shstrndx, elf_newscn]

theorem create_elf_section_ndx (h : Elf) (n t l : Nat) :
    (create_elf_section h n t l).2 = h.scns.length + 1 := rfl

/-- The sections after `create_elf_section`: the new one is last, its header
is zero but for the three fields set, and it has no data. -/
theorem elf_getscn_create (h : Elf) (n t l : Nat) (k : Nat) :
    elf_getscn (create_elf_section h n t l).1 k
      = if k = h.scns.length + 1 then
          some { shdr := some { sh_name := n % 2 ^ 32, sh_type := t % 2 ^ 32,
                                sh_link := l % 2 ^ 32 },
                 data := [] }
        else elf_getscn h k := by
  have hnew : elf_getscn (elf_newscn h).1 (h.scns.length + 1) = some {} := by
    simp [elf_getscn, elf_newscn]
  simp only [create_elf_section, gelf_update_shdr, elf_getscn_update_scn]
  by_cases hk : k = h.scns.length + 1
  · have e2 : (elf_newscn h).2 = h.scns.length + 1 := rfl
    simp only [hk, e2, if_true, hnew, gelf_getshdr, Option.map_some', Option.bind_some,
      Option.getD_some]
    rfl
  · have e2 : (elf_newscn h).2 = h.scns.length + 1 := rfl
    simp only [e2, hk, if_false]
    by_cases hk0 : k = 0
    · simp [elf_getscn, hk0]
    · by_cases hle : k ≤ h.scns.length
      · simp only [elf_getscn, hk0, if_false, elf_newscn, List.get?_eq_getElem?]
        rw [List.getElem?_append_left (by omega)]
      · simp only [elf_getscn, hk0, if_false, elf_newscn, List.get?_eq_getElem?]
        rw [List.getElem?_eq_none (by simp; omega), List.getElem?_eq_none (by omega)]

theorem elf_getscn_update_data_other (e : Elf) (scn d : Nat) (f : Elf_Data → Elf_Data)
    (k : Nat) (hk : k ≠ scn) : elf_getscn (update_data e scn d f) k = elf_getscn e k := by
  simp [update_data, elf_getscn_update_scn, hk]

theorem gelf_getshdr_update_data (e : Elf) (scn d : Nat) (f : Elf_Data → Elf_Data) (k : Nat) :
    gelf_getshdr (update_data e scn d f) k = gelf_getshdr e k := by
  simp only [gelf_getshdr, update_data, elf_getscn_update_scn]
  by_cases hk : k = scn
  · subst hk
    cases elf_getscn e k <;> simp
  · simp [hk]

theorem update_data_length (e : Elf) (scn d : Nat) (f : Elf_Data → Elf_Data) :
    (update_data e scn d f).scns.length = e.scns.length := by
  simp [update_data, update_scn_length]

theorem prepared_length (elf : Elf) (strscn symscn : Scn) (a : Nat) :
    (prepared elf strscn symscn a).scns.length = elf.scns.length := by
  simp [prepared, elf_newdata, gelf_update_shdr, update_scn_length]

theorem prepared_shstrndx (elf : Elf) (strscn symscn : Scn) (a : Nat) :
    (prepared elf strscn symscn a).e_shstrndx = elf.e_shstrndx := by
  simp [prepared, elf_newdata, gelf_update_shdr, update_scn_shstrndx]

/-- A run of `process_pclntab` that returns has read the 8 header bytes and
the magic, and has left the container prepared before the count was read, with
data stored in descriptors of the two sections. -/
theorem process_pclntab_returns (elf : Elf) (shstrndx : Nat) (blob : Bytes)
    (strscn symscn : Scn) (e' : Elf)
    (h : process_pclntab elf shstrndx blob strscn symscn = .ok () e') :
    8 ≤ blob.length ∧ field blob 4 0 = 0xfffffffb ∧
    ∃ (d1 d2 : Nat) (g1 g2 : Elf_Data → Elf_Data),
      e' = update_data (update_data (prepared elf strscn symscn (hdr_addr_size blob))
        strscn d1 g1) symscn d2 g2 := by
  by_cases h4 : 4 ≤ blob.length
  · by_cases hmagic : field blob 4 0 = 0xfffffffb
    · by_cases h8 : 8 ≤ blob.length
      · refine ⟨h8, hmagic, ?_⟩
        rw [process_pclntab_after_header elf shstrndx blob strscn symscn h8 hmagic] at h
        cases hN : get_uptr blob 8 (hdr_addr_size blob) with
        | error f => simp [hN] at h
        | ok r =>
          obtain ⟨N, iter⟩ := r
          simp only [hN] at h
          cases ht : elf_section_by_name (prepared elf strscn symscn (hdr_addr_size blob))
              shstrndx (c_str ".text") with
          | error f => simp [ht] at h
          | ok text =>
            simp only [ht] at h
            cases hl : pclntab_loop blob (hdr_addr_size blob) (elf_ndxscn text) N iter
                elftc_string_table_create [] with
            | error f => simp [hl] at h
            | ok r2 =>
              obtain ⟨st, syms⟩ := r2
              simp only [hl] at h
              exact ⟨_, _, _, _, (Step.ok.inj h).2.symm⟩
      · rw [process_pclntab_short elf shstrndx blob strscn symscn h4 h8 hmagic] at h
        simp at h
    · rw [process_pclntab_bad_magic elf shstrndx blob strscn symscn h4 hmagic] at h
      simp at h
  · have : get_u32 blob 0 = .error .fault := by simp [get_u32, peek, h4]
    unfold process_pclntab at h
    simp [this] at h

/-- The sections of the container a successful `process_pclntab` returns: the
two new sections keep their headers but for the alignment and entry size, every
other section is as before. -/
theorem process_pclntab_sections (elf : Elf) (shstrndx : Nat) (blob : Bytes)
    (strscn symscn : Nat) (e' : Elf) (hne : strscn ≠ symscn)
    (hs : GElf_Shdr) (ds : List Elf_Data) (hy : GElf_Shdr) (dy : List Elf_Data)
    (h1 : elf_getscn elf strscn = some { shdr := some hs, data := ds })
    (h2 : elf_getscn elf symscn = some { shdr := some hy, data := dy })
    (h : process_pclntab elf shstrndx blob strscn symscn = .ok () e') :
    e'.scns.length = elf.scns.length ∧ e'.e_shstrndx = elf.e_shstrndx ∧
    gelf_getshdr e' strscn = some { hs with sh_addralign := 1 } ∧
    gelf_getshdr e' symscn
      = some { hy with sh_addralign := hdr_addr_size blob, sh_entsize := 24 } ∧
    ∀ (k : Nat), k ≠ strscn → k ≠ symscn → elf_getscn e' k = elf_getscn elf k := by
  obtain ⟨_, _, d1, d2, g1, g2, he⟩ := process_pclntab_returns elf shstrndx blob strscn symscn e' h
  subst he
  refine ⟨?_, ?_, ?_, ?_, ?_⟩
  · simp [update_data_length, prepared_length]
  · simp [update_data, update_scn_shstrndx, prepared_shstrndx]
  · rw [gelf_getshdr_update_data, gelf_getshdr_update_data, gelf_getshdr,
      elf_getscn_prepared_str elf strscn symscn _ hs ds hne h1]
    rfl
  · rw [gelf_getshdr_update_data, gelf_getshdr_update_data, gelf_getshdr,
      elf_getscn_prepared_sym elf strscn symscn _ hy dy hne h2]
    rfl
  · intro k hk1 hk2
    rw [elf_getscn_update_data_other _ _ _ _ _ hk2, elf_getscn_update_data_other _ _ _ _ _ hk1,
      elf_getscn_prepared_other elf strscn symscn _ k hk1 hk2]

/-- The layout pass changes only the size field of the headers. -/
theorem elf_getscn_layout (e : Elf) (k : Nat) :
    elf_getscn (elf_update_layout e) k
      = (elf_getscn e k).map (fun s =>
          { s with shdr := s.shdr.map (fun h =>
              { h with sh_size := (s.data.map (fun d => d.d_size)).sum }) }) := by
  by_cases hk : k = 0
  · simp [elf_getscn, hk]
  · simp [elf_getscn, hk, elf_update_layout, List.get?_eq_getElem?]

theorem elf_strptr_layout (e : Elf) (scndx off : Nat) :
    elf_strptr (elf_update_layout e) scndx off = elf_strptr e scndx off := by
  simp only [elf_strptr, elf_getscn_layout]
  cases elf_getscn e scndx <;> rfl

theorem section_name_layout (e : Elf) (shstrndx k : Nat) :
    section_name (elf_update_layout e) shstrndx k = section_name e shstrndx k := by
  simp only [section_name, elf_getscn_layout]
  cases elf_getscn e k with
  | none => rfl
  | some s =>
    cases hs : s.shdr with
    | none => simp [scn_name, hs]
    | some hd => simp [scn_name, hs, elf_strptr_layout]

/-- A section name decoded before is decoded the same after sections and data
have been added. -/
theorem section_name_extends (e e' : Elf) (h : elf_extends e e') (shstrndx k : Nat)
    (n : Bytes) (hn : section_name e shstrndx k = some n) :
    section_name e' shstrndx k = some n := by
  unfold section_name at hn ⊢
  cases hg : elf_getscn e k with
  | none => simp [hg] at hn
  | some s =>
    obtain ⟨s', hg', hname, _⟩ := h k s hg
    rw [hg] at hn
    rw [hg']
    have hn2 : s.shdr.bind (fun hd => elf_strptr e shstrndx hd.sh_name) = some n := hn
    show s'.shdr.bind (fun hd => elf_strptr e' shstrndx hd.sh_name) = some n
    cases hs : s.shdr with
    | none => simp [hs] at hn2
    | some hd =>
      rw [hs] at hn2 hname
      cases hs' : s'.shdr with
      | none => simp [hs'] at hname
      | some hd' =>
        rw [hs'] at hname
        have : hd'.sh_name = hd.sh_name := by simpa using hname
        show elf_strptr e' shstrndx hd'.sh_name = some n
        rw [this]
        exact elf_strptr_extends e e' h shstrndx _ n hn2

/-- The lookup finds the first section of the target name when every section
before it decodes. -/
theorem elf_section_by_name_first (h : Elf) (shstrndx : Nat) (nam : Bytes) (k : Nat)
    (hk : section_name h shstrndx k = some nam)
    (hb : ∀ j, 0 < j → j < k → ∃ n, section_name h shstrndx j = some n ∧ n ≠ nam) :
    elf_section_by_name h shstrndx nam = .ok (some k) := by
  have hk0 : 0 < k := by
    rcases Nat.eq_zero_or_pos k with h0 | h0
    · rw [h0, section_name_zero] at hk; simp at hk
    · exact h0
  obtain ⟨k', rfl⟩ : ∃ k', k = k' + 1 := ⟨k - 1, by omega⟩
  rw [section_name_eq] at hk
  cases hr : elf_section_by_name h shstrndx nam with
  | error f =>
    exfalso
    obtain ⟨i, s, hi, hs, _, hbi⟩ := scan_by_name_failed h shstrndx nam h.scns 1 f hr
    rcases Nat.lt_trichotomy i k' with hlt | heq | hgt
    · obtain ⟨n, hn, _⟩ := hb (i + 1) (by omega) (by omega)
      rw [section_name_eq, hi] at hn
      simp [hs] at hn
    · rw [← heq, hi] at hk
      simp [hs] at hk
    · obtain ⟨n, hn, hne⟩ := hbi k' hgt
      rw [hn] at hk
      exact hne (Option.some.inj hk)
  | ok r =>
    cases r with
    | none =>
      exfalso
      have hlt : k' < h.scns.length := by
        by_contra hge
        rw [List.get?_eq_none.mpr (by omega)] at hk
        simp at hk
      obtain ⟨n, hn, hne⟩ := scan_by_name_none h shstrndx nam h.scns 1 hr k' hlt
      rw [hn] at hk
      exact hne (Option.some.inj hk)
    | some k0 =>
      obtain ⟨i, hi, hm, hbi⟩ := scan_by_name_found h shstrndx nam h.scns 1 k0 hr
      subst hi
      rcases Nat.lt_trichotomy i k' with hlt | heq | hgt
      · exfalso
        obtain ⟨n, hn, hne⟩ := hb (i + 1) (by omega) (by omega)
        rw [section_name_eq, hm] at hn
        exact hne (Option.some.inj hn).symm
      · rw [heq, Nat.add_comm]
      · exfalso
        obtain ⟨n, hn, hne⟩ := hbi k' hgt
        rw [hn] at hk
        exact hne (Option.some.inj hk)

/-- When the lookup finds nothing, every section has a name, another one. -/
theorem elf_section_by_name_none (h : Elf) (shstrndx : Nat) (nam : Bytes)
    (hr : elf_section_by_name h shstrndx nam = .ok none) (j : Nat) (h0 : 0 < j)
    (hj : j ≤ h.scns.length) : ∃ n, section_name h shstrndx j = some n ∧ n ≠ nam := by
  obtain ⟨j', rfl⟩ : ∃ j', j = j' + 1 := ⟨j - 1, by omega⟩
  rw [section_name_eq]
  exact scan_by_name_none h shstrndx nam h.scns 1 hr j' (by omega)

/-- The string at the offset of name `i` in a table followed by a packed block. -/
theorem c_string_at_packed (old : Bytes) (names : List Bytes) (i : Nat) (name : Bytes)
    (hi : names.get? i = some name) (hclean : c_clean name) :
    c_string_at (old ++ packed names) (old.length + strings_size (names.take i))
      = some name := by
  unfold c_string_at
  rw [List.drop_append, drop_packed_take]
  have hlt : i < names.length := by
    by_contra hge
    rw [List.get?_eq_none.mpr (by omega)] at hi
    simp at hi
  have hdrop : names.drop i = name :: names.drop (i + 1) := by
    rw [List.get?_eq_getElem?, List.getElem?_eq_getElem hlt] at hi
    rw [← Option.some.inj hi]
    exact List.drop_eq_getElem_cons hlt
  rw [hdrop]
  have : packed (name :: names.drop (i + 1)) = name ++ 0 :: packed (names.drop (i + 1)) := by
    simp [packed]
  rw [this]
  exact c_string_append name _ hclean

/-- A successful `allocate_shstrtab_entries_` found `.shstrtab`, read its
header, and attached the packed names to it. -/
theorem allocate_ok_shape (h : Elf) (shstrndx : Nat) (names : List Bytes) (hne : names ≠ [])
    (ndxs : List Nat) (e : Elf)
    (he : allocate_shstrtab_entries_ h shstrndx names = .ok ndxs e) :
    ∃ (ss : Nat) (s : Elf_Scn) (hd : GElf_Shdr),
      elf_section_by_name h shstrndx (c_str ".shstrtab") = .ok (some ss) ∧
      elf_getscn h ss = some s ∧ s.shdr = some hd ∧
      ndxs = (allocate_loop hd.sh_size names 0 []).1 ∧
      e = update_data (elf_newdata h ss).1 ss (elf_newdata h ss).2
            (fun d => { d with d_buf := .bytes (packed names),
                               d_size := strings_size names }) := by
  cases hf : elf_section_by_name h shstrndx (c_str ".shstrtab") with
  | error f => simp [allocate_shstrtab_entries_, hf] at he
  | ok r =>
    cases r with
    | none => simp [allocate_shstrtab_entries_, hf] at he
    | some ss =>
      obtain ⟨i, hi, hm, _⟩ := scan_by_name_found h shstrndx _ h.scns 1 ss hf
      cases hg : h.scns.get? i with
      | none => rw [hg] at hm; simp at hm
      | some s =>
        rw [hg] at hm
        have hm2 : scn_name h shstrndx s = some (c_str ".shstrtab") := hm
        cases hs : s.shdr with
        | none => simp [scn_name, hs] at hm2
        | some hd =>
          have hscn : elf_getscn h ss = some s := by
            have : (ss : Nat) = 1 + i := hi
            rw [this]
            simpa [elf_getscn, Nat.add_comm 1 i, List.get?_eq_getElem?] using hg
          rw [allocate_run h shstrndx names ss s hd hne hf hscn hs] at he
          obtain ⟨h1, h2⟩ := Step.ok.inj he
          exact ⟨ss, s, hd, rfl, hscn, hs, h1.symm, h2.symm⟩

/-- What a successful run of `main` went through. -/
theorem main_success (elf : Elf) (w : Bool) (hs : (main 2 (.elf elf) w).status = none) :
    ∃ (sh ss : Nat) (s : Elf_Scn) (hd : GElf_Shdr) (g : Nat) (d : Elf_Data) (e4 : Elf),
      elf.e_shstrndx = some sh ∧
      elf_section_by_name elf sh (c_str ".symtab") = .ok none ∧
      elf_section_by_name elf sh (c_str ".strtab") = .ok none ∧
      elf_section_by_name elf sh (c_str ".shstrtab") = .ok (some ss) ∧
      elf_getscn elf ss = some s ∧ s.shdr = some hd ∧
      elf_section_by_name (sections_added elf ss hd.sh_size) sh (c_str ".gopclntab")
        = .ok (some g) ∧
      elf_rawdata (sections_added elf ss hd.sh_size) g = some d ∧
      process_pclntab (sections_added elf ss hd.sh_size) sh d.content
        (elf.scns.length + 1) (elf.scns.length + 2) = .ok () e4 ∧
      main 2 (.elf elf) w
        = { status := none, mem := some (elf_update_layout e4),
            disk := .elf (elf_update_layout e4) } := by
  revert hs
  unfold main
  simp only [ne_eq, not_true_eq_false, if_false]
  cases h1 : elf.e_shstrndx with
  | none => intro hs; simp at hs
  | some sh =>
    simp only []
    cases h2 : elf_section_by_name elf sh (c_str ".symtab") with
    | error f => intro hs; simp at hs
    | ok r2 =>
      cases r2 with
      | some _ => intro hs; simp at hs
      | none =>
        simp only []
        cases h3 : elf_section_by_name elf sh (c_str ".strtab") with
        | error f => intro hs; simp at hs
        | ok r3 =>
          cases r3 with
          | some _ => intro hs; simp at hs
          | none =>
            simp only []
            cases h4 : allocate_shstrtab_entries_ elf sh [c_str ".symtab", c_str ".strtab"] with
            | fail f e => intro hs; simp at hs
            | ok ndxs e1 =>
              obtain ⟨ss, s, hd, hf, hscn, hshdr, hnd, he1⟩ :=
                allocate_ok_shape elf sh _ (by simp) ndxs e1 h4
              have hn0 : ndxs.getD 0 0 = hd.sh_size % 2 ^ 64 := by
                rw [hnd]; simp [allocate_loop]
              have hn1 : ndxs.getD 1 0 = (hd.sh_size + 8) % 2 ^ 64 := by
                rw [hnd]; simp [allocate_loop, c_str]
              have hlen : e1.scns.length = elf.scns.length :=
                (allocate_ok elf sh _ ndxs e1 h4).2
              have he3 : (create_elf_section (create_elf_section e1 (ndxs.getD 1 0)
                    SHT_STRTAB 0).1 (ndxs.getD 0 0) SHT_SYMTAB
                    (elf_ndxscn (some (create_elf_section e1 (ndxs.getD 1 0)
                      SHT_STRTAB 0).2))).1 = sections_added elf ss hd.sh_size := by
                rw [hn0, hn1, create_elf_section_ndx, hlen, he1]
                rfl
              have hstr : (create_elf_section e1 (ndxs.getD 1 0) SHT_STRTAB 0).2
                  = elf.scns.length + 1 := by
                rw [create_elf_section_ndx, hlen]
              have hsym : (create_elf_section (create_elf_section e1 (ndxs.getD 1 0)
                    SHT_STRTAB 0).1 (ndxs.getD 0 0) SHT_SYMTAB
                    (elf_ndxscn (some (create_elf_section e1 (ndxs.getD 1 0)
                      SHT_STRTAB 0).2))).2 = elf.scns.length + 2 := by
                rw [create_elf_section_ndx, create_elf_section_length, hlen]
              simp only []
              rw [he3, hsym, hstr]
              cases h5 : elf_section_by_name (sections_added elf ss hd.sh_size) sh
                  (c_str ".gopclntab") with
              | error f => intro hs; simp at hs
              | ok r5 =>
                cases r5 with
                | none => intro hs; simp at hs
                | some g =>
                  simp only []
                  cases h6 : elf_rawdata (sections_added elf ss hd.sh_size) g with
                  | none => intro hs; simp at hs
                  | some d =>
                    simp only []
                    cases h7 : process_pclntab (sections_added elf ss hd.sh_size) sh d.content
                        (elf.scns.length + 1) (elf.scns.length + 2) with
                    | fail f e => intro hs; simp at hs
                    | ok u e4 =>
                      simp only []
                      cases w with
                      | false => intro hs; simp at hs
                      | true =>
                        intro _
                        exact ⟨sh, ss, s, hd, g, d, e4, rfl, h2, h3, hf, hscn, hshdr, h5, h6,
                          h7, by simp⟩

theorem names_attached_length (elf : Elf) (ss : Nat) (g : Elf_Data → Elf_Data) :
    (update_data (elf_newdata elf ss).1 ss (elf_newdata elf ss).2 g).scns.length
      = elf.scns.length := by
  simp [update_data, elf_newdata, update_scn_length]

theorem sections_added_length (elf : Elf) (ss S : Nat) :
    (sections_added elf ss S).scns.length = elf.scns.length + 2 := by
  unfold sections_added
  rw [create_elf_section_length, create_elf_section_length, names_attached_length]

theorem sections_added_shstrndx (elf : Elf) (ss S : Nat) :
    (sections_added elf ss S).e_shstrndx = elf.e_shstrndx := by
  unfold sections_added
  rw [create_elf_section_shstrndx, create_elf_section_shstrndx]
  simp [update_data, elf_newdata, update_scn_shstrndx]

theorem sections_added_extends (elf : Elf) (ss S : Nat) :
    elf_extends elf (sections_added elf ss S) := by
  unfold sections_added
  exact elf_extends_trans _ _ _ (elf_extends_attach elf ss _)
    (elf_extends_trans _ _ _ (create_elf_section_extends _ _ _ _)
      (create_elf_section_extends _ _ _ _))

/-- The sections of the container once the names are allocated and the two
sections created. -/
theorem elf_getscn_sections_added (elf : Elf) (ss S : Nat) (k : Nat) :
    elf_getscn (sections_added elf ss S) k
      = if k = elf.scns.length + 2 then
          some { shdr := some { sh_name := S % 2 ^ 64 % 2 ^ 32, sh_type := SHT_SYMTAB % 2 ^ 32,
                                sh_link := (elf.scns.length + 1) % 2 ^ 32 },
                 data := [] }
        else if k = elf.scns.length + 1 then
          some { shdr := some { sh_name := (S + 8) % 2 ^ 64 % 2 ^ 32,
                                sh_type := SHT_STRTAB % 2 ^ 32, sh_link := 0 % 2 ^ 32 },
                 data := [] }
        else if k = ss then
          (elf_getscn elf ss).map (fun s =>
            { s with data := s.data ++ [{ d_buf := .bytes (packed new_names),
                                          d_size := strings_size new_names }] })
        else elf_getscn elf k := by
  unfold sections_added
  rw [elf_getscn_create, create_elf_section_length, names_attached_length, elf_getscn_create,
    names_attached_length, elf_getscn_attach]

theorem section_name_eq_shdr (e : Elf) (shstrndx k : Nat) :
    section_name e shstrndx k
      = (gelf_getshdr e k).bind (fun hd => elf_strptr e shstrndx hd.sh_name) := by
  unfold section_name gelf_getshdr scn_name
  cases elf_getscn e k <;> rfl

/-- The raw data of a section that was there before the run is the same after
the names are allocated and the sections created, unless it had none. -/
theorem elf_rawdata_sections_added_new (elf : Elf) (ss S : Nat) (k : Nat)
    (hk : elf.scns.length < k) : elf_rawdata (sections_added elf ss S) k = none := by
  unfold elf_rawdata
  rw [elf_getscn_sections_added]
  by_cases h2 : k = elf.scns.length + 2
  · simp [h2]
  · by_cases h1 : k = elf.scns.length + 1
    · simp [h1]
    · have hnone : elf_getscn elf k = none := by
        have hk0 : ¬ k = 0 := by omega
        simp only [elf_getscn, hk0, if_false, List.get?_eq_getElem?]
        exact List.getElem?_eq_none (by omega)
      by_cases hs : k = ss
      · subst hs
        simp [h2, h1, hnone]
      · simp [h2, h1, hs, hnone]

/-- What a successful run of `main` leaves, when the section named `.shstrtab`
is the section-header string table, its header size is the size of its
contents, and the new name offsets and section index fit in 32 bits. -/
theorem success_sections (elf : Elf) (sh : Nat) (s : Elf_Scn) (hd : GElf_Shdr) (blob : Bytes)
    (e4 : Elf)
    (hscn : elf_getscn elf sh = some s)
    (hsize : hd.sh_size = s.contents.length)
    (hfit : hd.sh_size + 8 < 2 ^ 32) (hcount : elf.scns.length + 1 < 2 ^ 32)
    (hp : process_pclntab (sections_added elf sh hd.sh_size) sh blob
      (elf.scns.length + 1) (elf.scns.length + 2) = .ok () e4) :
    e4.scns.length = elf.scns.length + 2 ∧ e4.e_shstrndx = elf.e_shstrndx ∧
    elf_extends elf e4 ∧
    gelf_getshdr e4 (elf.scns.length + 1)
      = some { sh_name := hd.sh_size + 8, sh_type := SHT_STRTAB, sh_size := 0, sh_link := 0,
               sh_addralign := 1, sh_entsize := 0 } ∧
    gelf_getshdr e4 (elf.scns.length + 2)
      = some { sh_name := hd.sh_size, sh_type := SHT_SYMTAB, sh_size := 0,
               sh_link := elf.scns.length + 1, sh_addralign := hdr_addr_size blob,
               sh_entsize := 24 } ∧
    elf_strptr e4 sh (hd.sh_size + 8) = some (c_str ".strtab") ∧
    elf_strptr e4 sh hd.sh_size = some (c_str ".symtab") := by
  have hle := (elf_getscn_length elf sh s hscn).2
  have g1 : elf_getscn (sections_added elf sh hd.sh_size) (elf.scns.length + 1)
      = some { shdr := some { sh_name := hd.sh_size + 8, sh_type := SHT_STRTAB },
               data := [] } := by
    rw [elf_getscn_sections_added, if_neg (by omega), if_pos rfl,
      Nat.mod_eq_of_lt (show hd.sh_size + 8 < 2 ^ 64 by omega), Nat.mod_eq_of_lt hfit]
    rfl
  have g2 : elf_getscn (sections_added elf sh hd.sh_size) (elf.scns.length + 2)
      = some { shdr := some { sh_name := hd.sh_size, sh_type := SHT_SYMTAB,
                              sh_link := elf.scns.length + 1 },
               data := [] } := by
    rw [elf_getscn_sections_added, if_pos rfl,
      Nat.mod_eq_of_lt (show hd.sh_size < 2 ^ 64 by omega),
      Nat.mod_eq_of_lt (show hd.sh_size < 2 ^ 32 by omega), Nat.mod_eq_of_lt hcount]
    rfl
  obtain ⟨hlen, hshx, hh1, hh2, hoth⟩ := process_pclntab_sections _ sh blob
    (elf.scns.length + 1) (elf.scns.length + 2) e4 (by omega) _ _ _ _ g1 g2 hp
  have hsec : elf_getscn e4 sh
      = some { s with data := s.data ++ [{ d_buf := .bytes (packed new_names),
                                           d_size := strings_size new_names }] } := by
    rw [hoth sh (by omega) (by omega), elf_getscn_sections_added, if_neg (by omega),
      if_neg (by omega), if_pos rfl, hscn]
    rfl
  have hcont : Elf_Scn.contents
      { s with data := s.data ++ [{ d_buf := .bytes (packed new_names),
                                    d_size := strings_size new_names }] }
      = s.contents ++ packed new_names := by
    simp [Elf_Scn.contents, Elf_Data.content]
  refine ⟨?_, ?_, ?_, hh1, hh2, ?_, ?_⟩
  · rw [hlen, sections_added_length]
  · rw [hshx, sections_added_shstrndx]
  · intro k sec hk
    obtain ⟨hk0, hkn⟩ := elf_getscn_length elf k sec hk
    rw [hoth k (by omega) (by omega)]
    exact sections_added_extends elf sh hd.sh_size k sec hk
  · unfold elf_strptr
    rw [hsec]
    show c_string_at (Elf_Scn.contents _) _ = _
    rw [hcont, hsize]
    exact c_string_at_packed s.contents new_names 1 (c_str ".strtab") rfl (by decide)
  · unfold elf_strptr
    rw [hsec]
    show c_string_at (Elf_Scn.contents _) _ = _
    rw [hcont, hsize]
    exact c_string_at_packed s.contents new_names 0 (c_str ".symtab") rfl (by decide)

/-- A found section has the target name and every section before it decodes
to another name. -/
theorem elf_section_by_name_found (h : Elf) (shstrndx : Nat) (nam : Bytes) (k : Nat)
    (hr : elf_section_by_name h shstrndx nam = .ok (some k)) :
    0 < k ∧ section_name h shstrndx k = some nam ∧
      ∀ j, 0 < j → j < k → ∃ n, section_name h shstrndx j = some n ∧ n ≠ nam := by
  obtain ⟨i, hi, hm, hb⟩ := scan_by_name_found h shstrndx nam h.scns 1 k hr
  subst hi
  refine ⟨by omega, ?_, ?_⟩
  · rw [Nat.add_comm, section_name_eq]; exact hm
  · intro j hj0 hj
    obtain ⟨j', rfl⟩ : ∃ j', j = j' + 1 := ⟨j - 1, by omega⟩
    rw [section_name_eq]
    exact hb j' (by omega)

/-- The `.gopclntab` section that `main` finds after it has created the two
sections is a section of the input, found there as well, with the same data. -/
theorem gopclntab_in_input (elf : Elf) (sh ss S g : Nat) (d : Elf_Data)
    (h2 : elf_section_by_name elf sh (c_str ".symtab") = .ok none)
    (hf : elf_section_by_name elf sh (c_str ".shstrtab") = .ok (some ss))
    (h5 : elf_section_by_name (sections_added elf ss S) sh (c_str ".gopclntab")
      = .ok (some g))
    (h6 : elf_rawdata (sections_added elf ss S) g = some d) :
    elf_section_by_name elf sh (c_str ".gopclntab") = .ok (some g) ∧
      elf_rawdata elf g = some d := by
  obtain ⟨hg0, hgn, hgb⟩ := elf_section_by_name_found _ sh _ g h5
  obtain ⟨_, hsn, _⟩ := elf_section_by_name_found _ sh _ ss hf
  have hgle : g ≤ elf.scns.length := by
    by_contra hgt
    rw [elf_rawdata_sections_added_new elf ss S g (by omega)] at h6
    simp at h6
  have hsame : ∀ j, 0 < j → j ≤ elf.scns.length →
      section_name elf sh j = section_name (sections_added elf ss S) sh j := by
    intro j hj0 hjn
    obtain ⟨n, hn, _⟩ := elf_section_by_name_none elf sh _ h2 j hj0 hjn
    rw [hn, section_name_extends elf _ (sections_added_extends elf ss S) sh j n hn]
  have hgn' : section_name elf sh g = some (c_str ".gopclntab") := by
    rw [hsame g hg0 hgle]; exact hgn
  refine ⟨elf_section_by_name_first elf sh _ g hgn' ?_, ?_⟩
  · intro j hj0 hj
    rw [hsame j hj0 (by omega)]
    exact hgb j hj0 hj
  · have hne : g ≠ ss := by
      intro he
      rw [he, hsn] at hgn'
      exact absurd (Option.some.inj hgn') (by decide)
    unfold elf_rawdata at h6 ⊢
    rw [elf_getscn_sections_added, if_neg (by omega), if_neg (by omega), if_neg hne] at h6
    exact h6

/-! ## The claims -/

/-! ### C1 -/

/-- C1: for every well-formed pclntab blob with `N` function-table entries,
`process_pclntab` succeeds and attaches to `.symtab` an array of exactly `N`
symbol records with data size `N * 24`, and for every `i < N` the `st_value`
of the `i`-th record is the `func_offset` of the `i`-th table entry: the
output is in input order.  The container is any one in which the two section
handles are distinct sections with readable headers and the lookup of `.text`
does not fail. -/
theorem C1_symtab_count_and_order (elf : Elf) (shstrndx : Nat) (blob : Bytes)
    (strscn symscn : Scn) (text : Option Scn) (hw : WellFormed blob)
    (hstr : gelf_getshdr elf strscn ≠ none) (hsym : gelf_getshdr elf symscn ≠ none)
    (hne : strscn ≠ symscn)
    (htext : elf_section_by_name elf shstrndx (c_str ".text") = .ok text) :
    ∃ e' arr, process_pclntab elf shstrndx blob strscn symscn = .ok () e' ∧
      last_data e' symscn = some { d_buf := .syms arr
                                   d_size := func_count blob * 24
                                   d_align := hdr_addr_size blob } ∧
      arr.length = func_count blob ∧
      ∀ i, i < func_count blob →
        (arr.get? i).map (fun sym => sym.st_value) = some (func_offset blob i) := by
  obtain ⟨e', hrun, hsymd, _⟩ :=
    process_pclntab_ok elf shstrndx blob strscn symscn text hw hstr hsym hne htext
  refine ⟨e', symbols blob (elf_ndxscn text), hrun, hsymd, symbols_length blob _, ?_⟩
  intro i hi
  simp [symbols_get? blob _ i hi, new_sym]

set_option maxRecDepth 100000 in
/-- Witness of C1 on a blob of three entries that are not in address order:
the values come out as 0x2000, 0x1000, 0x1800. -/
theorem C1_symtab_count_and_order_witness :
    WellFormed unsorted_blob ∧
    gelf_getshdr (scenario_mem unsorted_blob) 4 ≠ none ∧
    gelf_getshdr (scenario_mem unsorted_blob) 5 ≠ none ∧
    elf_section_by_name (scenario_mem unsorted_blob) 2 (c_str ".text") = .ok (some 1) ∧
    func_count unsorted_blob = 3 ∧
    (List.range 3).map (func_offset unsorted_blob) = [0x2000, 0x1000, 0x1800] ∧
    ∃ e' arr, process_pclntab (scenario_mem unsorted_blob) 2 unsorted_blob 4 5 = .ok () e' ∧
      last_data e' 5 = some { d_buf := .syms arr
                              d_size := func_count unsorted_blob * 24
                              d_align := hdr_addr_size unsorted_blob } ∧
      arr.length = func_count unsorted_blob ∧
      ∀ i, i < func_count unsorted_blob →
        (arr.get? i).map (fun sym => sym.st_value) = some (func_offset unsorted_blob i) :=
  ⟨by decide, by decide, by decide, by decide, by decide, by decide,
    C1_symtab_count_and_order (scenario_mem unsorted_blob) 2 unsorted_blob 4 5 (some 1)
      (by decide) (by decide) (by decide) (by decide) (by decide)⟩

/-! ### C2 -/

/-- C2 (amended): every record that `process_pclntab` emits for a well-formed
blob has binding GLOBAL and type FUNC (`st_info = 0x12`), visibility DEFAULT
(`st_other = 0`), `st_size = 0`, and `st_shndx` equal to the section index of
the container's `.text` section reduced modulo 2^16, the width of the field:
it is that index whenever the index is below 65536. -/
theorem C2_symbol_fields (elf : Elf) (shstrndx : Nat) (blob : Bytes)
    (strscn symscn : Scn) (t : Scn) (hw : WellFormed blob)
    (hstr : gelf_getshdr elf strscn ≠ none) (hsym : gelf_getshdr elf symscn ≠ none)
    (hne : strscn ≠ symscn)
    (htext : elf_section_by_name elf shstrndx (c_str ".text") = .ok (some t)) :
    ∃ e' arr, process_pclntab elf shstrndx blob strscn symscn = .ok () e' ∧
      last_data e' symscn = some { d_buf := .syms arr
                                   d_size := func_count blob * 24
                                   d_align := hdr_addr_size blob } ∧
      ∀ sym ∈ arr,
        sym.st_info = 0x12 ∧ sym.st_info / 16 = STB_GLOBAL ∧ sym.st_info % 16 = STT_FUNC ∧
        sym.st_other = STV_DEFAULT ∧ sym.st_size = 0 ∧
        sym.st_shndx = t % 2 ^ 16 ∧ (t < 2 ^ 16 → sym.st_shndx = t) := by
  obtain ⟨e', hrun, hsymd, _⟩ :=
    process_pclntab_ok elf shstrndx blob strscn symscn (some t) hw hstr hsym hne htext
  refine ⟨e', symbols blob t, hrun, hsymd, ?_⟩
  intro sym hs
  simp only [symbols, List.mem_map] at hs
  obtain ⟨e, _, rfl⟩ := hs
  have h16 : ELF64_ST_INFO STB_GLOBAL STT_FUNC = 0x12 := by decide
  refine ⟨rfl, ?_, ?_, rfl, rfl, rfl, ?_⟩
  · show ELF64_ST_INFO STB_GLOBAL STT_FUNC / 16 = STB_GLOBAL
    rw [h16]; decide
  · show ELF64_ST_INFO STB_GLOBAL STT_FUNC % 16 = STT_FUNC
    rw [h16]; decide
  intro ht
  exact Nat.mod_eq_of_lt ht

set_option maxRecDepth 100000 in
/-- Witness of C2 (amended) on the scenario of the specification: `.text` is
section 1 and both records carry `st_shndx = 1`. -/
theorem C2_symbol_fields_witness :
    WellFormed scenario_blob ∧
    gelf_getshdr (scenario_mem scenario_blob) 4 ≠ none ∧
    gelf_getshdr (scenario_mem scenario_blob) 5 ≠ none ∧
    elf_section_by_name (scenario_mem scenario_blob) 2 (c_str ".text") = .ok (some 1) ∧
    ∃ e' arr, process_pclntab (scenario_mem scenario_blob) 2 scenario_blob 4 5 = .ok () e' ∧
      last_data e' 5 = some { d_buf := .syms arr
                              d_size := func_count scenario_blob * 24
                              d_align := hdr_addr_size scenario_blob } ∧
      ∀ sym ∈ arr,
        sym.st_info = 0x12 ∧ sym.st_info / 16 = STB_GLOBAL ∧ sym.st_info % 16 = STT_FUNC ∧
        sym.st_other = STV_DEFAULT ∧ sym.st_size = 0 ∧
        sym.st_shndx = 1 % 2 ^ 16 ∧ (1 < 2 ^ 16 → sym.st_shndx = 1) :=
  ⟨by decide, by decide, by decide, by decide,
    C2_symbol_fields (scenario_mem scenario_blob) 2 scenario_blob 4 5 1
      (by decide) (by decide) (by decide) (by decide) (by decide)⟩

set_option maxRecDepth 100000 in
/-- C2 as stated fails: in a container whose `.text` section has index 65537
the blob of the scenario is decoded without error and both records carry
`st_shndx = 1`, not 65537. -/
theorem C2_counterexample :
    WellFormed scenario_blob ∧
    gelf_getshdr wide_elf 65538 ≠ none ∧ gelf_getshdr wide_elf 65539 ≠ none ∧
    elf_section_by_name wide_elf 1 (c_str ".text") = .ok (some 65537) ∧
    ∃ e' arr, process_pclntab wide_elf 1 scenario_blob 65538 65539 = .ok () e' ∧
      last_data e' 65539 = some { d_buf := .syms arr
                                  d_size := func_count scenario_blob * 24
                                  d_align := hdr_addr_size scenario_blob } ∧
      arr ≠ [] ∧ ∀ sym ∈ arr, sym.st_shndx = 1 ∧ sym.st_shndx ≠ 65537 := by
  have hw : WellFormed scenario_blob := by decide
  refine ⟨hw, wide_elf_strscn, wide_elf_symscn, wide_elf_text, ?_⟩
  obtain ⟨e', hrun, hsymd, _⟩ :=
    process_pclntab_ok wide_elf 1 scenario_blob 65538 65539 (some 65537) hw
      wide_elf_strscn wide_elf_symscn (by decide) wide_elf_text
  refine ⟨e', symbols scenario_blob 65537, hrun, hsymd, by decide, by decide⟩

/-! ### C3 -/

/-- C3 (amended): for every well-formed pclntab blob whose string-table image
is at most 2^32 bytes long, and every `i < N`, the NUL-terminated string that
starts at byte offset `st_name` of the `i`-th emitted symbol in the image
attached to `.strtab` is exactly the name of the `i`-th function (the
NUL-terminated string at `name_addr` in the blob). -/
theorem C3_names_resolve (elf : Elf) (shstrndx : Nat) (blob : Bytes)
    (strscn symscn : Scn) (text : Option Scn) (hw : WellFormed blob)
    (hstr : gelf_getshdr elf strscn ≠ none) (hsym : gelf_getshdr elf symscn ≠ none)
    (hne : strscn ≠ symscn)
    (htext : elf_section_by_name elf shstrndx (c_str ".text") = .ok text) :
    ∃ e' arr img, process_pclntab elf shstrndx blob strscn symscn = .ok () e' ∧
      last_data e' symscn = some { d_buf := .syms arr
                                   d_size := func_count blob * 24
                                   d_align := hdr_addr_size blob } ∧
      last_data e' strscn = some { d_buf := .bytes img, d_size := img.length, d_align := 1 } ∧
      (img.length ≤ 2 ^ 32 →
        ∀ i, i < func_count blob →
          ∃ sym name, arr.get? i = some sym ∧ func_name blob i = some name ∧
            c_string_at img sym.st_name = some name) := by
  obtain ⟨e', hrun, hsymd, hstrd⟩ :=
    process_pclntab_ok elf shstrndx blob strscn symscn text hw hstr hsym hne htext
  exact ⟨e', symbols blob (elf_ndxscn text), image blob, hrun, hsymd, hstrd,
    fun hfit i hi => symbols_name_resolves blob hw _ i hi hfit⟩

set_option maxRecDepth 100000 in
/-- Witness of C3 on the scenario of the specification: the entries
(0x1000, "main.foo") and (0x1010, "main.bar") give `st_name` 1 and 10 into the
image "\0main.foo\0main.bar\0". -/
theorem C3_names_resolve_witness :
    WellFormed scenario_blob ∧
    gelf_getshdr (scenario_mem scenario_blob) 4 ≠ none ∧
    gelf_getshdr (scenario_mem scenario_blob) 5 ≠ none ∧
    elf_section_by_name (scenario_mem scenario_blob) 2 (c_str ".text") = .ok (some 1) ∧
    image scenario_blob = [0] ++ c_str "main.foo" ++ [0] ++ c_str "main.bar" ++ [0] ∧
    (symbols scenario_blob 1).map (fun sym => sym.st_name) = [1, 10] ∧
    (symbols scenario_blob 1).map (fun sym => sym.st_value) = [0x1000, 0x1010] ∧
    process_pclntab (scenario_mem scenario_blob) 2 scenario_blob 4 5
      = .ok () (finished (scenario_mem scenario_blob) 4 5 scenario_blob 1) ∧
    last_data (finished (scenario_mem scenario_blob) 4 5 scenario_blob 1) 5
      = some { d_buf := .syms (symbols scenario_blob 1), d_size := 48, d_align := 8 } ∧
    last_data (finished (scenario_mem scenario_blob) 4 5 scenario_blob 1) 4
      = some { d_buf := .bytes (image scenario_blob), d_size := 19, d_align := 1 } ∧
    ∃ e' arr img, process_pclntab (scenario_mem scenario_blob) 2 scenario_blob 4 5 = .ok () e' ∧
      last_data e' 5 = some { d_buf := .syms arr
                              d_size := func_count scenario_blob * 24
                              d_align := hdr_addr_size scenario_blob } ∧
      last_data e' 4 = some { d_buf := .bytes img, d_size := img.length, d_align := 1 } ∧
      (img.length ≤ 2 ^ 32 →
        ∀ i, i < func_count scenario_blob →
          ∃ sym name, arr.get? i = some sym ∧ func_name scenario_blob i = some name ∧
            c_string_at img sym.st_name = some name) :=
  ⟨by decide, by decide, by decide, by decide, by decide, by decide, by decide, by decide,
    by decide, by decide,
    C3_names_resolve (scenario_mem scenario_blob) 2 scenario_blob 4 5 (some 1)
      (by decide) (by decide) (by decide) (by decide) (by decide)⟩

/-- C3 as stated fails: `huge_blob` is well formed (width 8, 65537 entries) and
is decoded without error, the names of its first 65536 entries take more than
2^32 bytes of the string table, the offset of the last name `[2]` is stored in
the 32-bit `st_name` modulo 2^32, and the NUL-terminated string at that
`st_name` in the attached image is not the name of the last function. -/
theorem C3_counterexample :
    WellFormed huge_blob ∧
    gelf_getshdr (scenario_mem []) 4 ≠ none ∧ gelf_getshdr (scenario_mem []) 5 ≠ none ∧
    elf_section_by_name (scenario_mem []) 2 (c_str ".text") = .ok (some 1) ∧
    ∃ e' arr img, process_pclntab (scenario_mem []) 2 huge_blob 4 5 = .ok () e' ∧
      last_data e' 5 = some { d_buf := .syms arr
                              d_size := func_count huge_blob * 24
                              d_align := hdr_addr_size huge_blob } ∧
      last_data e' 4 = some { d_buf := .bytes img, d_size := img.length, d_align := 1 } ∧
      ∃ i sym name, i < func_count huge_blob ∧ arr.get? i = some sym ∧
        func_name huge_blob i = some name ∧ c_string_at img sym.st_name ≠ some name := by
  obtain ⟨hw, hlt, hname, sym, hsym, hbad⟩ :=
    overflow_last_name 65536 131072 1 (by decide) (by decide) (by decide)
  have h4 : gelf_getshdr (scenario_mem []) 4 ≠ none := by decide
  have h5 : gelf_getshdr (scenario_mem []) 5 ≠ none := by decide
  have ht : elf_section_by_name (scenario_mem []) 2 (c_str ".text") = .ok (some 1) := by decide
  obtain ⟨e', hrun, hsymd, hstrd⟩ :=
    process_pclntab_ok (scenario_mem []) 2 huge_blob 4 5 (some 1) hw h4 h5 (by decide) ht
  exact ⟨hw, h4, h5, ht, e', _, _, hrun, hsymd, hstrd, 65536, sym, [2], hlt, hsym, hname, hbad⟩

/-! ### C4 -/

/-- C4: for every well-formed pclntab blob the byte image attached to `.strtab`
is one NUL byte (entry 0) followed by the distinct function names in the order
in which they are first seen in the function table (`List.eraseDups` keeps the
first occurrence of each name), each followed by one NUL byte, and nothing
else; the names are the NUL-terminated strings at `name_addr` and so hold no
NUL themselves. -/
theorem C4_strtab_image (elf : Elf) (shstrndx : Nat) (blob : Bytes)
    (strscn symscn : Scn) (text : Option Scn) (hw : WellFormed blob)
    (hstr : gelf_getshdr elf strscn ≠ none) (hsym : gelf_getshdr elf symscn ≠ none)
    (hne : strscn ≠ symscn)
    (htext : elf_section_by_name elf shstrndx (c_str ".text") = .ok text) :
    ∃ e' img, process_pclntab elf shstrndx blob strscn symscn = .ok () e' ∧
      last_data e' strscn = some { d_buf := .bytes img, d_size := img.length, d_align := 1 } ∧
      img = 0 :: ((func_names blob).eraseDups).flatMap (fun s => s ++ [0]) ∧
      (func_names blob).length = func_count blob ∧
      (∀ i, i < func_count blob → func_name blob i = (func_names blob).get? i) ∧
      (∀ s ∈ func_names blob, ∀ b ∈ s, b ≠ 0) := by
  obtain ⟨e', hrun, _, hstrd⟩ :=
    process_pclntab_ok elf shstrndx blob strscn symscn text hw hstr hsym hne htext
  refine ⟨e', image blob, hrun, hstrd, ?_, ?_, ?_, ?_⟩
  · rw [← first_seen_eq_eraseDups]; rfl
  · simp [func_names, entries_length]
  · exact fun i hi => func_name_eq_get? blob hw i hi
  · intro s hs b hb
    have := func_names_clean blob hw s hs b hb
    omega

set_option maxRecDepth 100000 in
/-- Witness of C4 on the three-entry blob with a repeated name: the image is
"\0main.foo\0main.bar\0". -/
theorem C4_strtab_image_witness :
    WellFormed unsorted_blob ∧
    gelf_getshdr (scenario_mem unsorted_blob) 4 ≠ none ∧
    gelf_getshdr (scenario_mem unsorted_blob) 5 ≠ none ∧
    elf_section_by_name (scenario_mem unsorted_blob) 2 (c_str ".text") = .ok (some 1) ∧
    func_names unsorted_blob = [c_str "main.foo", c_str "main.bar", c_str "main.foo"] ∧
    (0 :: ((func_names unsorted_blob).eraseDups).flatMap (fun s => s ++ [0]))
      = [0] ++ c_str "main.foo" ++ [0] ++ c_str "main.bar" ++ [0] ∧
    ∃ e' img, process_pclntab (scenario_mem unsorted_blob) 2 unsorted_blob 4 5 = .ok () e' ∧
      last_data e' 4 = some { d_buf := .bytes img, d_size := img.length, d_align := 1 } ∧
      img = 0 :: ((func_names unsorted_blob).eraseDups).flatMap (fun s => s ++ [0]) ∧
      (func_names unsorted_blob).length = func_count unsorted_blob ∧
      (∀ i, i < func_count unsorted_blob →
        func_name unsorted_blob i = (func_names unsorted_blob).get? i) ∧
      (∀ s ∈ func_names unsorted_blob, ∀ b ∈ s, b ≠ 0) :=
  ⟨by decide, by decide, by decide, by decide, by decide, by decide,
    C4_strtab_image (scenario_mem unsorted_blob) 2 unsorted_blob 4 5 (some 1)
      (by decide) (by decide) (by decide) (by decide) (by decide)⟩

/-! ### C5 -/

/-- C6: for every blob of at least 4 bytes `process_pclntab` stops with the
cross-endian error exactly when the first 4 bytes decode (little-endian) to
0xfbffffff, with the generic error ("endian detection awry") exactly when they
decode to a value other than 0xfffffffb and 0xfbffffff, and gets past the magic
check (stops with neither of the two, if it stops at all) exactly when they
decode to 0xfffffffb. -/
theorem C6_magic_check (elf : Elf) (shstrndx : Nat) (blob : Bytes) (strscn symscn : Scn)
    (h4 : 4 ≤ blob.length) :
    ((process_pclntab elf shstrndx blob strscn symscn).failure = some .cross_endian
      ↔ field blob 4 0 = 0xfbffffff) ∧
    ((process_pclntab elf shstrndx blob strscn symscn).failure = some .endian_awry
      ↔ (field blob 4 0 ≠ 0xfffffffb ∧ field blob 4 0 ≠ 0xfbffffff)) ∧
    (((process_pclntab elf shstrndx blob strscn symscn).failure ≠ some .cross_endian ∧
      (process_pclntab elf shstrndx blob strscn symscn).failure ≠ some .endian_awry)
      ↔ field blob 4 0 = 0xfffffffb) := by
  have e0 := get_u32_zero blob h4
  by_cases hm : field blob 4 0 = 0xfffffffb
  · have hp := process_pclntab_pass elf shstrndx blob strscn symscn h4 hm
    have h1 : (process_pclntab elf shstrndx blob strscn symscn).failure ≠ some .cross_endian := by
      intro h; have := hp _ h; simp at this
    have h2 : (process_pclntab elf shstrndx blob strscn symscn).failure ≠ some .endian_awry := by
      intro h; have := hp _ h; simp at this
    simp [h1, h2, hm]
  · by_cases hx : field blob 4 0 = 0xfbffffff
    · have hr : process_pclntab elf shstrndx blob strscn symscn = .fail .cross_endian elf := by
        unfold process_pclntab
        simp [e0, hx]
      simp [hr, Step.failure, hx]
    · have hr : process_pclntab elf shstrndx blob strscn symscn = .fail .endian_awry elf := by
        unfold process_pclntab
        simp only [e0, hm, hx, if_false]
      simp [hr, Step.failure, hx, hm]

/-- Witness of C6: the three kinds of magic on 8-byte blobs. -/
theorem C6_magic_check_witness :
    (process_pclntab (scenario_mem []) 2 [0xff, 0xff, 0xff, 0xfb, 0, 0, 1, 8] 4 5).failure
      = some .cross_endian ∧
    (process_pclntab (scenario_mem []) 2 [0x7f, 0x45, 0x4c, 0x46, 0, 0, 1, 8] 4 5).failure
      = some .endian_awry ∧
    (process_pclntab (scenario_mem []) 2 [0xfb, 0xff, 0xff, 0xff, 0, 0, 1, 8] 4 5).failure
      = some .fault ∧
    (4 ≤ [0xff, 0xff, 0xff, 0xfb, 0, 0, 1, 8].length ∧
    (((process_pclntab (scenario_mem []) 2 [0xff, 0xff, 0xff, 0xfb, 0, 0, 1, 8] 4 5).failure
        = some .cross_endian
      ↔ field [0xff, 0xff, 0xff, 0xfb, 0, 0, 1, 8] 4 0 = 0xfbffffff) ∧
    ((process_pclntab (scenario_mem []) 2 [0xff, 0xff, 0xff, 0xfb, 0, 0, 1, 8] 4 5).failure
        = some .endian_awry
      ↔ (field [0xff, 0xff, 0xff, 0xfb, 0, 0, 1, 8] 4 0 ≠ 0xfffffffb ∧
          field [0xff, 0xff, 0xff, 0xfb, 0, 0, 1, 8] 4 0 ≠ 0xfbffffff)) ∧
    (((process_pclntab (scenario_mem []) 2 [0xff, 0xff, 0xff, 0xfb, 0, 0, 1, 8] 4 5).failure
        ≠ some .cross_endian ∧
      (process_pclntab (scenario_mem []) 2 [0xff, 0xff, 0xff, 0xfb, 0, 0, 1, 8] 4 5).failure
        ≠ some .endian_awry)
      ↔ field [0xff, 0xff, 0xff, 0xfb, 0, 0, 1, 8] 4 0 = 0xfffffffb))) :=
  ⟨by decide, by decide, by decide, by decide,
    C6_magic_check (scenario_mem []) 2 [0xff, 0xff, 0xff, 0xfb, 0, 0, 1, 8] 4 5 (by decide)⟩

/-! ### C7 -/

/-- C7 (amended): a blob whose magic is rejected makes `process_pclntab` fail
with the container, so both sections, exactly as handed in.  A blob with valid
magic whose `addr_size` byte is neither 4 nor 8 makes it fail (the abort of
`get_uptr`) after it has set `sh_addralign` of `.strtab` to 1, `sh_addralign`
and `sh_entsize` of `.symtab` to `addr_size` and 24, and has added one empty
data descriptor (no buffer, size 0) to each of the two sections; no buffer is
stored in either section and no other section is changed. -/
theorem C7_failure_state (elf : Elf) (shstrndx : Nat) (blob : Bytes) (strscn symscn : Scn)
    (h4 : 4 ≤ blob.length) :
    (field blob 4 0 ≠ 0xfffffffb →
      (process_pclntab elf shstrndx blob strscn symscn).failure ≠ none ∧
      (process_pclntab elf shstrndx blob strscn symscn).elf = elf) ∧
    (field blob 4 0 = 0xfffffffb →
      ∀ b, blob.get? 7 = some b → b % 256 ≠ 4 → b % 256 ≠ 8 →
      ∀ hs ds hy dy, strscn ≠ symscn →
        elf_getscn elf strscn = some { shdr := some hs, data := ds } →
        elf_getscn elf symscn = some { shdr := some hy, data := dy } →
        (process_pclntab elf shstrndx blob strscn symscn).failure = some .abort ∧
        elf_getscn (process_pclntab elf shstrndx blob strscn symscn).elf strscn
          = some { shdr := some { hs with sh_addralign := 1 }, data := ds ++ [{}] } ∧
        elf_getscn (process_pclntab elf shstrndx blob strscn symscn).elf symscn
          = some { shdr := some { hy with sh_addralign := b % 256, sh_entsize := 24 },
                   data := dy ++ [{}] } ∧
        ∀ k, k ≠ strscn → k ≠ symscn →
          elf_getscn (process_pclntab elf shstrndx blob strscn symscn).elf k
            = elf_getscn elf k) := by
  constructor
  · intro hm
    rw [process_pclntab_bad_magic elf shstrndx blob strscn symscn h4 hm]
    simp [Step.failure, Step.elf]
  · intro hm b hb hn4 hn8 hs ds hy dy hne h1 h2
    rw [process_pclntab_bad_width elf shstrndx blob strscn symscn hm b hb hn4 hn8]
    exact ⟨rfl, elf_getscn_prepared_str elf strscn symscn _ hs ds hne h1,
      elf_getscn_prepared_sym elf strscn symscn _ hy dy hne h2,
      fun k hk1 hk2 => elf_getscn_prepared_other elf strscn symscn _ k hk1 hk2⟩

set_option maxRecDepth 100000 in
/-- Witness of C7 (amended): a blob with the byte-swapped magic leaves the
container as it was; the blob with `addr_size` 5 stops at the abort with the
two headers initialised and one empty descriptor added to each section. -/
theorem C7_failure_state_witness :
    (4 ≤ swapped_magic_blob.length ∧ field swapped_magic_blob 4 0 ≠ 0xfffffffb ∧
      (process_pclntab (scenario_mem swapped_magic_blob) 2 swapped_magic_blob 4 5).failure
        ≠ none ∧
      (process_pclntab (scenario_mem swapped_magic_blob) 2 swapped_magic_blob 4 5).elf
        = scenario_mem swapped_magic_blob) ∧
    (4 ≤ bad_width_blob.length ∧ field bad_width_blob 4 0 = 0xfffffffb ∧
      bad_width_blob.get? 7 = some 5 ∧
      (process_pclntab (scenario_mem bad_width_blob) 2 bad_width_blob 4 5).failure
        = some .abort ∧
      elf_getscn (process_pclntab (scenario_mem bad_width_blob) 2 bad_width_blob 4 5).elf 4
        = some { shdr := some { sh_name := 36, sh_type := SHT_STRTAB, sh_addralign := 1 },
                 data := [] ++ [{}] } ∧
      elf_getscn (process_pclntab (scenario_mem bad_width_blob) 2 bad_width_blob 4 5).elf 5
        = some { shdr := some { sh_name := 28, sh_type := SHT_SYMTAB, sh_link := 4,
                                sh_addralign := 5 % 256, sh_entsize := 24 },
                 data := [] ++ [{}] } ∧
      ∀ k, k ≠ 4 → k ≠ 5 →
        elf_getscn (process_pclntab (scenario_mem bad_width_blob) 2 bad_width_blob 4 5).elf k
          = elf_getscn (scenario_mem bad_width_blob) k) :=
  ⟨⟨by decide, by decide,
      (C7_failure_state (scenario_mem swapped_magic_blob) 2 swapped_magic_blob 4 5
        (by decide)).1 (by decide)⟩,
    ⟨by decide, by decide, by decide,
      (C7_failure_state (scenario_mem bad_width_blob) 2 bad_width_blob 4 5 (by decide)).2
        (by decide) 5 (by decide) (by decide) (by decide)
        { sh_name := 36, sh_type := SHT_STRTAB } []
        { sh_name := 28, sh_type := SHT_SYMTAB, sh_link := 4 } []
        (by decide) (by decide) (by decide)⟩⟩

/-- C7 as stated fails: on the 12-byte blob with valid magic and `addr_size` 5
`process_pclntab` stops at the abort with the header of `.symtab` (section 5)
changed (`sh_addralign = 5`, `sh_entsize = 24`), the header of `.strtab`
(section 4) changed (`sh_addralign = 1`), and a data descriptor added to each
of the two sections, which had none. -/
theorem C7_counterexample :
    field bad_width_blob 4 0 = 0xfffffffb ∧ bad_width_blob.get? 7 = some 5 ∧
    (process_pclntab (scenario_mem bad_width_blob) 2 bad_width_blob 4 5).failure = some .abort ∧
    elf_getscn (scenario_mem bad_width_blob) 4
      = some { shdr := some { sh_name := 36, sh_type := SHT_STRTAB }, data := [] } ∧
    elf_getscn (process_pclntab (scenario_mem bad_width_blob) 2 bad_width_blob 4 5).elf 4
      = some { shdr := some { sh_name := 36, sh_type := SHT_STRTAB, sh_addralign := 1 },
               data := [{ d_buf := .null, d_size := 0, d_align := 1 }] } ∧
    elf_getscn (scenario_mem bad_width_blob) 5
      = some { shdr := some { sh_name := 28, sh_type := SHT_SYMTAB, sh_link := 4 },
               data := [] } ∧
    elf_getscn (process_pclntab (scenario_mem bad_width_blob) 2 bad_width_blob 4 5).elf 5
      = some { shdr := some { sh_name := 28, sh_type := SHT_SYMTAB, sh_link := 4,
                              sh_addralign := 5, sh_entsize := 24 },
               data := [{ d_buf := .null, d_size := 0, d_align := 1 }] } ∧
    (process_pclntab (scenario_mem bad_width_blob) 2 bad_width_blob 4 5).elf
      ≠ scenario_mem bad_width_blob := by
  decide

/-! ### C8 -/

/-- C8 (amended): for every input container whose `.gopclntab` blob starts with
the byte-swapped magic or with an unrelated 4-byte value, the run of `main`
fails and nothing is persisted: the file is as before the run.  The container
in memory is not as before: when the run gets as far as the decoder (the
container has no `.symtab` and no `.strtab` and has a `.shstrtab`), it stops
with the cross-endian error (swapped magic) or the generic error (any other
value) after the two new sections have been created, and the section list in
memory has two more entries than the input. -/
theorem C8_bad_magic_run (elf : Elf) (write_ok : Bool) (sh : Nat) (g : Scn) (d : Elf_Data)
    (hsh : elf.e_shstrndx = some sh)
    (hg : elf_section_by_name elf sh (c_str ".gopclntab") = .ok (some g))
    (hd : elf_rawdata elf g = some d) (h4 : 4 ≤ d.content.length)
    (hbad : field d.content 4 0 ≠ 0xfffffffb) :
    (main 2 (.elf elf) write_ok).status ≠ none ∧
    (main 2 (.elf elf) write_ok).disk = .elf elf ∧
    (elf_section_by_name elf sh (c_str ".symtab") = .ok none →
     elf_section_by_name elf sh (c_str ".strtab") = .ok none →
     (∃ ss, elf_section_by_name elf sh (c_str ".shstrtab") = .ok (some ss)) →
      (main 2 (.elf elf) write_ok).status
        = some (if field d.content 4 0 = 0xfbffffff then .cross_endian else .endian_awry) ∧
      ∃ m, (main 2 (.elf elf) write_ok).mem = some m ∧
        m.scns.length = elf.scns.length + 2) := by
  have key : ∀ ndxs elf1,
      allocate_shstrtab_entries_ elf sh [c_str ".symtab", c_str ".strtab"] = .ok ndxs elf1 →
      elf_section_by_name elf sh (c_str ".symtab") = .ok none →
      elf_section_by_name elf sh (c_str ".strtab") = .ok none →
      ∃ m, m.scns.length = elf.scns.length + 2 ∧
        main 2 (.elf elf) write_ok
          = { status := some (if field d.content 4 0 = 0xfbffffff then .cross_endian
                              else .endian_awry),
              mem := some m, disk := .elf elf } := by
    intro ndxs elf1 hal hs1 hs2
    obtain ⟨e3, hlen, hg3, hd3, he3⟩ := main_tail_bad_magic elf elf1 sh g d ndxs hg hd hal
    refine ⟨e3, hlen, ?_⟩
    unfold main
    simp only [hsh, hs1, hs2, hal, ← he3, hg3, hd3, ne_eq, not_true_eq_false, if_false,
      process_pclntab_bad_magic e3 sh d.content _ _ h4 hbad]
  refine ⟨?_, ?_, ?_⟩
  · unfold main
    simp only [hsh, ne_eq, not_true_eq_false, if_false]
    cases hs1 : elf_section_by_name elf sh (c_str ".symtab") with
    | error f => simp
    | ok r1 =>
      cases r1 with
      | some _ => simp
      | none =>
        cases hs2 : elf_section_by_name elf sh (c_str ".strtab") with
        | error f => simp
        | ok r2 =>
          cases r2 with
          | some _ => simp
          | none =>
            cases hal : allocate_shstrtab_entries_ elf sh [c_str ".symtab", c_str ".strtab"] with
            | fail f e => simp
            | ok ndxs elf1 =>
              obtain ⟨m, _, hm⟩ := key ndxs elf1 hal hs1 hs2
              unfold main at hm
              simp only [hsh, hs1, hs2, hal, ne_eq, not_true_eq_false, if_false] at hm
              simp only [hm]
              simp
  · unfold main
    simp only [hsh, ne_eq, not_true_eq_false, if_false]
    cases hs1 : elf_section_by_name elf sh (c_str ".symtab") with
    | error f => simp
    | ok r1 =>
      cases r1 with
      | some _ => simp
      | none =>
        cases hs2 : elf_section_by_name elf sh (c_str ".strtab") with
        | error f => simp
        | ok r2 =>
          cases r2 with
          | some _ => simp
          | none =>
            cases hal : allocate_shstrtab_entries_ elf sh [c_str ".symtab", c_str ".strtab"] with
            | fail f e => simp
            | ok ndxs elf1 =>
              obtain ⟨m, _, hm⟩ := key ndxs elf1 hal hs1 hs2
              unfold main at hm
              simp only [hsh, hs1, hs2, hal, ne_eq, not_true_eq_false, if_false] at hm
              simp only [hm]
  · intro hs1 hs2 ⟨ss, hss⟩
    cases hal : allocate_shstrtab_entries_ elf sh [c_str ".symtab", c_str ".strtab"] with
    | fail f e =>
      exfalso
      unfold allocate_shstrtab_entries_ at hal
      simp only [hss, (allocate_loop_needed _ _ _ _).1, strings_size] at hal
      simp at hal
    | ok ndxs elf1 =>
      obtain ⟨m, hlen, hm⟩ := key ndxs elf1 hal hs1 hs2
      rw [hm]
      exact ⟨rfl, m, rfl, hlen⟩

set_option maxRecDepth 100000 in
/-- Witness of C8 (amended) on the scenario container with a `.gopclntab` that
starts with the byte-swapped magic. -/
theorem C8_bad_magic_run_witness :
    (scenario_file swapped_magic_blob).e_shstrndx = some 2 ∧
    elf_section_by_name (scenario_file swapped_magic_blob) 2 (c_str ".gopclntab")
      = .ok (some 3) ∧
    elf_rawdata (scenario_file swapped_magic_blob) 3
      = some { d_buf := .bytes swapped_magic_blob, d_size := 8 } ∧
    field swapped_magic_blob 4 0 = 0xfbffffff ∧
    elf_section_by_name (scenario_file swapped_magic_blob) 2 (c_str ".symtab") = .ok none ∧
    elf_section_by_name (scenario_file swapped_magic_blob) 2 (c_str ".strtab") = .ok none ∧
    elf_section_by_name (scenario_file swapped_magic_blob) 2 (c_str ".shstrtab")
      = .ok (some 2) ∧
    ((main 2 (.elf (scenario_file swapped_magic_blob)) true).status ≠ none ∧
    (main 2 (.elf (scenario_file swapped_magic_blob)) true).disk
      = .elf (scenario_file swapped_magic_blob) ∧
    (elf_section_by_name (scenario_file swapped_magic_blob) 2 (c_str ".symtab") = .ok none →
     elf_section_by_name (scenario_file swapped_magic_blob) 2 (c_str ".strtab") = .ok none →
     (∃ ss, elf_section_by_name (scenario_file swapped_magic_blob) 2 (c_str ".shstrtab")
        = .ok (some ss)) →
      (main 2 (.elf (scenario_file swapped_magic_blob)) true).status
        = some (if field (Elf_Data.content { d_buf := .bytes swapped_magic_blob, d_size := 8 })
                    4 0 = 0xfbffffff
                then .cross_endian else .endian_awry) ∧
      ∃ m, (main 2 (.elf (scenario_file swapped_magic_blob)) true).mem = some m ∧
        m.scns.length = (scenario_file swapped_magic_blob).scns.length + 2)) :=
  ⟨by decide, by decide, by decide, by decide, by decide, by decide, by decide,
    C8_bad_magic_run (scenario_file swapped_magic_blob) true 2 3
      { d_buf := .bytes swapped_magic_blob, d_size := 8 }
      (by decide) (by decide) (by decide) (by decide) (by decide)⟩

set_option maxRecDepth 100000 in
/-- C8 as stated fails: on the scenario container (`.text`, `.shstrtab`,
`.gopclntab`) with a blob that starts with the byte-swapped magic, and with one
that starts with an unrelated value, the run stops at the magic check with five
sections in the container where the input had three: sections 4 and 5 have
been created.  The file is unchanged. -/
theorem C8_counterexample :
    (main 2 (.elf (scenario_file swapped_magic_blob)) true).status = some .cross_endian ∧
    (main 2 (.elf (scenario_file unrelated_magic_blob)) true).status = some .endian_awry ∧
    (scenario_file swapped_magic_blob).scns.length = 3 ∧
    ((main 2 (.elf (scenario_file swapped_magic_blob)) true).mem.map
      (fun m => m.scns.length)) = some 5 ∧
    ((main 2 (.elf (scenario_file unrelated_magic_blob)) true).mem.map
      (fun m => m.scns.length)) = some 5 ∧
    ((main 2 (.elf (scenario_file swapped_magic_blob)) true).mem.bind
      (fun m => gelf_getshdr m 4)) = some { sh_name := 36, sh_type := SHT_STRTAB } ∧
    ((main 2 (.elf (scenario_file swapped_magic_blob)) true).mem.bind
      (fun m => gelf_getshdr m 5))
        = some { sh_name := 28, sh_type := SHT_SYMTAB, sh_link := 4 } ∧
    (main 2 (.elf (scenario_file swapped_magic_blob)) true).mem
      ≠ some (scenario_file swapped_magic_blob) ∧
    (main 2 (.elf (scenario_file swapped_magic_blob)) true).disk
      = .elf (scenario_file swapped_magic_blob) := by
  decide

/-! ### C9 -/

/-- C9: for every blob with valid magic, `process_pclntab` stops with the
abort of `get_uptr` (unsupported pointer width) if and only if the blob has an
`addr_size` byte (offset 7) and that byte is neither 4 nor 8.  When the byte is
4 or 8, every `get_uptr` whose 8 copied bytes lie inside the blob returns the
little-endian field of that width at the cursor and advances the cursor by
that width, and on a well-formed blob the function count is the field of that
width at offset 8 and the `i`-th record's value the field of that width at
offset `8 + addr_size + 2 * addr_size * i`. -/
theorem C9_pointer_width (elf : Elf) (shstrndx : Nat) (blob : Bytes) (strscn symscn : Scn)
    (h4 : 4 ≤ blob.length) (hmagic : field blob 4 0 = 0xfffffffb) :
    ((process_pclntab elf shstrndx blob strscn symscn).failure = some .abort
      ↔ ∃ b, blob.get? 7 = some b ∧ b % 256 ≠ 4 ∧ b % 256 ≠ 8) ∧
    (∀ b, blob.get? 7 = some b → (b % 256 = 4 ∨ b % 256 = 8) →
      (∀ iter, iter + 8 ≤ blob.length →
        get_uptr blob iter (b % 256) = .ok (field blob (b % 256) iter, iter + b % 256)) ∧
      (∀ text, WellFormed blob → gelf_getshdr elf strscn ≠ none →
        gelf_getshdr elf symscn ≠ none → strscn ≠ symscn →
        elf_section_by_name elf shstrndx (c_str ".text") = .ok text →
        ∃ e' arr, process_pclntab elf shstrndx blob strscn symscn = .ok () e' ∧
          last_data e' symscn = some { d_buf := .syms arr
                                       d_size := field blob (b % 256) 8 * 24
                                       d_align := b % 256 } ∧
          arr.length = field blob (b % 256) 8 ∧
          ∀ i, i < field blob (b % 256) 8 →
            (arr.get? i).map (fun sym => sym.st_value)
              = some (field blob (b % 256) (8 + b % 256 + 2 * (b % 256) * i)))) := by
  constructor
  · constructor
    · intro hf
      by_cases h8 : 8 ≤ blob.length
      · obtain ⟨b, hb⟩ := get?_of_length blob h8
        have ha := hdr_addr_size_eq blob b hb
        refine ⟨b, hb, ?_⟩
        rw [← ha]
        rw [process_pclntab_after_header elf shstrndx blob strscn symscn h8 hmagic] at hf
        split at hf
        · rename_i f1 h1
          simp only [Step.failure, Option.some.injEq] at hf
          subst hf
          rcases get_uptr_error _ _ _ _ h1 with ⟨h, _⟩ | ⟨_, h⟩
          · cases h
          · omega
        · split at hf
          · rename_i f2 h2
            simp only [Step.failure, Option.some.injEq] at hf
            subst hf
            rcases scan_by_name_error _ _ _ _ _ _ h2 with h | h <;> cases h
          · split at hf
            · rename_i f3 h3
              simp only [Step.failure, Option.some.injEq] at hf
              subst hf
              rcases pclntab_loop_error _ _ _ _ _ _ _ _ h3 with h | ⟨_, h⟩
              · cases h
              · omega
            · simp [Step.failure] at hf
      · rw [process_pclntab_short elf shstrndx blob strscn symscn h4 h8 hmagic] at hf
        simp [Step.failure] at hf
    · rintro ⟨b, hb, hn4, hn8⟩
      have h8 := length_of_get? blob b hb
      have ha := hdr_addr_size_eq blob b hb
      rw [process_pclntab_after_header elf shstrndx blob strscn symscn h8 hmagic]
      have : get_uptr blob 8 (hdr_addr_size blob) = .error .abort := by
        have hna : ¬ (hdr_addr_size blob = 8 ∨ hdr_addr_size blob = 4) := by omega
        simp [get_uptr, hna]
      simp [this, Step.failure]
  · intro b hb hw
    have ha := hdr_addr_size_eq blob b hb
    rw [← ha] at hw ⊢
    refine ⟨fun iter hi => get_uptr_eq blob iter _ hw hi, ?_⟩
    intro text hwf hstr hsym hne htext
    obtain ⟨e', hrun, hsymd, _⟩ :=
      process_pclntab_ok elf shstrndx blob strscn symscn text hwf hstr hsym hne htext
    refine ⟨e', symbols blob (elf_ndxscn text), hrun, hsymd, symbols_length blob _, ?_⟩
    intro i hi
    have hi' : i < func_count blob := hi
    simp [symbols_get? blob _ i hi', new_sym, func_offset, entry_off]

set_option maxRecDepth 100000 in
/-- Witness of C9: the scenario blob with its `addr_size` byte set to 5 stops
with the abort; the scenario blob itself (width 8) is decoded. -/
theorem C9_pointer_width_witness :
    (process_pclntab (scenario_mem []) 2 [0xfb, 0xff, 0xff, 0xff, 0, 0, 1, 5, 2, 0, 0, 0] 4 5).failure
      = some .abort ∧
    (process_pclntab (scenario_mem scenario_blob) 2 scenario_blob 4 5).failure = none ∧
    scenario_blob.get? 7 = some 8 ∧ WellFormed scenario_blob ∧
    gelf_getshdr (scenario_mem scenario_blob) 4 ≠ none ∧
    gelf_getshdr (scenario_mem scenario_blob) 5 ≠ none ∧
    elf_section_by_name (scenario_mem scenario_blob) 2 (c_str ".text") = .ok (some 1) ∧
    (4 ≤ scenario_blob.length ∧ field scenario_blob 4 0 = 0xfffffffb ∧
    (((process_pclntab (scenario_mem scenario_blob) 2 scenario_blob 4 5).failure = some .abort
      ↔ ∃ b, scenario_blob.get? 7 = some b ∧ b % 256 ≠ 4 ∧ b % 256 ≠ 8) ∧
    (∀ b, scenario_blob.get? 7 = some b → (b % 256 = 4 ∨ b % 256 = 8) →
      (∀ iter, iter + 8 ≤ scenario_blob.length →
        get_uptr scenario_blob iter (b % 256)
          = .ok (field scenario_blob (b % 256) iter, iter + b % 256)) ∧
      (∀ text, WellFormed scenario_blob → gelf_getshdr (scenario_mem scenario_blob) 4 ≠ none →
        gelf_getshdr (scenario_mem scenario_blob) 5 ≠ none → 4 ≠ 5 →
        elf_section_by_name (scenario_mem scenario_blob) 2 (c_str ".text") = .ok text →
        ∃ e' arr, process_pclntab (scenario_mem scenario_blob) 2 scenario_blob 4 5 = .ok () e' ∧
          last_data e' 5 = some { d_buf := .syms arr
                                  d_size := field scenario_blob (b % 256) 8 * 24
                                  d_align := b % 256 } ∧
          arr.length = field scenario_blob (b % 256) 8 ∧
          ∀ i, i < field scenario_blob (b % 256) 8 →
            (arr.get? i).map (fun sym => sym.st_value)
              = some (field scenario_blob (b % 256) (8 + b % 256 + 2 * (b % 256) * i)))))) :=
  ⟨by decide, by decide, by decide, by decide, by decide, by decide, by decide, by decide,
    by decide,
    C9_pointer_width (scenario_mem scenario_blob) 2 scenario_blob 4 5 (by decide) (by decide)⟩

/-! ### C10 -/

/-- C10: for every list of (func_offset, name) pairs, a blob that encodes it
with `addr_size` 4 and a blob that encodes it with `addr_size` 8 are both
decoded without error, to the same function count, the same func_offset values
and the same names, and the two runs of `process_pclntab` leave the same
symbol array (so equal `st_value`, `st_name`, `st_info`, `st_other`, `st_shndx`
and `st_size` at every index) and the same string-table image; only the
alignment recorded from the width differs. -/
theorem C10_width_independent (elf : Elf) (shstrndx : Nat) (strscn symscn : Scn)
    (text : Option Scn) (b4 b8 : Bytes) (xs : List (Nat × Bytes))
    (h4 : Encodes 4 b4 xs) (h8 : Encodes 8 b8 xs)
    (hstr : gelf_getshdr elf strscn ≠ none) (hsym : gelf_getshdr elf symscn ≠ none)
    (hne : strscn ≠ symscn)
    (htext : elf_section_by_name elf shstrndx (c_str ".text") = .ok text) :
    ∃ (e4 e8 : Elf) (arr : List Elf64_Sym) (img : Bytes),
      process_pclntab elf shstrndx b4 strscn symscn = .ok () e4 ∧
      process_pclntab elf shstrndx b8 strscn symscn = .ok () e8 ∧
      last_data e4 symscn
        = some { d_buf := .syms arr, d_size := xs.length * 24, d_align := 4 } ∧
      last_data e8 symscn
        = some { d_buf := .syms arr, d_size := xs.length * 24, d_align := 8 } ∧
      last_data e4 strscn = some { d_buf := .bytes img, d_size := img.length, d_align := 1 } ∧
      last_data e8 strscn = some { d_buf := .bytes img, d_size := img.length, d_align := 1 } ∧
      func_count b4 = xs.length ∧ func_count b8 = xs.length ∧ arr.length = xs.length ∧
      ∀ (i foff : Nat) (name : Bytes), xs.get? i = some (foff, name) →
        func_offset b4 i = foff ∧ func_offset b8 i = foff ∧
        func_name b4 i = some name ∧ func_name b8 i = some name ∧
        (arr.get? i).map (fun sym => sym.st_value) = some foff := by
  obtain ⟨hw4, ha4, hc4, hf4⟩ := encodes_fields 4 b4 xs h4
  obtain ⟨hw8, ha8, hc8, hf8⟩ := encodes_fields 8 b8 xs h8
  have he4 := encodes_entries 4 b4 xs h4
  have he8 := encodes_entries 8 b8 xs h8
  obtain ⟨e4, hrun4, hsym4, hstr4⟩ :=
    process_pclntab_ok elf shstrndx b4 strscn symscn text hw4 hstr hsym hne htext
  obtain ⟨e8, hrun8, hsym8, hstr8⟩ :=
    process_pclntab_ok elf shstrndx b8 strscn symscn text hw8 hstr hsym hne htext
  have hsymbols : symbols b8 (elf_ndxscn text) = symbols b4 (elf_ndxscn text) := by
    simp only [symbols, func_names, he4, he8]
  have himage : image b8 = image b4 := by
    simp only [image, func_names, he4, he8]
  rw [hsymbols, hc8, ha8] at hsym8
  rw [himage] at hstr8
  rw [hc4, ha4] at hsym4
  refine ⟨e4, e8, symbols b4 (elf_ndxscn text), image b4, hrun4, hrun8, hsym4, hsym8, hstr4,
    hstr8, hc4, hc8, by rw [symbols_length, hc4], ?_⟩
  intro i foff name hi
  obtain ⟨f4, n4⟩ := hf4 i foff name hi
  obtain ⟨f8, n8⟩ := hf8 i foff name hi
  refine ⟨f4, f8, n4, n8, ?_⟩
  have hlt : i < func_count b4 := by
    rw [hc4]
    rw [List.get?_eq_getElem?] at hi
    exact (List.getElem?_eq_some_iff.mp hi).1
  rw [List.get?_eq_getElem?, symbols_get? b4 _ i hlt]
  simp [new_sym, f4]

set_option maxRecDepth 100000 in
/-- Witness of C10: the scenario encoded with width 4 (62 bytes) and with
width 8 (90 bytes). -/
theorem C10_width_independent_witness :
    Encodes 4 scenario_blob4 scenario_entries ∧ Encodes 8 scenario_blob scenario_entries ∧
    gelf_getshdr (scenario_mem []) 4 ≠ none ∧ gelf_getshdr (scenario_mem []) 5 ≠ none ∧
    elf_section_by_name (scenario_mem []) 2 (c_str ".text") = .ok (some 1) ∧
    symbols scenario_blob4 1 = symbols scenario_blob 1 ∧
    ∃ (e4 e8 : Elf) (arr : List Elf64_Sym) (img : Bytes),
      process_pclntab (scenario_mem []) 2 scenario_blob4 4 5 = .ok () e4 ∧
      process_pclntab (scenario_mem []) 2 scenario_blob 4 5 = .ok () e8 ∧
      last_data e4 5
        = some { d_buf := .syms arr, d_size := scenario_entries.length * 24, d_align := 4 } ∧
      last_data e8 5
        = some { d_buf := .syms arr, d_size := scenario_entries.length * 24, d_align := 8 } ∧
      last_data e4 4 = some { d_buf := .bytes img, d_size := img.length, d_align := 1 } ∧
      last_data e8 4 = some { d_buf := .bytes img, d_size := img.length, d_align := 1 } ∧
      func_count scenario_blob4 = scenario_entries.length ∧
      func_count scenario_blob = scenario_entries.length ∧
      arr.length = scenario_entries.length ∧
      ∀ (i foff : Nat) (name : Bytes), scenario_entries.get? i = some (foff, name) →
        func_offset scenario_blob4 i = foff ∧ func_offset scenario_blob i = foff ∧
        func_name scenario_blob4 i = some name ∧ func_name scenario_blob i = some name ∧
        (arr.get? i).map (fun sym => sym.st_value) = some foff :=
  ⟨scenario_blob4_encodes, scenario_blob_encodes, by decide, by decide, by decide, by decide,
    C10_width_independent (scenario_mem []) 2 4 5 (some 1) scenario_blob4 scenario_blob
      scenario_entries scenario_blob4_encodes scenario_blob_encodes
      (by decide) (by decide) (by decide) (by decide)⟩

/-! ### C11 -/

/-- C11: let the section named `.shstrtab` have a header whose size `S` is the
length of its contents, let the names be a non-empty list of C strings, and let
`S` plus the block size fit in 64 bits.  Then `allocate_shstrtab_entries_`
returns, for name `i`, the offset `S` plus the sum over `j < i` of
`length(name_j) + 1`; it appends to that section one data block, the
concatenation of the NUL-terminated names, of exactly the sum of
`length + 1` bytes; every other section and the header are unchanged; and in
the contents after the call, which are the old contents followed by the block,
every byte below `S` is the old one and the NUL-terminated string at each
returned offset is `name_i`. -/
theorem C11_allocated_offsets (h : Elf) (shstrndx : Nat) (names : List Bytes) (scn : Nat)
    (s : Elf_Scn) (hd : GElf_Shdr) (hne : names ≠ [])
    (hclean : ∀ name ∈ names, c_clean name)
    (hfind : elf_section_by_name h shstrndx (c_str ".shstrtab") = .ok (some scn))
    (hscn : elf_getscn h scn = some s) (hshdr : s.shdr = some hd)
    (hsize : hd.sh_size = s.contents.length)
    (hfit : hd.sh_size + strings_size names < 2 ^ 64) :
    ∃ (ndxs : List Nat) (e' : Elf) (s' : Elf_Scn),
      allocate_shstrtab_entries_ h shstrndx names = .ok ndxs e' ∧
      ndxs.length = names.length ∧
      (∀ i, i < names.length →
        ndxs.get? i = some (hd.sh_size + strings_size (names.take i))) ∧
      elf_getscn e' scn = some s' ∧ s'.shdr = s.shdr ∧
      s'.data = s.data ++ [{ d_buf := .bytes (packed names), d_size := strings_size names }] ∧
      (packed names).length = strings_size names ∧
      (∀ k, k ≠ scn → elf_getscn e' k = elf_getscn h k) ∧
      s'.contents = s.contents ++ packed names ∧
      (∀ p, p < hd.sh_size → s'.contents.get? p = s.contents.get? p) ∧
      (∀ i name, names.get? i = some name →
        c_string_at s'.contents (hd.sh_size + strings_size (names.take i)) = some name) := by
  have hrun := allocate_run h shstrndx names scn s hd hne hfind hscn hshdr
  have hcont : Elf_Scn.contents
      { s with data := s.data ++
          [{ d_buf := .bytes (packed names), d_size := strings_size names }] }
      = s.contents ++ packed names := by
    simp [Elf_Scn.contents, Elf_Data.content]
  refine ⟨_, _, { s with data := s.data ++
      [{ d_buf := .bytes (packed names), d_size := strings_size names }] }, hrun,
    allocate_loop_length _ _ _ _, ?_, ?_, rfl, rfl, packed_length names, ?_, hcont, ?_, ?_⟩
  · intro i hi
    rw [allocate_loop_offsets hd.sh_size names 0 [] i hi, Nat.zero_add]
    have := strings_size_take_le names i
    rw [Nat.mod_eq_of_lt (by omega)]
  · rw [elf_getscn_attach, if_pos rfl, hscn]
    rfl
  · intro k hk
    rw [elf_getscn_attach, if_neg hk]
  · intro p hp
    rw [hcont]
    simp only [List.get?_eq_getElem?]
    rw [List.getElem?_append_left (by omega)]
  · intro i name hi
    rw [hcont]
    unfold c_string_at
    rw [hsize, List.drop_append, drop_packed_take]
    have hlt : i < names.length := by
      by_contra hge
      rw [List.get?_eq_none.mpr (by omega)] at hi
      simp at hi
    have hdrop : names.drop i = name :: names.drop (i + 1) := by
      rw [List.get?_eq_getElem?, List.getElem?_eq_getElem hlt] at hi
      rw [← Option.some.inj hi]
      exact List.drop_eq_getElem_cons hlt
    have hmem : name ∈ names := List.get?_mem hi
    rw [hdrop]
    have : packed (name :: names.drop (i + 1)) = name ++ 0 :: packed (names.drop (i + 1)) := by
      simp [packed]
    rw [this]
    exact c_string_append name _ (hclean name hmem)

set_option maxRecDepth 100000 in
/-- C11 at the scenario container: `.shstrtab` is section 2 and has 28 bytes;
".symtab" and ".strtab" get the offsets 28 and 36 and a block of 16 bytes is
appended. -/
theorem C11_allocated_offsets_witness :
    [c_str ".symtab", c_str ".strtab"] ≠ [] ∧
      (∀ name ∈ [c_str ".symtab", c_str ".strtab"], c_clean name) ∧
      elf_section_by_name (scenario_file scenario_blob) 2 (c_str ".shstrtab") = .ok (some 2) ∧
      (28 : Nat) = scenario_shstrtab.length ∧
      ∃ (ndxs : List Nat) (e' : Elf) (s' : Elf_Scn),
        allocate_shstrtab_entries_ (scenario_file scenario_blob) 2
            [c_str ".symtab", c_str ".strtab"] = .ok ndxs e' ∧
        ndxs.length = 2 ∧
        (∀ i, i < 2 → ndxs.get? i
          = some (28 + strings_size ([c_str ".symtab", c_str ".strtab"].take i))) ∧
        elf_getscn e' 2 = some s' ∧
        s'.shdr = some { sh_name := 7, sh_type := SHT_STRTAB, sh_size := 28 } ∧
        s'.data = [{ d_buf := .bytes scenario_shstrtab, d_size := 28 }] ++
          [{ d_buf := .bytes (packed [c_str ".symtab", c_str ".strtab"]),
             d_size := strings_size [c_str ".symtab", c_str ".strtab"] }] ∧
        (packed [c_str ".symtab", c_str ".strtab"]).length
          = strings_size [c_str ".symtab", c_str ".strtab"] ∧
        (∀ k, k ≠ 2 → elf_getscn e' k = elf_getscn (scenario_file scenario_blob) k) ∧
        s'.contents = scenario_shstrtab ++ packed [c_str ".symtab", c_str ".strtab"] ∧
        (∀ p, p < 28 → s'.contents.get? p = scenario_shstrtab.get? p) ∧
        (∀ i name, [c_str ".symtab", c_str ".strtab"].get? i = some name →
          c_string_at s'.contents
            (28 + strings_size ([c_str ".symtab", c_str ".strtab"].take i)) = some name) :=
  ⟨by decide, by decide, by decide, by decide,
   C11_allocated_offsets (scenario_file scenario_blob) 2 [c_str ".symtab", c_str ".strtab"] 2
     { shdr := some { sh_name := 7, sh_type := SHT_STRTAB, sh_size := 28 },
       data := [{ d_buf := .bytes scenario_shstrtab, d_size := 28 }] }
     { sh_name := 7, sh_type := SHT_STRTAB, sh_size := 28 }
     (by decide) (by decide) (by decide) (by decide) rfl (by decide) (by decide)⟩

/-! ### C12 -/

/-- C12: in a container whose section headers and names all decode,
`elf_section_by_name` returns a result (never a failure); it returns the
section of index `k` exactly when `k` is the first section, in the container's
order, whose decoded name is the target, and it returns not-found exactly when
no section has that name.  The lookup is a query: it takes the container and
returns only the section, so the container is the same after it. -/
theorem C12_first_match (h : Elf) (shstrndx : Nat) (nam : Bytes)
    (hall : ∀ s ∈ h.scns, (scn_name h shstrndx s).isSome) :
    ∃ r, elf_section_by_name h shstrndx nam = .ok r ∧
      (∀ k, r = some k ↔
        (section_name h shstrndx k = some nam ∧
          ∀ j, j < k → section_name h shstrndx j ≠ some nam)) ∧
      (r = none ↔ ∀ k, section_name h shstrndx k ≠ some nam) := by
  cases hr : elf_section_by_name h shstrndx nam with
  | error f =>
    obtain ⟨i, s, hi, hs, _, _⟩ := scan_by_name_failed h shstrndx nam h.scns 1 f hr
    have := hall s (List.get?_mem hi)
    rw [hs] at this
    simp at this
  | ok r =>
    refine ⟨r, rfl, ?_⟩
    cases r with
    | none =>
      have hB := scan_by_name_none h shstrndx nam h.scns 1 hr
      have hno : ∀ k, section_name h shstrndx k ≠ some nam := by
        intro k hk
        cases k with
        | zero => simp [section_name_zero] at hk
        | succ k =>
          rw [section_name_eq] at hk
          by_cases hlt : k < h.scns.length
          · obtain ⟨n, hn, hne⟩ := hB k hlt
            rw [hn] at hk
            exact hne (Option.some.inj hk)
          · rw [List.get?_eq_none.mpr (by omega)] at hk
            simp at hk
      refine ⟨fun k => ⟨fun hk => by simp at hk, fun hk => absurd hk.1 (hno k)⟩, ?_⟩
      exact ⟨fun _ => hno, fun _ => rfl⟩
    | some k0 =>
      obtain ⟨i, hi, hm, hb⟩ := scan_by_name_found h shstrndx nam h.scns 1 k0 hr
      subst hi
      have hk0 : section_name h shstrndx (1 + i) = some nam := by
        rw [Nat.add_comm, section_name_eq]; exact hm
      have hbefore : ∀ j, j < 1 + i → section_name h shstrndx j ≠ some nam := by
        intro j hj hjn
        cases j with
        | zero => simp [section_name_zero] at hjn
        | succ j =>
          rw [section_name_eq] at hjn
          obtain ⟨n, hn, hne⟩ := hb j (by omega)
          rw [hn] at hjn
          exact hne (Option.some.inj hjn)
      refine ⟨fun k => ⟨fun hk => ?_, fun hk => ?_⟩, ?_⟩
      · have : 1 + i = k := Option.some.inj hk
        subst this
        exact ⟨hk0, hbefore⟩
      · rcases Nat.lt_trichotomy k (1 + i) with hlt | heq | hgt
        · exact absurd hk.1 (hbefore k hlt)
        · rw [heq]
        · exact absurd hk0 (hk.2 (1 + i) hgt)
      · exact ⟨fun hk => by simp at hk, fun hk => absurd hk0 (hk (1 + i))⟩

set_option maxRecDepth 100000 in
/-- C12 at the scenario container: all three sections decode, `.gopclntab` is
found at index 3 and it is the first section of that name. -/
theorem C12_first_match_witness :
    (∀ s ∈ (scenario_file scenario_blob).scns,
        (scn_name (scenario_file scenario_blob) 2 s).isSome) ∧
      ∃ r, elf_section_by_name (scenario_file scenario_blob) 2 (c_str ".gopclntab") = .ok r ∧
        (∀ k, r = some k ↔
          (section_name (scenario_file scenario_blob) 2 k = some (c_str ".gopclntab") ∧
            ∀ j, j < k →
              section_name (scenario_file scenario_blob) 2 j ≠ some (c_str ".gopclntab"))) ∧
        (r = none ↔
          ∀ k, section_name (scenario_file scenario_blob) 2 k ≠ some (c_str ".gopclntab")) :=
  ⟨by decide,
   C12_first_match (scenario_file scenario_blob) 2 (c_str ".gopclntab") (by decide)⟩

/-! ### C13 -/

/-- C13 (amended): `elf_section_by_name` fails exactly when a section whose
header or name cannot be decoded is met before any section of the target name,
that is, when some section `k` does not decode and every section before it
decodes to a name other than the target; the failure is then the header or the
name decoding error.  A section that does not decode but comes after the first
section of the target name is never looked at. -/
theorem C13_fails_iff_undecodable_first (h : Elf) (shstrndx : Nat) (nam : Bytes) :
    ((∃ f, elf_section_by_name h shstrndx nam = .error f) ↔
      ∃ k, 0 < k ∧ k ≤ h.scns.length ∧ section_name h shstrndx k = none ∧
        ∀ j, 0 < j → j < k → ∃ n, section_name h shstrndx j = some n ∧ n ≠ nam) ∧
    (∀ f, elf_section_by_name h shstrndx nam = .error f →
      f = .gelf_getshdr ∨ f = .elf_strptr) := by
  refine ⟨⟨?_, ?_⟩, ?_⟩
  · rintro ⟨f, hf⟩
    obtain ⟨i, s, hi, hs, _, hb⟩ := scan_by_name_failed h shstrndx nam h.scns 1 f hf
    refine ⟨i + 1, by omega, ?_, ?_, ?_⟩
    · have : i < h.scns.length := by
        by_contra hge
        rw [List.get?_eq_none.mpr (by omega)] at hi
        simp at hi
      omega
    · rw [section_name_eq, hi]; simpa using hs
    · intro j hj0 hj
      obtain ⟨j', rfl⟩ : ∃ j', j = j' + 1 := ⟨j - 1, by omega⟩
      rw [section_name_eq]
      exact hb j' (by omega)
  · rintro ⟨k, hk0, hkl, hk, hb⟩
    obtain ⟨k', rfl⟩ : ∃ k', k = k' + 1 := ⟨k - 1, by omega⟩
    rw [section_name_eq] at hk
    cases hr : elf_section_by_name h shstrndx nam with
    | error f => exact ⟨f, rfl⟩
    | ok r =>
      exfalso
      cases r with
      | none =>
        obtain ⟨n, hn, _⟩ := scan_by_name_none h shstrndx nam h.scns 1 hr k' (by omega)
        rw [hn] at hk
        simp at hk
      | some k0 =>
        obtain ⟨i, hi, hm, hb'⟩ := scan_by_name_found h shstrndx nam h.scns 1 k0 hr
        rcases Nat.lt_trichotomy i k' with hlt | heq | hgt
        · obtain ⟨n, hn, hne⟩ := hb (i + 1) (by omega) (by omega)
          rw [section_name_eq, hm] at hn
          exact hne (Option.some.inj hn).symm
        · rw [heq, hk] at hm
          simp at hm
        · obtain ⟨n, hn, _⟩ := hb' k' hgt
          rw [hn] at hk
          simp at hk
  · intro f hf
    exact scan_by_name_error h shstrndx nam h.scns 1 f hf

set_option maxRecDepth 100000 in
/-- C13 (amended) at a container whose first section has a name offset outside
the string table: the lookup of `.text` fails, with the name decoding error. -/
theorem C13_fails_iff_undecodable_first_witness :
    elf_section_by_name early_broken_file 3 (c_str ".text") = .error .elf_strptr ∧
      ((∃ f, elf_section_by_name early_broken_file 3 (c_str ".text") = .error f) ↔
        ∃ k, 0 < k ∧ k ≤ early_broken_file.scns.length ∧
          section_name early_broken_file 3 k = none ∧
          ∀ j, 0 < j → j < k →
            ∃ n, section_name early_broken_file 3 j = some n ∧ n ≠ c_str ".text") :=
  ⟨by decide, (C13_fails_iff_undecodable_first early_broken_file 3 (c_str ".text")).1⟩

set_option maxRecDepth 100000 in
/-- C13 as stated fails: in this container the fourth section has a header that
cannot be read, yet the lookup of `.text` returns the first section, because
the scan stops at the first match. -/
theorem C13_counterexample :
    (∃ s ∈ late_broken_file.scns, scn_name late_broken_file 2 s = none) ∧
      section_name late_broken_file 2 4 = none ∧
      elf_section_by_name late_broken_file 2 (c_str ".text") = .ok (some 1) := by
  refine ⟨⟨{ shdr := none }, by simp [late_broken_file], rfl⟩, by decide, by decide⟩

/-! ### C14 -/

/-- C14 (amended): let a run of the driver succeed on a container in which the
section named `.shstrtab` is the section-header string table (the section
`e_shstrndx`), the size in its header is the size of its contents, and the two
allocated name offsets fit in 32 bits.  Then in the produced container the
section created as `.symtab` (the second new section) is the first one whose
name decodes to ".symtab", `elf_section_by_name` finds it, and a second run on
the produced container stops with the ".symtab already present" failure with
the container in memory and on disk as the first run produced it: the stop
comes before the string-table allocation, the section creation and the persist
step. -/
theorem C14_second_run_refused (elf : Elf) (w1 w2 : Bool) (sh : Nat) (s : Elf_Scn)
    (hd : GElf_Shdr)
    (hok : (main 2 (.elf elf) w1).status = none)
    (hsh : elf.e_shstrndx = some sh)
    (hnamed : elf_section_by_name elf sh (c_str ".shstrtab") = .ok (some sh))
    (hscn : elf_getscn elf sh = some s) (hshdr : s.shdr = some hd)
    (hsize : hd.sh_size = s.contents.length)
    (hfit : hd.sh_size + 8 < 2 ^ 32) (hcount : elf.scns.length + 1 < 2 ^ 32) :
    ∃ F : Elf, (main 2 (.elf elf) w1).disk = .elf F ∧
      F.scns.length = elf.scns.length + 2 ∧
      section_name F sh (elf.scns.length + 2) = some (c_str ".symtab") ∧
      elf_section_by_name F sh (c_str ".symtab") = .ok (some (elf.scns.length + 2)) ∧
      main 2 (.elf F) w2 = { status := some .has_symtab, mem := some F, disk := .elf F } := by
  obtain ⟨sh', ss, s', hd', g, d, e4, h1, h2, h3, hf, hscn', hshdr', h5, h6, h7, hmain⟩ :=
    main_success elf w1 hok
  have e1 : sh' = sh := Option.some.inj (h1.symm.trans hsh)
  subst e1
  have e2 : ss = sh' := by
    have := hf.symm.trans hnamed
    simpa using this
  subst e2
  have e3 : s' = s := Option.some.inj (hscn'.symm.trans hscn)
  subst e3
  have e4' : hd' = hd := Option.some.inj (hshdr'.symm.trans hshdr)
  subst e4'
  obtain ⟨hlen, hshx, hext, hh1, hh2, hn1, hn2⟩ :=
    success_sections elf ss s' hd' d.content e4 hscn hsize hfit hcount h7
  have hFlen : (elf_update_layout e4).scns.length = elf.scns.length + 2 := by
    simp [elf_update_layout, hlen]
  have hFsh : (elf_update_layout e4).e_shstrndx = some ss := by
    show e4.e_shstrndx = some ss
    rw [hshx, hsh]
  have hsymname : section_name (elf_update_layout e4) ss (elf.scns.length + 2)
      = some (c_str ".symtab") := by
    rw [section_name_layout, section_name_eq_shdr, hh2]
    exact hn2
  have hstrname : section_name (elf_update_layout e4) ss (elf.scns.length + 1)
      = some (c_str ".strtab") := by
    rw [section_name_layout, section_name_eq_shdr, hh1]
    exact hn1
  have hfind : elf_section_by_name (elf_update_layout e4) ss (c_str ".symtab")
      = .ok (some (elf.scns.length + 2)) := by
    refine elf_section_by_name_first _ ss _ _ hsymname ?_
    intro j hj0 hj
    by_cases hjn : j ≤ elf.scns.length
    · obtain ⟨n, hn, hne⟩ := elf_section_by_name_none elf ss _ h2 j hj0 hjn
      exact ⟨n, by rw [section_name_layout]; exact section_name_extends elf e4 hext ss j n hn,
        hne⟩
    · have : j = elf.scns.length + 1 := by omega
      subst this
      exact ⟨_, hstrname, by decide⟩
  refine ⟨elf_update_layout e4, by rw [hmain], hFlen, hsymname, hfind, ?_⟩
  unfold main
  simp only [ne_eq, not_true_eq_false, if_false, hFsh, hfind]

set_option maxRecDepth 100000 in
/-- C14 (amended) at the scenario container: `.shstrtab` is section 2, the
section-header string table, of 28 bytes; the first run succeeds, the produced
container has 5 sections and the second run stops on `.symtab`, section 5. -/
theorem C14_second_run_refused_witness :
    (main 2 (.elf (scenario_file scenario_blob)) true).status = none ∧
      elf_section_by_name (scenario_file scenario_blob) 2 (c_str ".shstrtab") = .ok (some 2) ∧
      ∃ F : Elf, (main 2 (.elf (scenario_file scenario_blob)) true).disk = .elf F ∧
        F.scns.length = (scenario_file scenario_blob).scns.length + 2 ∧
        section_name F 2 ((scenario_file scenario_blob).scns.length + 2)
          = some (c_str ".symtab") ∧
        elf_section_by_name F 2 (c_str ".symtab")
          = .ok (some ((scenario_file scenario_blob).scns.length + 2)) ∧
        main 2 (.elf F) true
          = { status := some .has_symtab, mem := some F, disk := .elf F } :=
  ⟨by decide, by decide,
   C14_second_run_refused (scenario_file scenario_blob) true true 2
     { shdr := some { sh_name := 7, sh_type := SHT_STRTAB, sh_size := 28 },
       data := [{ d_buf := .bytes scenario_shstrtab, d_size := 28 }] }
     { sh_name := 7, sh_type := SHT_STRTAB, sh_size := 28 }
     (by decide) rfl (by decide) rfl rfl (by decide) (by decide) (by decide)⟩

set_option maxRecDepth 100000 in
/-- C14 as stated fails: in `odd_names_file` the section named `.shstrtab`
(section 4) is not the section-header string table (section 2).  The run
succeeds; the offsets allocated in section 4 are resolved in section 2, so the
new sections are named "ames" and ".text" and no section is named ".symtab";
the second run finds no `.symtab`, succeeds as well and changes the container
again. -/
theorem C14_counterexample :
    (main 2 (.elf odd_names_file) true).status = none ∧
      odd_names_file.e_shstrndx = some 2 ∧
      elf_section_by_name odd_names_file 2 (c_str ".shstrtab") = .ok (some 4) ∧
      (main 2 (.elf odd_names_file) true).mem.map
        (fun m => elf_section_by_name m 2 (c_str ".symtab")) = some (.ok none) ∧
      (main 2 (main 2 (.elf odd_names_file) true).disk true).status = none ∧
      (main 2 (main 2 (.elf odd_names_file) true).disk true).disk
        ≠ (main 2 (.elf odd_names_file) true).disk := by
  decide

/-! ### C15 -/

set_option maxRecDepth 100000 in
/-- C15 at a container with `.gopclntab` and no `.text`, whose section-header
string table is not the section named `.shstrtab`: the two names are allocated
at offsets 1 and 9 of section 3, the new sections get these name offsets, and
they resolve inside the 29 bytes of section 1 to ".names" and "gopclntab".  In
each container the run scans (the input, the one with the two sections added,
the one at the lookup of `.text`) every name offset lies below the header size
of the string table, so the lookups give the same with the checked resolver.
The lookup of `.text` finds nothing, no check follows, the section index is
taken as 0, and the run succeeds: the persisted container has 5 sections, none
named `.text`, and the two symbols of its last section have `st_shndx` 0. -/
theorem C15_missing_text_run :
    (∀ k, k < 4 → section_name (no_text_file scenario_blob) 1 k ≠ some (c_str ".text")) ∧
      elf_section_by_name (no_text_file scenario_blob) 1 (c_str ".gopclntab") = .ok (some 2) ∧
      elf_section_by_name (no_text_file scenario_blob) 1 (c_str ".shstrtab") = .ok (some 3) ∧
      names_in_size (no_text_file scenario_blob) 1 ∧
      names_in_size (sections_added (no_text_file scenario_blob) 3 1) 1 ∧
      names_in_size (prepared (sections_added (no_text_file scenario_blob) 3 1) 4 5 8) 1 ∧
      elf_section_by_name (prepared (sections_added (no_text_file scenario_blob) 3 1) 4 5 8) 1
        (c_str ".text") = .ok none ∧
      scan_keys (elf_strptr_sized (prepared (sections_added (no_text_file scenario_blob) 3 1)
          4 5 8) 1) (c_str ".text")
        ((prepared (sections_added (no_text_file scenario_blob) 3 1) 4 5 8).scns.map name_key) 1
        = .ok none ∧
      (process_pclntab (sections_added (no_text_file scenario_blob) 3 1) 1 scenario_blob
        4 5).failure = none ∧
      main 2 (.elf (no_text_file scenario_blob)) true
        = { status := none,
            mem := some (elf_update_layout (process_pclntab
              (sections_added (no_text_file scenario_blob) 3 1) 1 scenario_blob 4 5).elf),
            disk := .elf (elf_update_layout (process_pclntab
              (sections_added (no_text_file scenario_blob) 3 1) 1 scenario_blob 4 5).elf) } ∧
      (main 2 (.elf (no_text_file scenario_blob)) true).mem.map (fun m => m.scns.length)
        = some 5 ∧
      (main 2 (.elf (no_text_file scenario_blob)) true).mem.bind (fun m => gelf_getshdr m 5)
        = some { sh_name := 1, sh_type := SHT_SYMTAB, sh_size := 48, sh_link := 4,
                 sh_addralign := 8, sh_entsize := 24 } ∧
      (main 2 (.elf (no_text_file scenario_blob)) true).mem.bind
          (fun m => (last_data m 5).map (fun d => d.d_buf))
        = some (.syms [
            { st_name := 1, st_info := 0x12, st_other := 0, st_shndx := 0,
              st_value := 0x1000, st_size := 0 },
            { st_name := 10, st_info := 0x12, st_other := 0, st_shndx := 0,
              st_value := 0x1010, st_size := 0 }]) ∧
      ∀ k, k < 6 →
        (main 2 (.elf (no_text_file scenario_blob)) true).mem.bind
          (fun m => section_name m 1 k) ≠ some (c_str ".text") := by
  decide

/-! ### C16 -/

/-- C16 (amended): let a run of the driver succeed on a container in which the
section named `.shstrtab` is the section-header string table, the size `S` in
its header is the size of its contents, and the new name offsets and section
index fit in 32 bits; let `n` be its number of sections and `d` the data of its
`.gopclntab`.  Then the container `e4` that `process_pclntab` returns and
`main` hands to the persist step has `n + 2` sections, the sections of the
input are still there, section `n + 1` has type STRTAB, address alignment 1 and
a name offset that resolves to ".strtab", section `n + 2` has type SYMTAB, a
name offset that resolves to ".symtab", `sh_link` `n + 1`, address alignment
the `addr_size` of the blob and entry size 24, and in both headers the size
field is still 0: only the layout pass of the persist step sets it. -/
theorem C16_sections_handed_over (elf : Elf) (w : Bool) (sh : Nat) (s : Elf_Scn)
    (hd : GElf_Shdr)
    (hok : (main 2 (.elf elf) w).status = none)
    (hsh : elf.e_shstrndx = some sh)
    (hnamed : elf_section_by_name elf sh (c_str ".shstrtab") = .ok (some sh))
    (hscn : elf_getscn elf sh = some s) (hshdr : s.shdr = some hd)
    (hsize : hd.sh_size = s.contents.length)
    (hfit : hd.sh_size + 8 < 2 ^ 32) (hcount : elf.scns.length + 1 < 2 ^ 32) :
    ∃ (g : Nat) (d : Elf_Data) (e4 : Elf),
      elf_section_by_name elf sh (c_str ".gopclntab") = .ok (some g) ∧
      elf_rawdata elf g = some d ∧
      process_pclntab (sections_added elf sh hd.sh_size) sh d.content
        (elf.scns.length + 1) (elf.scns.length + 2) = .ok () e4 ∧
      (main 2 (.elf elf) w).mem = some (elf_update_layout e4) ∧
      e4.scns.length = elf.scns.length + 2 ∧
      elf_extends elf e4 ∧
      gelf_getshdr e4 (elf.scns.length + 1)
        = some { sh_name := hd.sh_size + 8, sh_type := SHT_STRTAB, sh_size := 0, sh_link := 0,
                 sh_addralign := 1, sh_entsize := 0 } ∧
      elf_strptr e4 sh (hd.sh_size + 8) = some (c_str ".strtab") ∧
      gelf_getshdr e4 (elf.scns.length + 2)
        = some { sh_name := hd.sh_size, sh_type := SHT_SYMTAB, sh_size := 0,
                 sh_link := elf.scns.length + 1,
                 sh_addralign := hdr_addr_size d.content, sh_entsize := 24 } ∧
      elf_strptr e4 sh hd.sh_size = some (c_str ".symtab") := by
  obtain ⟨sh', ss, s', hd', g, d, e4, h1, h2, h3, hf, hscn', hshdr', h5, h6, h7, hmain⟩ :=
    main_success elf w hok
  have e1 : sh' = sh := Option.some.inj (h1.symm.trans hsh)
  subst e1
  have e2 : ss = sh' := by
    have := hf.symm.trans hnamed
    simpa using this
  subst e2
  have e3 : s' = s := Option.some.inj (hscn'.symm.trans hscn)
  subst e3
  have e4' : hd' = hd := Option.some.inj (hshdr'.symm.trans hshdr)
  subst e4'
  obtain ⟨hlen, _, hext, hh1, hh2, hn1, hn2⟩ :=
    success_sections elf ss s' hd' d.content e4 hscn hsize hfit hcount h7
  obtain ⟨hg, hraw⟩ := gopclntab_in_input elf ss ss hd'.sh_size g d h2 hf h5 h6
  exact ⟨g, d, e4, hg, hraw, h7, by rw [hmain], hlen, hext, hh1, hn1, hh2, hn2⟩

set_option maxRecDepth 100000 in
/-- C16 (amended) at the scenario container: 3 sections, `.shstrtab` is
section 2 with 28 bytes; the run succeeds, `.strtab` is section 4 with name
offset 36 and `.symtab` section 5 with name offset 28, `sh_link` 4 and
alignment 8. -/
theorem C16_sections_handed_over_witness :
    (main 2 (.elf (scenario_file scenario_blob)) true).status = none ∧
      elf_section_by_name (scenario_file scenario_blob) 2 (c_str ".shstrtab") = .ok (some 2) ∧
      ∃ (g : Nat) (d : Elf_Data) (e4 : Elf),
        elf_section_by_name (scenario_file scenario_blob) 2 (c_str ".gopclntab")
          = .ok (some g) ∧
        elf_rawdata (scenario_file scenario_blob) g = some d ∧
        process_pclntab (sections_added (scenario_file scenario_blob) 2 28) 2 d.content
          (3 + 1) (3 + 2) = .ok () e4 ∧
        (main 2 (.elf (scenario_file scenario_blob)) true).mem
          = some (elf_update_layout e4) ∧
        e4.scns.length = 3 + 2 ∧
        elf_extends (scenario_file scenario_blob) e4 ∧
        gelf_getshdr e4 (3 + 1)
          = some { sh_name := 28 + 8, sh_type := SHT_STRTAB, sh_size := 0, sh_link := 0,
                   sh_addralign := 1, sh_entsize := 0 } ∧
        elf_strptr e4 2 (28 + 8) = some (c_str ".strtab") ∧
        gelf_getshdr e4 (3 + 2)
          = some { sh_name := 28, sh_type := SHT_SYMTAB, sh_size := 0, sh_link := 3 + 1,
                   sh_addralign := hdr_addr_size d.content, sh_entsize := 24 } ∧
        elf_strptr e4 2 28 = some (c_str ".symtab") :=
  ⟨by decide, by decide,
   C16_sections_handed_over (scenario_file scenario_blob) true 2
     { shdr := some { sh_name := 7, sh_type := SHT_STRTAB, sh_size := 28 },
       data := [{ d_buf := .bytes scenario_shstrtab, d_size := 28 }] }
     { sh_name := 7, sh_type := SHT_STRTAB, sh_size := 28 }
     (by decide) rfl (by decide) rfl rfl (by decide) (by decide) (by decide)⟩

set_option maxRecDepth 100000 in
/-- C16 as stated fails: on `odd_names_file`, whose section named `.shstrtab`
(section 4) is not the section-header string table (section 2), the run
succeeds and the container has two more sections, but the name offset of the
new STRTAB section (9) resolves to "ames" and that of the new SYMTAB section
(1) to ".text": no section is named ".strtab" or ".symtab". -/
theorem C16_counterexample :
    (main 2 (.elf odd_names_file) true).status = none ∧
      elf_section_by_name odd_names_file 2 (c_str ".shstrtab") = .ok (some 4) ∧
      (main 2 (.elf odd_names_file) true).mem.map (fun m => m.scns.length) = some (4 + 2) ∧
      (main 2 (.elf odd_names_file) true).mem.bind (fun m => gelf_getshdr m 5)
        = some { sh_name := 9, sh_type := SHT_STRTAB, sh_size := 19, sh_addralign := 1 } ∧
      (main 2 (.elf odd_names_file) true).mem.bind (fun m => section_name m 2 5)
        = some (c_str "ames") ∧
      (main 2 (.elf odd_names_file) true).mem.bind (fun m => gelf_getshdr m 6)
        = some { sh_name := 1, sh_type := SHT_SYMTAB, sh_size := 48, sh_link := 5,
                 sh_addralign := 8, sh_entsize := 24 } ∧
      (main 2 (.elf odd_names_file) true).mem.bind (fun m => section_name m 2 6)
        = some (c_str ".text") ∧
      ∀ k, k < 7 →
        (main 2 (.elf odd_names_file) true).mem.bind (fun m => section_name m 2 k)
            ≠ some (c_str ".strtab") ∧
          (main 2 (.elf odd_names_file) true).mem.bind (fun m => section_name m 2 k)
            ≠ some (c_str ".symtab") := by
  decide

/-! ### C17 -/

set_option maxRecDepth 100000 in
/-- C17: the decoder does not bounds-check `name_addr` or `name_table_offset`.
There is a blob with valid magic, `addr_size` 8 and one entry whose `name_addr`
(0x1000) lies beyond the blob length (44): the header, the count and both table
fields are read, the 4 bytes of `name_addr` are read, and the run stops at the
read of the name with the out-of-bounds fault, not with a format error.  There
is also one whose `name_table_offset` (0x2000) lies beyond the blob length
(32): the run stops at the read of `name_addr` with the same fault. -/
theorem C17_name_addr_unchecked :
    (field name_oob_blob 4 0 = 0xfffffffb ∧ hdr_addr_size name_oob_blob = 8 ∧
      1 ≤ func_count name_oob_blob ∧
      name_oob_blob.length ≤ name_addr name_oob_blob 0 ∧
      get_uptr name_oob_blob 8 8 = .ok (1, 16) ∧
      get_uptr name_oob_blob 16 8 = .ok (0x1000, 24) ∧
      get_uptr name_oob_blob 24 8 = .ok (32, 32) ∧
      peek name_oob_blob (32 + 8) 4 = some (le_bytes 4 0x1000) ∧
      c_string_at name_oob_blob 0x1000 = none ∧
      (process_pclntab (scenario_mem name_oob_blob) 2 name_oob_blob 4 5).failure
        = some .fault) ∧
    (field table_oob_blob 4 0 = 0xfffffffb ∧ hdr_addr_size table_oob_blob = 8 ∧
      1 ≤ func_count table_oob_blob ∧
      table_oob_blob.length ≤ name_table_offset table_oob_blob 0 ∧
      get_uptr table_oob_blob 24 8 = .ok (0x2000, 32) ∧
      peek table_oob_blob (0x2000 + 8) 4 = none ∧
      (process_pclntab (scenario_mem table_oob_blob) 2 table_oob_blob 4 5).failure
        = some .fault) := by
  decide

/-! ### C18 -/

set_option maxRecDepth 100000 in
/-- C18 at a blob with pointer width 4: the 20-byte blob `tight_blob4`
satisfies every bound of the claim (length `8 + a + 2aN`, name table entry and
name inside the blob), yet `get_uptr` copies 8 bytes at offset 16 for the last
4-byte field, so the read covers indices 20 to 23 and the run takes the
out-of-bounds branch; the same happens at the count of the 12-byte blob with no
entry. -/
theorem C18_pointer_read_overruns :
    SpecBounds tight_blob4 ∧ tight_blob4.length = 20 ∧ hdr_addr_size tight_blob4 = 4 ∧
      func_count tight_blob4 = 1 ∧
      get_uptr tight_blob4 12 4 = .ok (4, 16) ∧
      peek tight_blob4 16 8 = none ∧
      get_uptr tight_blob4 16 4 = .error .fault ∧
      (process_pclntab (scenario_mem tight_blob4) 2 tight_blob4 4 5).failure = some .fault ∧
    SpecBounds empty_blob4 ∧ empty_blob4.length = 12 ∧
      get_uptr empty_blob4 8 4 = .error .fault ∧
      (process_pclntab (scenario_mem empty_blob4) 2 empty_blob4 4 5).failure = some .fault := by
  decide


end Gounstrip
